import Mathlib

/-!
Verification of the hashtable library (Chained, Probing, Robin-Hood Probing,
Cuckoo engines from src/include/chained.hpp, probing.hpp, cuckoo.hpp).

Modelling conventions:
* keys are natural numbers; the C++ `Key` is a fixed-width unsigned integer
  whose maximal value is the sentinel, so every valid key satisfies `k ≤ S`
  and every non-sentinel key satisfies `k < S`;
* payloads are an arbitrary inhabited type `V` (default-constructed payloads
  of empty slots are `default`);
* directories and buckets are lists; out-of-range reads use `List.getD`,
  which the well-formedness invariants keep in range;
* the hash function, the reducers and the probing functions are parameters,
  exactly as the C++ templates take them;
* unbounded loops take an explicit fuel argument; running out of fuel is a
  distinguished error that provably does not occur at the canonical fuel for
  the loops the C++ code bounds (probing steps, kick counter).
-/

set_option maxHeartbeats 1000000

namespace Hashtable

/-! ### Probe functions (src/include/probing.hpp, lines 13-53) -/

/-- The repeated-subtraction loop in `LinearProbingFunc::operator()`:
`while (next >= directory_size) next -= directory_size`. -/
def subMod (n d : Nat) : Nat :=
  if h : 0 < d ∧ d ≤ n then subMod (n - d) d else n
termination_by n
decreasing_by
  exact Nat.sub_lt (Nat.lt_of_lt_of_le h.1 h.2) h.1

/-- `LinearProbingFunc::operator()(index, probing_step)` over directory size `d`. -/
def linearProbe (d idx step : Nat) : Nat :=
  subMod (idx + step) d

/-- `QuadraticProbingFunc::operator()(index, probing_step)` over directory size `d`;
the libdivide magic division computes exactly the remainder of the division. -/
def quadraticProbe (d idx step : Nat) : Nat :=
  (idx + step * step) % d

theorem subMod_eq_mod (d : Nat) (hd : 0 < d) : ∀ n, subMod n d = n % d := by
  intro n
  induction n using Nat.strong_induction_on with
  | _ n ih =>
    rw [subMod]
    by_cases h : d ≤ n
    · rw [dif_pos ⟨hd, h⟩, ih (n - d) (Nat.sub_lt (Nat.lt_of_lt_of_le hd h) hd),
        Nat.mod_eq_sub_mod h]
    · rw [dif_neg (by tauto), Nat.mod_eq_of_lt (Nat.lt_of_not_le h)]

/-- The facts about a probing function that the probing engines rely on: it
returns a directory index, and at probing step `D` (the directory size) it
returns to the origin, so the cycle check fires after at most `D` steps. -/
structure GoodProbe (D : Nat) (probe : Nat → Nat → Nat) : Prop where
  lt : ∀ o q, o < D → probe o q < D
  cyc : ∀ o, o < D → probe o D = o

theorem goodProbe_linear (D : Nat) (hD : 0 < D) : GoodProbe D (linearProbe D) := by
  constructor
  · intro o q ho
    rw [linearProbe, subMod_eq_mod D hD]
    exact Nat.mod_lt _ hD
  · intro o ho
    rw [linearProbe, subMod_eq_mod D hD, Nat.add_mod_right, Nat.mod_eq_of_lt ho]

theorem goodProbe_quadratic (D : Nat) (hD : 0 < D) : GoodProbe D (quadraticProbe D) := by
  constructor
  · intro o q ho
    exact Nat.mod_lt _ hD
  · intro o ho
    rw [quadraticProbe, Nat.add_mul_mod_self_left, Nat.mod_eq_of_lt ho]

/-- The index visited at probing step `q` from origin `o`: the C++ walks start
at `slot_index = orig_slot_index` and call the probing function from step 1 on. -/
def walkIdx (probe : Nat → Nat → Nat) (o q : Nat) : Nat :=
  if q = 0 then o else probe o q

theorem walkIdx_zero (probe : Nat → Nat → Nat) (o : Nat) : walkIdx probe o 0 = o := rfl

theorem walkIdx_pos (probe : Nat → Nat → Nat) (o q : Nat) (hq : q ≠ 0) :
    walkIdx probe o q = probe o q := by
  simp [walkIdx, hq]

theorem walkIdx_lt {D : Nat} {probe : Nat → Nat → Nat} (gp : GoodProbe D probe)
    {o : Nat} (ho : o < D) (q : Nat) : walkIdx probe o q < D := by
  unfold walkIdx
  split
  · exact ho
  · exact gp.lt o q ho

/-! ### List access helpers -/

theorem getD_lt {α : Type} (l : List α) (i : Nat) (d : α) (h : i < l.length) :
    l.getD i d = l[i] := by
  simp [List.getD, List.getElem?_eq_getElem h]

theorem getD_ge {α : Type} (l : List α) (i : Nat) (d : α) (h : l.length ≤ i) :
    l.getD i d = d := by
  simp [List.getD, List.getElem?_eq_none h]

theorem getD_set_self {α : Type} (l : List α) (i : Nat) (x d : α) (h : i < l.length) :
    (l.set i x).getD i d = x := by
  simp [List.getD, List.getElem?_set_self, h]

theorem getD_set_ne {α : Type} (l : List α) (i j : Nat) (x d : α) (h : i ≠ j) :
    (l.set i x).getD j d = l.getD j d := by
  simp [List.getD, List.getElem?_set_ne h]

/-- Decompose a list at a valid index. -/
theorem decomp_at {α : Type} (l : List α) (i : Nat) (d : α) (h : i < l.length) :
    l = l.take i ++ l.getD i d :: l.drop (i + 1) := by
  rw [getD_lt l i d h]
  conv_lhs => rw [← List.take_append_drop i l]
  rw [List.drop_eq_getElem_cons h]

theorem set_decomp {α : Type} (l : List α) (i : Nat) (x : α) (h : i < l.length) :
    l.set i x = l.take i ++ x :: l.drop (i + 1) :=
  List.set_eq_take_cons_drop x h

/-! ### Slot types -/

/-- A key/payload slot, as used by `Probing`, the chain buckets of `Chained`
and the buckets of `Cuckoo`. An empty slot carries the sentinel key. -/
structure PSlot (V : Type) where
  key : Nat
  payload : V
deriving Repr, DecidableEq

/-- A Robin-Hood slot: key, payload and probe-sequence length. -/
structure RSlot (V : Type) where
  key : Nat
  payload : V
  psl : Nat
deriving Repr, DecidableEq

variable {V : Type}

/-! ### Generic pieces shared by the open-addressing engines

The lookup loops of `Probing::lookup` (probing.hpp lines 141-167) and
`RobinhoodProbing::lookup` (lines 372-398) are identical except for the slot
type, so they are modelled once, parameterized by the key and payload
projections `kf` and `pf` of the slot type `σ`. -/

section GenericLookup

variable {σ : Type} (S : Nat) (kf : σ → Nat) (pf : σ → V)

/-- The in-bucket scan of the lookup loops: for each slot in order, a key
match returns the payload, a sentinel returns a miss, otherwise continue;
`none` means the bucket was scanned completely without an answer. -/
def bucketFind (k : Nat) : List σ → Option (Option V)
  | [] => none
  | s :: ss =>
    if kf s = k then some (some (pf s))
    else if kf s = S then some none
    else bucketFind k ss

variable (probe : Nat → Nat → Nat)

/-- The probing lookup loop: scan the bucket at `idx`; if it neither hits nor
reaches an empty slot, advance to the next probe index and return a miss when
the walk cycles back to the origin.  The outer `Option` is the fuel monitor:
`none` means the fuel ran out (which cannot happen with fuel `≥ D` for a
probing function satisfying `GoodProbe`). -/
def lookupWalk (t : List (List σ)) (k o idx step : Nat) : Nat → Option (Option V)
  | 0 => none
  | fuel + 1 =>
    match bucketFind S kf pf k (t.getD idx []) with
    | some r => some r
    | none =>
      let idx2 := probe o (step + 1)
      if idx2 = o then some none
      else lookupWalk t k o idx2 (step + 1) fuel

/-- `lookup(key)` for the probing engines: sentinel keys are rejected before
the walk; the walk is run with fuel `D` (the directory size). -/
def lookupT (red hash : Nat → Nat) (t : List (List σ)) (k : Nat) : Option (Option V) :=
  if k = S then some none
  else lookupWalk S kf pf probe t k (red (hash k)) (red (hash k)) 0 t.length

end GenericLookup

section GenericLookupLemmas

variable {σ : Type} {S : Nat} {kf : σ → Nat} {pf : σ → V}

theorem bucketFind_none {k : Nat} {b : List σ}
    (h : ∀ s ∈ b, kf s ≠ k ∧ kf s ≠ S) : bucketFind S kf pf k b = none := by
  induction b with
  | nil => rfl
  | cons s ss ih =>
    have hs := h s (by simp)
    rw [bucketFind, if_neg hs.1, if_neg hs.2]
    exact ih fun x hx => h x (by simp [hx])

theorem bucketFind_hit {k : Nat} {b : List σ} {j : Nat} (hj : j < b.length)
    (hkey : kf b[j] = k)
    (hpre : ∀ j2 (hj2 : j2 < j),
      kf (b[j2]) ≠ k ∧ kf (b[j2]) ≠ S) :
    bucketFind S kf pf k b = some (some (pf b[j])) := by
  induction b generalizing j with
  | nil => simp at hj
  | cons s ss ih =>
    cases j with
    | zero =>
      simp only [List.getElem_cons_zero] at hkey ⊢
      rw [bucketFind, if_pos hkey]
    | succ j =>
      have h0 := hpre 0 (Nat.succ_pos j)
      simp only [List.getElem_cons_zero] at h0
      simp only [List.getElem_cons_succ] at hkey ⊢
      rw [bucketFind, if_neg h0.1, if_neg h0.2]
      exact ih (by simpa using hj) hkey
        (fun j2 hj2 => by simpa using hpre (j2 + 1) (by omega))

theorem bucketFind_some_some {k : Nat} {b : List σ} {v : V}
    (h : bucketFind S kf pf k b = some (some v)) : ∃ s ∈ b, kf s = k ∧ pf s = v := by
  induction b with
  | nil => simp [bucketFind] at h
  | cons s ss ih =>
    rw [bucketFind] at h
    split at h
    · exact ⟨s, by simp, by assumption, by simpa using h⟩
    · split at h
      · simp at h
      · obtain ⟨x, hx, hk, hv⟩ := ih h
        exact ⟨x, by simp [hx], hk, hv⟩

variable {probe : Nat → Nat → Nat} {D : Nat}

/-- Fuel adequacy of the lookup walk: with a `GoodProbe` probing function the
cycle check `slot_index == orig_slot_index` fires after at most `D` probe
steps, so fuel `D - step` never runs out (claim C10's engine-level content). -/
theorem lookupWalk_isSome (gp : GoodProbe D probe) {o : Nat} (ho : o < D)
    {t : List (List σ)} {k : Nat} :
    ∀ fuel step idx, step < D → D - step ≤ fuel →
      (lookupWalk S kf pf probe t k o idx step fuel).isSome := by
  intro fuel
  induction fuel with
  | zero => intro step idx hstep hfuel; omega
  | succ fuel ih =>
    intro step idx hstep _
    rw [lookupWalk]
    cases hbf : bucketFind S kf pf k (t.getD idx []) with
    | some r => simp
    | none =>
      simp only
      split
      · simp
      · rename_i hne
        have hlt : step + 1 < D := by
          rcases Nat.lt_or_ge (step + 1) D with h | h
          · exact h
          · exfalso
            have : step + 1 = D := by omega
            exact hne (this ▸ gp.cyc o ho)
        exact ih (step + 1) _ hlt (by omega)

/-- If the key occurs in no bucket of the table, the walk can never produce a
hit. -/
theorem lookupWalk_no_hit {t : List (List σ)} {k : Nat}
    (hk : ∀ b ∈ t, ∀ s ∈ b, kf s ≠ k) :
    ∀ fuel step idx o v, lookupWalk S kf pf probe t k o idx step fuel ≠ some (some v) := by
  intro fuel
  induction fuel with
  | zero => intro step idx o v h; simp [lookupWalk] at h
  | succ fuel ih =>
    intro step idx o v h
    rw [lookupWalk] at h
    cases hbf : bucketFind S kf pf k (t.getD idx []) with
    | some r =>
      rw [hbf] at h
      simp only [Option.some.injEq] at h
      subst h
      obtain ⟨s, hs, hsk, -⟩ := bucketFind_some_some hbf
      rcases Nat.lt_or_ge idx t.length with hidx | hidx
      · rw [getD_lt _ _ _ hidx] at hs
        exact hk _ (List.getElem_mem hidx) s hs hsk
      · rw [getD_ge _ _ _ hidx] at hs
        simp at hs
    | none =>
      rw [hbf] at h
      simp only at h
      split at h
      · simp at h
      · exact ih _ _ _ _ h

/-- A key absent from the table is reported as a miss (with adequate fuel). -/
theorem lookupWalk_miss (gp : GoodProbe D probe) {o : Nat} (ho : o < D)
    {t : List (List σ)} {k : Nat} (hk : ∀ b ∈ t, ∀ s ∈ b, kf s ≠ k)
    (hD : t.length = D) (hDpos : 0 < D) :
    lookupWalk S kf pf probe t k o o 0 t.length = some none := by
  have h1 : (lookupWalk S kf pf probe t k o o 0 t.length).isSome :=
    lookupWalk_isSome gp ho t.length 0 o hDpos (by omega)
  cases hres : lookupWalk S kf pf probe t k o o 0 t.length with
  | none => rw [hres] at h1; simp at h1
  | some r =>
    cases r with
    | none => rfl
    | some v => exact absurd hres (lookupWalk_no_hit hk _ _ _ _ _)

/-- In a bucket whose slots are all occupied and where any slot holding `k`
carries payload `v`, the in-bucket scan either finds nothing or finds `v`. -/
theorem bucketFind_full_cases {k : Nat} {v : V} {b : List σ}
    (h : ∀ s ∈ b, kf s ≠ S ∧ (kf s = k → pf s = v)) :
    bucketFind S kf pf k b = none ∨ bucketFind S kf pf k b = some (some v) := by
  induction b with
  | nil => exact Or.inl rfl
  | cons s ss ih =>
    have hs := h s (by simp)
    by_cases hk : kf s = k
    · right
      rw [bucketFind, if_pos hk, hs.2 hk]
    · rw [bucketFind, if_neg hk, if_neg hs.1]
      exact ih fun x hx => h x (by simp [hx])

/-- The walk finds a stored entry: if `k`'s slot sits at probing step `p` of
its walk, every earlier bucket on the walk is full (and can only hold `k`
with the same payload `v`), the cycle check does not fire before step `p`,
and `k`'s bucket at step `p` yields `v`, then the walk returns its payload. -/
theorem lookupWalk_hit {o : Nat}
    {t : List (List σ)} {k : Nat} {v : V} {p : Nat} (hp : p < D)
    (hcyc : ∀ q, 1 ≤ q → q ≤ p → probe o q ≠ o)
    (hfull : ∀ q < p, ∀ s ∈ t.getD (walkIdx probe o q) [],
      kf s ≠ S ∧ (kf s = k → pf s = v))
    (hhit : bucketFind S kf pf k (t.getD (walkIdx probe o p) []) = some (some v)) :
    ∀ fuel step, step ≤ p → D - step ≤ fuel →
      lookupWalk S kf pf probe t k o (walkIdx probe o step) step fuel = some (some v) := by
  intro fuel
  induction fuel with
  | zero => intro step hstep hfuel; omega
  | succ fuel ih =>
    intro step hstep _
    rw [lookupWalk]
    rcases Nat.lt_or_ge step p with hlt | hge
    · rcases bucketFind_full_cases (hfull step hlt) with hbf | hbf
      · rw [hbf]
        simp only
        rw [if_neg (by simpa [walkIdx] using hcyc (step + 1) (by omega) (by omega))]
        have := walkIdx_pos probe o (step + 1) (by omega)
        rw [← this]
        exact ih (step + 1) (by omega) (by omega)
      · rw [hbf]
    · have hsp : step = p := by omega
      subst hsp
      rw [hhit]

end GenericLookupLemmas

/-! ### Table contents as key/payload pairs -/

section Pairs

variable {σ : Type} (S : Nat) (kf : σ → Nat) (pf : σ → V)

/-- The key/payload pairs of the occupied slots of a slot list, in slot order. -/
def pairsOf (l : List σ) : List (Nat × V) :=
  (l.filter (fun s => kf s != S)).map (fun s => (kf s, pf s))

/-- The key/payload pairs of all occupied slots of a bucket table. -/
def tabPairs (t : List (List σ)) : List (Nat × V) :=
  pairsOf S kf pf t.flatten

end Pairs

section PairsLemmas

variable {σ : Type} {S : Nat} {kf : σ → Nat} {pf : σ → V}

theorem pairsOf_append (l1 l2 : List σ) :
    pairsOf S kf pf (l1 ++ l2) = pairsOf S kf pf l1 ++ pairsOf S kf pf l2 := by
  simp [pairsOf]

theorem pairsOf_cons (s : σ) (l : List σ) :
    pairsOf S kf pf (s :: l) =
      (if kf s ≠ S then [(kf s, pf s)] else []) ++ pairsOf S kf pf l := by
  by_cases h : kf s = S <;> simp [pairsOf, List.filter_cons, h]

theorem mem_pairsOf_iff {k : Nat} {v : V} {l : List σ} :
    (k, v) ∈ pairsOf S kf pf l ↔ ∃ s ∈ l, kf s = k ∧ pf s = v ∧ k ≠ S := by
  constructor
  · intro h
    obtain ⟨s, hs, heq⟩ := List.mem_map.mp h
    obtain ⟨hmem, hne⟩ := List.mem_filter.mp hs
    obtain ⟨h1, h2⟩ := Prod.mk.injEq .. ▸ heq
    exact ⟨s, hmem, by simp_all, by simp_all, by simp_all [bne_iff_ne]⟩
  · rintro ⟨s, hs, h1, h2, h3⟩
    exact List.mem_map.mpr ⟨s, List.mem_filter.mpr ⟨hs, by simp [bne_iff_ne, h1 ▸ h3]⟩,
      by simp [h1, h2]⟩

theorem mem_keys_iff {k : Nat} {t : List (List σ)} :
    k ∈ (tabPairs S kf pf t).map Prod.fst ↔
      ∃ s ∈ t.flatten, kf s = k ∧ k ≠ S := by
  rw [tabPairs]
  constructor
  · intro h
    obtain ⟨⟨k2, v⟩, hm, hk⟩ := List.mem_map.mp h
    simp only at hk
    subst hk
    obtain ⟨s, hs, h1, h2, h3⟩ := mem_pairsOf_iff.mp hm
    exact ⟨s, hs, h1, h3⟩
  · rintro ⟨s, hs, h1, h2⟩
    exact List.mem_map.mpr ⟨(k, pf s), mem_pairsOf_iff.mpr ⟨s, hs, h1, rfl, h2⟩, rfl⟩

/-- Decomposition of `tabPairs` at a directory index: setting bucket `i`
replaces its contribution in place. -/
theorem tabPairs_set_decomp {t : List (List σ)} {i : Nat} (hi : i < t.length) :
    ∃ A C : List (Nat × V),
      tabPairs S kf pf t = A ++ pairsOf S kf pf (t.getD i []) ++ C ∧
      ∀ b2, tabPairs S kf pf (t.set i b2) = A ++ pairsOf S kf pf b2 ++ C := by
  refine ⟨pairsOf S kf pf (t.take i).flatten, pairsOf S kf pf (t.drop (i + 1)).flatten, ?_, ?_⟩
  · conv_lhs => rw [tabPairs, decomp_at t i [] hi]
    simp [pairsOf_append]
  · intro b2
    rw [tabPairs, set_decomp t i b2 hi]
    simp [pairsOf_append]

theorem mem_flatten_idx {s : σ} {t : List (List σ)} :
    s ∈ t.flatten ↔ ∃ i, ∃ hi : i < t.length, s ∈ t[i] := by
  rw [List.mem_flatten]
  constructor
  · rintro ⟨b, hb, hs⟩
    obtain ⟨i, hi, rfl⟩ := List.getElem_of_mem hb
    exact ⟨i, hi, hs⟩
  · rintro ⟨i, hi, hs⟩
    exact ⟨t[i], List.getElem_mem hi, hs⟩

end PairsLemmas

/-! ### Probing (src/include/probing.hpp, lines 55-268) -/

/-- The result of scanning one bucket in `Probing::insert` (lines 114-124):
an empty slot was filled, the key was found (duplicate), or the bucket is
full and the walk must advance. -/
inductive ScanR (V : Type) where
  | placed (b : List (PSlot V))
  | dup
  | full
deriving Repr, DecidableEq

/-- The in-bucket insert scan: for each slot in order, fill the first empty
slot, or report a duplicate when the key is found. -/
def scanIns (S k : Nat) (v : V) : List (PSlot V) → ScanR V
  | [] => .full
  | s :: ss =>
    if s.key = S then .placed ({ key := k, payload := v } :: ss)
    else if s.key = k then .dup
    else
      match scanIns S k v ss with
      | .placed ss2 => .placed (s :: ss2)
      | .dup => .dup
      | .full => .full

/-- Errors of `Probing::insert`: the two `std::runtime_error` throws, plus
the fuel monitor of the model (never hit at the canonical fuel). -/
inductive PErr where
  | maxSteps
  | cycle
  | fuelOut
deriving Repr, DecidableEq

/-- The insert loop of `Probing::insert` (lines 108-132): check the step
bound, scan the bucket, and otherwise advance via the probing function with
a cycle check. -/
def insertPWalk (S maxSteps : Nat) (probe : Nat → Nat → Nat)
    (t : List (List (PSlot V))) (k : Nat) (v : V) (o idx step : Nat) :
    Nat → Except PErr (List (List (PSlot V)) × Bool)
  | 0 => .error .fuelOut
  | fuel + 1 =>
    if maxSteps < step then .error .maxSteps
    else
      match scanIns S k v (t.getD idx []) with
      | .placed b2 => .ok (t.set idx b2, true)
      | .dup => .ok (t, false)
      | .full =>
        let idx2 := probe o (step + 1)
        if idx2 = o then .error .cycle
        else insertPWalk S maxSteps probe t k v o idx2 (step + 1) fuel

/-- `Probing::insert(key, payload)`: sentinel keys are rejected up front,
then the walk runs from the reduced hash of the key.  The canonical fuel
`maxSteps + 2` is enough for the walk to reach one of its own exits. -/
def insertP (S maxSteps : Nat) (probe : Nat → Nat → Nat) (red hash : Nat → Nat)
    (t : List (List (PSlot V))) (k : Nat) (v : V) :
    Except PErr (List (List (PSlot V)) × Bool) :=
  if k = S then .ok (t, false)
  else insertPWalk S maxSteps probe t k v (red (hash k)) (red (hash k)) 0 (maxSteps + 2)

/-- Sequential insertion of a list of pairs, stopping at the first fatal
error (a thrown exception aborts a build). -/
def insertAllP (S maxSteps : Nat) (probe : Nat → Nat → Nat) (red hash : Nat → Nat)
    (t : List (List (PSlot V))) : List (Nat × V) → Except PErr (List (List (PSlot V)))
  | [] => .ok t
  | (k, v) :: ps =>
    match insertP S maxSteps probe red hash t k v with
    | .error e => .error e
    | .ok (t2, _) => insertAllP S maxSteps probe red hash t2 ps

/-- A fresh probing table: `⌈capacity / B⌉` buckets of `B` slots, all empty. -/
def emptyTab [Inhabited V] (S : Nat) (D B : Nat) : List (List (PSlot V)) :=
  List.replicate D (List.replicate B { key := S, payload := default })

/-- The keys of the occupied slots of a table. -/
def keysT {σ : Type} (S : Nat) (kf : σ → Nat) (pf : σ → V) (t : List (List σ)) : List Nat :=
  (tabPairs S kf pf t).map Prod.fst

section MoreListLemmas

variable {α : Type}

theorem mem_set_elim {l : List α} {i : Nat} {x b : α} (h : b ∈ l.set i x) :
    b = x ∨ b ∈ l := by
  rcases Nat.lt_or_ge i l.length with hi | hi
  · rw [set_decomp l i x hi] at h
    rcases List.mem_append.mp h with h | h
    · exact Or.inr (List.mem_of_mem_take h)
    · rcases List.mem_cons.mp h with h | h
      · exact Or.inl h
      · exact Or.inr (List.mem_of_mem_drop h)
  · rw [List.set_eq_of_length_le hi] at h
    exact Or.inr h

end MoreListLemmas

section ScanInsLemmas

variable {S k : Nat} {v : V}

theorem scanIns_full_iff {b : List (PSlot V)} :
    scanIns S k v b = .full ↔ ∀ s ∈ b, s.key ≠ S ∧ s.key ≠ k := by
  induction b with
  | nil => simp [scanIns]
  | cons s ss ih =>
    rw [scanIns]
    by_cases h1 : s.key = S
    · rw [if_pos h1]
      constructor
      · intro h; cases h
      · intro h; exact absurd h1 (h s (by simp)).1
    · rw [if_neg h1]
      by_cases h2 : s.key = k
      · rw [if_pos h2]
        constructor
        · intro h; cases h
        · intro h; exact absurd h2 (h s (by simp)).2
      · rw [if_neg h2]
        cases hs : scanIns S k v ss with
        | placed b2 =>
          constructor
          · intro h; cases h
          · intro h
            have h3 := ih.mpr fun x hx => h x (List.mem_cons_of_mem _ hx)
            rw [hs] at h3; cases h3
        | dup =>
          constructor
          · intro h; cases h
          · intro h
            have h3 := ih.mpr fun x hx => h x (List.mem_cons_of_mem _ hx)
            rw [hs] at h3; cases h3
        | full =>
          constructor
          · intro _ x hx
            rcases List.mem_cons.mp hx with rfl | hx
            · exact ⟨h1, h2⟩
            · exact (ih.mp hs) x hx
          · intro _; rfl

theorem scanIns_placed_decomp {b b2 : List (PSlot V)}
    (h : scanIns S k v b = .placed b2) :
    ∃ b1 s rest, b = b1 ++ s :: rest ∧ s.key = S ∧
      (∀ x ∈ b1, x.key ≠ S ∧ x.key ≠ k) ∧
      b2 = b1 ++ ({ key := k, payload := v } : PSlot V) :: rest := by
  induction b generalizing b2 with
  | nil => simp [scanIns] at h
  | cons s ss ih =>
    rw [scanIns] at h
    by_cases h1 : s.key = S
    · rw [if_pos h1] at h
      injection h with h
      exact ⟨[], s, ss, by simp, h1, by simp, h.symm⟩
    · rw [if_neg h1] at h
      by_cases h2 : s.key = k
      · rw [if_pos h2] at h; cases h
      · rw [if_neg h2] at h
        cases hs : scanIns S k v ss with
        | placed ss2 =>
          rw [hs] at h
          injection h with h
          obtain ⟨b1, x, rest, hb, hx, hocc, hb2⟩ := ih hs
          refine ⟨s :: b1, x, rest, by simp [hb], hx, ?_, ?_⟩
          · intro y hy
            rcases List.mem_cons.mp hy with rfl | hy
            · exact ⟨h1, h2⟩
            · exact hocc y hy
          · rw [← h, hb2]; simp
        | dup => rw [hs] at h; cases h
        | full => rw [hs] at h; cases h

theorem scanIns_dup_mem {b : List (PSlot V)} (h : scanIns S k v b = .dup) :
    ∃ s ∈ b, s.key = k ∧ s.key ≠ S := by
  induction b with
  | nil => simp [scanIns] at h
  | cons s ss ih =>
    rw [scanIns] at h
    by_cases h1 : s.key = S
    · rw [if_pos h1] at h; cases h
    · rw [if_neg h1] at h
      by_cases h2 : s.key = k
      · exact ⟨s, by simp, h2, h1⟩
      · rw [if_neg h2] at h
        cases hs : scanIns S k v ss with
        | placed ss2 => rw [hs] at h; cases h
        | dup =>
          obtain ⟨x, hx, hk, hS⟩ := ih hs
          exact ⟨x, by simp [hx], hk, hS⟩
        | full => rw [hs] at h; cases h

theorem scanIns_dup_of {b : List (PSlot V)} {j : Nat} (hj : j < b.length)
    (hkey : b[j].key = k)
    (hpre : ∀ j1 (hj1 : j1 < j),
      (b[j1]).key ≠ S ∧ (b[j1]).key ≠ k)
    (hkS : k ≠ S) :
    scanIns S k v b = .dup := by
  induction b generalizing j with
  | nil => simp at hj
  | cons s ss ih =>
    cases j with
    | zero =>
      simp only [List.getElem_cons_zero] at hkey
      rw [scanIns, if_neg (hkey ▸ hkS), if_pos hkey]
    | succ j =>
      have h0 := hpre 0 (Nat.succ_pos j)
      simp only [List.getElem_cons_zero] at h0
      simp only [List.getElem_cons_succ] at hkey
      rw [scanIns, if_neg h0.1, if_neg h0.2]
      rw [ih (by simpa using hj) hkey
        (fun j1 hj1 => by simpa using hpre (j1 + 1) (by omega))]

theorem scanIns_placed_length {b b2 : List (PSlot V)}
    (h : scanIns S k v b = .placed b2) : b2.length = b.length := by
  obtain ⟨b1, s, rest, hb, -, -, hb2⟩ := scanIns_placed_decomp h
  simp [hb, hb2]

theorem scanIns_placed_pairs {b b2 : List (PSlot V)}
    (h : scanIns S k v b = .placed b2) (hkS : k ≠ S) :
    (pairsOf S PSlot.key PSlot.payload b2).Perm
      ((k, v) :: pairsOf S PSlot.key PSlot.payload b) := by
  obtain ⟨b1, s, rest, hb, hsS, -, hb2⟩ := scanIns_placed_decomp h
  subst hb hb2
  rw [pairsOf_append, pairsOf_append, pairsOf_cons, pairsOf_cons]
  simp only [hsS, ne_eq, not_true_eq_false, if_false, List.nil_append, not_false_iff, if_pos hkS]
  exact List.perm_middle

end ScanInsLemmas

/-! ### Key-occurrence counting (for uniqueness arguments) -/

section KeyCount

variable {σ : Type} {S : Nat} {kf : σ → Nat} {pf : σ → V}

theorem keysT_eq {t : List (List σ)} :
    keysT S kf pf t = ((t.flatten.filter (fun s => kf s != S)).map kf) := by
  rw [keysT, tabPairs, pairsOf, List.map_map]
  rfl

/-- The keys of the occupied slots of one slot list. -/
def keysOf (S : Nat) (kf : σ → Nat) (l : List σ) : List Nat :=
  (l.filter (fun s => kf s != S)).map kf

theorem keysOf_append (l1 l2 : List σ) :
    keysOf S kf (l1 ++ l2) = keysOf S kf l1 ++ keysOf S kf l2 := by
  simp [keysOf]

theorem mem_keysOf_iff {k : Nat} {l : List σ} :
    k ∈ keysOf S kf l ↔ ∃ s ∈ l, kf s = k ∧ k ≠ S := by
  simp only [keysOf, List.mem_map, List.mem_filter, bne_iff_ne]
  constructor
  · rintro ⟨s, ⟨hs, hne⟩, rfl⟩
    exact ⟨s, hs, rfl, hne⟩
  · rintro ⟨s, hs, rfl, hne⟩
    exact ⟨s, ⟨hs, hne⟩, rfl⟩

theorem count_keysOf_cons {k : Nat} (s : σ) (l : List σ) (hkS : k ≠ S) :
    (keysOf S kf (s :: l)).count k =
      (if kf s = k then 1 else 0) + (keysOf S kf l).count k := by
  by_cases h1 : kf s = S
  · have h2 : kf s ≠ k := fun h => hkS (h.symm.trans h1)
    rw [if_neg h2]
    simp [keysOf, List.filter_cons, h1]
  · have hb : (kf s != S) = true := by simp [bne_iff_ne, h1]
    rw [keysOf, List.filter_cons, hb]
    simp only [if_true, List.map_cons, List.count_cons, beq_iff_eq]
    by_cases h2 : kf s = k <;> simp [h2, keysOf] <;> omega

/-- Two occupied slots at distinct positions of the same slot list with the
same (non-sentinel) key contribute at least two occurrences to its key list. -/
theorem count_two_of_two_pos {l : List σ} {j1 j2 : Nat} (h12 : j1 < j2)
    (h2 : j2 < l.length) {k : Nat}
    (hk1 : kf (l[j1]) = k) (hk2 : kf l[j2] = k) (hkS : k ≠ S) :
    2 ≤ (keysOf S kf l).count k := by
  have hdec := decomp_at l j1 (l[j1]) (Nat.lt_trans h12 h2)
  rw [getD_lt _ _ _ (Nat.lt_trans h12 h2)] at hdec
  have hmem : k ∈ keysOf S kf (l.drop (j1 + 1)) := by
    refine mem_keysOf_iff.mpr ⟨l[j2], ?_, hk2, hkS⟩
    have hlt : j2 - j1 - 1 < (l.drop (j1 + 1)).length := by simp; omega
    have hgd : (l.drop (j1 + 1))[j2 - j1 - 1] = l[j2] := by
      rw [List.getElem_drop]
      congr 1
      omega
    rw [← hgd]
    exact List.getElem_mem hlt
  have hcount1 : 1 ≤ (keysOf S kf (l.drop (j1 + 1))).count k :=
    List.count_pos_iff.mpr hmem
  have hcount2 : 1 ≤ (keysOf S kf [l[j1]]).count k := by
    apply List.count_pos_iff.mpr
    exact mem_keysOf_iff.mpr ⟨_, by simp, hk1, hkS⟩
  conv_rhs => rw [hdec]
  rw [show (l[j1]) :: l.drop (j1 + 1) =
    [l[j1]] ++ l.drop (j1 + 1) from rfl]
  rw [keysOf_append, keysOf_append, List.count_append, List.count_append]
  omega

theorem keysT_flatten {t : List (List σ)} :
    keysT S kf pf t = keysOf S kf t.flatten := by
  rw [keysT_eq]; rfl

/-- Under `Nodup` keys, no bucket holds the same non-sentinel key at two
positions. -/
theorem nodup_no_two_in_bucket {t : List (List σ)}
    (huniq : (keysT S kf pf t).Nodup)
    {i : Nat} (hi : i < t.length) {j1 j2 : Nat} (h12 : j1 < j2)
    (h2 : j2 < (t[i]).length) {k : Nat}
    (hk1 : kf ((t[i])[j1]) = k) (hk2 : kf ((t[i])[j2]) = k)
    (hkS : k ≠ S) : False := by
  have hcnt : 2 ≤ (keysOf S kf (t[i])).count k :=
    count_two_of_two_pos h12 h2 hk1 hk2 hkS
  have hdec := decomp_at t i [] hi
  rw [getD_lt _ _ _ hi] at hdec
  have hle : 2 ≤ (keysT S kf pf t).count k := by
    rw [keysT_flatten]
    conv_rhs => rw [hdec]
    rw [List.flatten_append, List.flatten_cons, keysOf_append, keysOf_append,
      List.count_append, List.count_append]
    omega
  have := List.nodup_iff_count_le_one.mp huniq k
  omega

/-- Under `Nodup` keys, the same non-sentinel key cannot occur in two distinct
buckets. -/
theorem nodup_no_two_buckets {t : List (List σ)}
    (huniq : (keysT S kf pf t).Nodup)
    {i1 i2 : Nat} (h12 : i1 < i2) (hi2 : i2 < t.length)
    {s1 s2 : σ} (hs1 : s1 ∈ t[i1]) (hs2 : s2 ∈ t[i2])
    {k : Nat} (hk1 : kf s1 = k) (hk2 : kf s2 = k) (hkS : k ≠ S) : False := by
  have hi1 : i1 < t.length := Nat.lt_trans h12 hi2
  have hdec1 := decomp_at t i1 [] hi1
  rw [getD_lt _ _ _ hi1] at hdec1
  have hmem2 : i2 - i1 - 1 < (t.drop (i1 + 1)).length := by simp; omega
  have hget2 : (t.drop (i1 + 1))[i2 - i1 - 1] = t[i2] := by
    rw [List.getElem_drop]; congr 1; omega
  have hk1m : k ∈ keysOf S kf t[i1] := mem_keysOf_iff.mpr ⟨s1, hs1, hk1, hkS⟩
  have hk2m : k ∈ keysOf S kf (t.drop (i1 + 1)).flatten := by
    refine mem_keysOf_iff.mpr ⟨s2, ?_, hk2, hkS⟩
    exact List.mem_flatten.mpr ⟨t[i2], hget2 ▸ List.getElem_mem hmem2, hs2⟩
  have c1 : 1 ≤ (keysOf S kf t[i1]).count k := List.count_pos_iff.mpr hk1m
  have c2 : 1 ≤ (keysOf S kf (t.drop (i1 + 1)).flatten).count k :=
    List.count_pos_iff.mpr hk2m
  have hle : 2 ≤ (keysT S kf pf t).count k := by
    rw [keysT_flatten]
    conv_rhs => rw [hdec1]
    rw [List.flatten_append, List.flatten_cons, keysOf_append, keysOf_append,
      List.count_append, List.count_append]
    omega
  have := List.nodup_iff_count_le_one.mp huniq k
  omega

end KeyCount

/-! ### Well-formedness of probing tables -/

/-- Occupied slots of a slot list form a prefix (insert-only compaction):
the list splits into an occupied part followed by an all-sentinel part. -/
def isCompact {σ : Type} (S : Nat) (kf : σ → Nat) (b : List σ) : Prop :=
  ∃ bo be, b = bo ++ be ∧ (∀ s ∈ bo, kf s ≠ S) ∧ (∀ s ∈ be, kf s = S)

section CompactLemmas

variable {σ : Type} {S : Nat} {kf : σ → Nat}

theorem prefix_eq_of {a1 r1 a2 r2 : List σ} {x : σ}
    (h : a1 ++ x :: r1 = a2 ++ r2) (ha1 : ∀ s ∈ a1, kf s ≠ S) (hx : kf x = S)
    (ha2 : ∀ s ∈ a2, kf s ≠ S) (hr2 : ∀ s ∈ r2, kf s = S) :
    a1 = a2 ∧ x :: r1 = r2 := by
  induction a1 generalizing a2 with
  | nil =>
    cases a2 with
    | nil => simpa using h
    | cons y a2 =>
      simp only [List.nil_append, List.cons_append, List.cons.injEq] at h
      exact absurd (h.1 ▸ hx) (ha2 y (by simp))
  | cons s a1 ih =>
    cases a2 with
    | nil =>
      exfalso
      simp only [List.nil_append] at h
      have hs : s ∈ r2 := by rw [← h]; simp
      exact ha1 s (by simp) (hr2 s hs)
    | cons y a2 =>
      simp only [List.cons_append, List.cons.injEq] at h
      obtain ⟨rfl, h2⟩ := h
      obtain ⟨he, hr⟩ := ih h2 (fun z hz => ha1 z (by simp [hz]))
        (fun z hz => ha2 z (by simp [hz]))
      exact ⟨by rw [he], hr⟩

/-- Placing into the first empty slot preserves compactness. -/
theorem placed_isCompact {b b2 : List (PSlot V)} {k : Nat} {v : V}
    (hkS : k ≠ S) (hc : isCompact S PSlot.key b)
    (hplaced : scanIns S k v b = .placed b2) : isCompact S PSlot.key b2 := by
  obtain ⟨b1, sX, rest, hb, hsS, hocc1, hb2⟩ := scanIns_placed_decomp hplaced
  obtain ⟨bo, be, hsplit, hbo, hbe⟩ := hc
  obtain ⟨rfl, hrest⟩ := prefix_eq_of (hb.symm.trans hsplit)
    (fun z hz => (hocc1 z hz).1) hsS hbo hbe
  refine ⟨b1 ++ [⟨k, v⟩], rest, by simp [hb2], ?_, ?_⟩
  · intro z hz
    rcases List.mem_append.mp hz with hz | hz
    · exact (hocc1 z hz).1
    · simp only [List.mem_singleton] at hz
      subst hz
      exact hkS
  · intro z hz
    exact hbe z (by rw [← hrest]; simp [hz])

/-- In a compact bucket, slots before an occupied slot are occupied. -/
theorem compact_occ_lt {b : List σ} (hc : isCompact S kf b) {j : Nat}
    (hj : j < b.length) (hocc : kf b[j] ≠ S) :
    ∀ j1 (h1 : j1 < j), kf (b[j1]) ≠ S := by
  obtain ⟨bo, be, rfl, hbo, hbe⟩ := hc
  have hjlt : j < bo.length := by
    by_contra hge
    have hge2 : bo.length ≤ j := Nat.le_of_not_lt hge
    rw [List.getElem_append_right hge2] at hocc
    exact hocc (hbe _ (List.getElem_mem _))
  intro j1 h1
  have h1lt : j1 < bo.length := Nat.lt_trans h1 hjlt
  rw [List.getElem_append_left h1lt]
  exact hbo _ (List.getElem_mem h1lt)

end CompactLemmas

/-- Invariant of a `Probing` table under sequential inserts: keys are unique,
occupied slots form per-bucket prefixes, and every occupied slot is reachable
on the probe walk from its key's origin with all earlier buckets full and no
early cycle. -/
structure PWf (S : Nat) (probe : Nat → Nat → Nat) (red hash : Nat → Nat)
    (maxSteps : Nat) (t : List (List (PSlot V))) : Prop where
  occ : ∀ b ∈ t, isCompact S PSlot.key b
  uniq : (keysT S PSlot.key (PSlot.payload (V := V)) t).Nodup
  stored : ∀ i (hi : i < t.length), ∀ s ∈ t[i], s.key ≠ S →
    ∃ p, p ≤ maxSteps ∧ walkIdx probe (red (hash s.key)) p = i ∧
      (∀ q, 1 ≤ q → q ≤ p → probe (red (hash s.key)) q ≠ red (hash s.key)) ∧
      (∀ q, q < p → ∀ s2 ∈ t.getD (walkIdx probe (red (hash s.key)) q) [], s2.key ≠ S)

section PWfLemmas

variable {S maxSteps : Nat} {probe : Nat → Nat → Nat} {red hash : Nat → Nat}

/-- Fullness conditions survive a bucket write, provided the written bucket
contained an empty slot (so no stored entry's walk referenced it as full). -/
theorem set_full_transfer {t : List (List (PSlot V))} {idx : Nat} {b2 : List (PSlot V)}
    (hsent : ∃ s ∈ t.getD idx [], s.key = S) {j : Nat}
    (hold : ∀ s2 ∈ t.getD j [], s2.key ≠ S) :
    ∀ s2 ∈ (t.set idx b2).getD j [], s2.key ≠ S := by
  by_cases hji : idx = j
  · subst hji
    obtain ⟨s, hs, hkey⟩ := hsent
    exact absurd hkey (hold s hs)
  · rw [getD_set_ne _ _ _ _ _ hji]
    exact hold

/-- After `scanIns` places `(k, v)` into the bucket at `idx` at probing step
`step` of `k`'s walk, the table invariant is preserved and the contents gain
exactly the pair `(k, v)`. -/
theorem placed_preserves
    {t : List (List (PSlot V))} {k : Nat} {v : V} {idx step : Nat} {b2 : List (PSlot V)}
    (hwf : PWf S probe red hash maxSteps t)
    (hkS : k ≠ S)
    (habs : ∀ s ∈ t.flatten, s.key ≠ k)
    (hidxlt : idx < t.length)
    (hidx : walkIdx probe (red (hash k)) step = idx)
    (hstep : step ≤ maxSteps)
    (hcyc : ∀ q, 1 ≤ q → q ≤ step → probe (red (hash k)) q ≠ red (hash k))
    (hfull : ∀ q, q < step → ∀ s ∈ t.getD (walkIdx probe (red (hash k)) q) [], s.key ≠ S)
    (hplaced : scanIns S k v (t.getD idx []) = .placed b2) :
    PWf S probe red hash maxSteps (t.set idx b2) ∧
      (tabPairs S PSlot.key PSlot.payload (t.set idx b2)).Perm
        ((k, v) :: tabPairs S PSlot.key PSlot.payload t) := by
  obtain ⟨A, C, hAC1, hAC2⟩ :=
    @tabPairs_set_decomp V (PSlot V) S PSlot.key PSlot.payload t idx hidxlt
  obtain ⟨b1, sX, rest, hb, hsS, hocc1, hb2⟩ := scanIns_placed_decomp hplaced
  have hsent : ∃ s ∈ t.getD idx [], s.key = S := ⟨sX, by rw [hb]; simp, hsS⟩
  have hpp := scanIns_placed_pairs hplaced hkS
  have hperm : (tabPairs S PSlot.key PSlot.payload (t.set idx b2)).Perm
      ((k, v) :: tabPairs S PSlot.key PSlot.payload t) := by
    rw [hAC2 b2, hAC1, List.append_assoc, List.append_assoc]
    refine ((hpp.append_right C).append_left A).trans ?_
    rw [List.cons_append]
    exact List.perm_middle
  have hknotin : k ∉ keysT S PSlot.key PSlot.payload t := by
    intro hmem
    rw [keysT] at hmem
    obtain ⟨s, hs, hskey, -⟩ := mem_keys_iff.mp hmem
    exact habs s hs hskey
  refine ⟨⟨?_, ?_, ?_⟩, hperm⟩
  · intro b hbmem
    rcases mem_set_elim hbmem with rfl | hbm
    · refine placed_isCompact hkS ?_ hplaced
      rw [getD_lt _ _ _ hidxlt]
      exact hwf.occ _ (List.getElem_mem hidxlt)
    · exact hwf.occ b hbm
  · have hmap := hperm.map Prod.fst
    rw [keysT, hmap.nodup_iff]
    simp only [List.map_cons]
    exact List.nodup_cons.mpr ⟨by rw [← keysT]; exact hknotin, hwf.uniq⟩
  · intro i hi s hs hsocc
    have hilen : i < t.length := by simpa using hi
    by_cases hii : i = idx
    · subst hii
      rw [List.getElem_set_self] at hs
      have hsmem : s = ⟨k, v⟩ ∨ s ∈ t.getD i [] := by
        rw [hb2] at hs
        rcases List.mem_append.mp hs with hs | hs
        · exact Or.inr (by rw [hb]; simp [hs])
        · rcases List.mem_cons.mp hs with rfl | hs
          · exact Or.inl rfl
          · exact Or.inr (by rw [hb]; simp [hs])
      rcases hsmem with rfl | hsold
      · exact ⟨step, hstep, hidx, hcyc,
          fun q hq => set_full_transfer hsent (hfull q hq)⟩
      · rw [getD_lt _ _ _ hilen] at hsold
        obtain ⟨p, h1, h2, h3, h4⟩ := hwf.stored i hilen s hsold hsocc
        exact ⟨p, h1, h2, h3, fun q hq => set_full_transfer hsent (h4 q hq)⟩
    · rw [List.getElem_set_ne (fun h => hii h.symm)] at hs
      obtain ⟨p, h1, h2, h3, h4⟩ := hwf.stored i hilen s hs hsocc
      exact ⟨p, h1, h2, h3, fun q hq => set_full_transfer hsent (h4 q hq)⟩

/-- The insert walk of `Probing::insert`, on a key absent from the table:
whenever it returns `ok`, it returns `true` and the table gained exactly the
pair `(k, v)` with the invariant preserved. -/
theorem insertPWalk_ok {t : List (List (PSlot V))} {k : Nat} {v : V}
    (hwf : PWf S probe red hash maxSteps t) (hkS : k ≠ S)
    (habs : ∀ s ∈ t.flatten, s.key ≠ k) :
    ∀ fuel step idx t2 bres,
      walkIdx probe (red (hash k)) step = idx →
      (∀ q, 1 ≤ q → q ≤ step → probe (red (hash k)) q ≠ red (hash k)) →
      (∀ q, q < step → ∀ s ∈ t.getD (walkIdx probe (red (hash k)) q) [], s.key ≠ S) →
      insertPWalk S maxSteps probe t k v (red (hash k)) idx step fuel = .ok (t2, bres) →
      bres = true ∧ PWf S probe red hash maxSteps t2 ∧
        (tabPairs S PSlot.key PSlot.payload t2).Perm
          ((k, v) :: tabPairs S PSlot.key PSlot.payload t) := by
  intro fuel
  induction fuel with
  | zero => intro step idx t2 bres _ _ _ hres; cases hres
  | succ fuel ih =>
    intro step idx t2 bres hidx hcyc hfull hres
    rw [insertPWalk] at hres
    by_cases hms : maxSteps < step
    · rw [if_pos hms] at hres; cases hres
    · rw [if_neg hms] at hres
      cases hscan : scanIns S k v (t.getD idx []) with
      | placed b2 =>
        rw [hscan] at hres
        injection hres with hres
        injection hres with hres1 hres2
        have hidxlt : idx < t.length := by
          by_contra hge
          rw [getD_ge _ _ _ (Nat.le_of_not_lt hge)] at hscan
          cases hscan
        obtain ⟨hwf2, hperm⟩ := placed_preserves hwf hkS habs hidxlt hidx
          (Nat.le_of_not_lt hms) hcyc hfull hscan
        exact ⟨hres2.symm, hres1 ▸ hwf2, hres1 ▸ hperm⟩
      | dup =>
        exfalso
        obtain ⟨s, hs, hskey, -⟩ := scanIns_dup_mem hscan
        rcases Nat.lt_or_ge idx t.length with hlt | hge
        · rw [getD_lt _ _ _ hlt] at hs
          exact habs s (List.mem_flatten.mpr ⟨_, List.getElem_mem hlt, hs⟩) hskey
        · rw [getD_ge _ _ _ hge] at hs
          cases hs
      | full =>
        rw [hscan] at hres
        simp only at hres
        by_cases hcy : probe (red (hash k)) (step + 1) = red (hash k)
        · rw [if_pos hcy] at hres; cases hres
        · rw [if_neg hcy] at hres
          refine ih (step + 1) _ t2 bres (walkIdx_pos probe _ _ (by omega)).symm ?_ ?_ hres
          · intro q hq1 hq2
            rcases Nat.lt_or_ge q (step + 1) with h | h
            · exact hcyc q hq1 (by omega)
            · have : q = step + 1 := by omega
              subst this
              exact hcy
          · intro q hq
            rcases Nat.lt_or_ge q step with h | h
            · exact hfull q h
            · have : q = step := by omega
              subst this
              rw [hidx]
              intro s hsm
              exact (scanIns_full_iff.mp hscan s hsm).1

/-- `Probing::insert` on a key absent from the table: an `ok` result is
`true` with the invariant preserved and the pair added. -/
theorem insertP_ok {t t2 : List (List (PSlot V))} {k : Nat} {v : V} {bres : Bool}
    (hwf : PWf S probe red hash maxSteps t) (hkS : k ≠ S)
    (habs : ∀ s ∈ t.flatten, s.key ≠ k)
    (hres : insertP S maxSteps probe red hash t k v = .ok (t2, bres)) :
    bres = true ∧ PWf S probe red hash maxSteps t2 ∧
      (tabPairs S PSlot.key PSlot.payload t2).Perm
        ((k, v) :: tabPairs S PSlot.key PSlot.payload t) := by
  rw [insertP, if_neg hkS] at hres
  exact insertPWalk_ok hwf hkS habs (maxSteps + 2) 0 _ t2 bres rfl
    (by omega) (by omega) hres

end PWfLemmas

section ProbingRoundTrip

variable {S maxSteps : Nat} {probe : Nat → Nat → Nat} {red hash : Nat → Nat}

theorem not_key_flatten {σ : Type} {kf : σ → Nat} {pf : σ → V} {t : List (List σ)} {k : Nat}
    (hkS : k ≠ S) (hnot : k ∉ keysT S kf pf t) : ∀ s ∈ t.flatten, kf s ≠ k := by
  intro s hs hkey
  exact hnot (by rw [keysT]; exact mem_keys_iff.mpr ⟨s, hs, hkey, hkS⟩)

theorem emptyTab_key [Inhabited V] {D B : Nat} :
    ∀ s ∈ (emptyTab (V := V) S D B).flatten, s.key = S := by
  intro s hs
  obtain ⟨b, hb, hsb⟩ := List.mem_flatten.mp hs
  rw [emptyTab] at hb
  rw [List.eq_of_mem_replicate hb] at hsb
  rw [List.eq_of_mem_replicate hsb]

theorem tabPairs_emptyTab [Inhabited V] {D B : Nat} :
    tabPairs S PSlot.key PSlot.payload (emptyTab (V := V) S D B) = [] := by
  rw [tabPairs, pairsOf]
  rw [List.filter_eq_nil_iff.mpr, List.map_nil]
  intro s hs
  simp [bne_iff_ne, emptyTab_key s hs]

theorem PWf_emptyTab [Inhabited V] {D B : Nat} :
    PWf S probe red hash maxSteps (emptyTab (V := V) S D B) := by
  refine ⟨?_, ?_, ?_⟩
  · intro b hb
    exact ⟨[], b, by simp, by simp, fun s hs =>
      emptyTab_key s (List.mem_flatten.mpr ⟨b, hb, hs⟩)⟩
  · rw [keysT, tabPairs_emptyTab]
    exact List.nodup_nil
  · intro i hi s hs hsocc
    exact absurd (emptyTab_key s (List.mem_flatten.mpr ⟨_, List.getElem_mem hi, hs⟩)) hsocc

/-- Looking up a stored pair succeeds, from the table invariant. -/
theorem lookupT_hit_P {D : Nat} {t : List (List (PSlot V))}
    (gp : GoodProbe D probe) (hred : ∀ x, red x < D) (hD : t.length = D)
    (hwf : PWf S probe red hash maxSteps t) {k : Nat} {v : V}
    (hmem : (k, v) ∈ tabPairs S PSlot.key PSlot.payload t) :
    lookupT S PSlot.key PSlot.payload probe red hash t k = some (some v) := by
  rw [tabPairs] at hmem
  obtain ⟨s, hsfl, hskey, hspay, hkS⟩ := mem_pairsOf_iff.mp hmem
  obtain ⟨i, hi, hsmem⟩ := mem_flatten_idx.mp hsfl
  have hsocc : s.key ≠ S := by rw [hskey]; exact hkS
  obtain ⟨p, hple, hwalk, hcyc, hfull⟩ := hwf.stored i hi s hsmem hsocc
  rw [hskey] at hwalk hcyc hfull
  have hDpos : 0 < D := Nat.lt_of_le_of_lt (Nat.zero_le _) (hred 0)
  have hpD : p < D := by
    by_contra hge
    exact hcyc D (by omega) (by omega) (gp.cyc _ (hred _))
  obtain ⟨j, hj, hsval⟩ := List.getElem_of_mem hsmem
  have hfull2 : ∀ q, q < p →
      ∀ s2 ∈ t.getD (walkIdx probe (red (hash k)) q) [],
        s2.key ≠ S ∧ (s2.key = k → s2.payload = v) := by
    intro q hq s2 hs2
    have hocc2 := hfull q hq s2 hs2
    refine ⟨hocc2, ?_⟩
    intro hk2
    have hqlt : walkIdx probe (red (hash k)) q < t.length := by
      rw [hD]; exact walkIdx_lt gp (hred _) q
    rw [getD_lt _ _ _ hqlt] at hs2
    by_cases hne : walkIdx probe (red (hash k)) q = i
    · subst hne
      obtain ⟨j2, hj2, hsval2⟩ := List.getElem_of_mem hs2
      rcases Nat.lt_trichotomy j2 j with hlt | heq | hgt
      · exact absurd (nodup_no_two_in_bucket hwf.uniq hi hlt hj
          (hsval2 ▸ hk2) (hsval ▸ hskey) hkS) (fun h => h)
      · subst heq
        rw [show s2 = s from hsval2.symm.trans hsval]
        exact hspay
      · exact absurd (nodup_no_two_in_bucket hwf.uniq hi hgt hj2
          (hsval ▸ hskey) (hsval2 ▸ hk2) hkS) (fun h => h)
    · rcases Nat.lt_or_ge (walkIdx probe (red (hash k)) q) i with hlt | hge2
      · exact absurd (nodup_no_two_buckets hwf.uniq hlt hi hs2 hsmem hk2 hskey hkS)
          (fun h => h)
      · have hlt2 : i < walkIdx probe (red (hash k)) q := by omega
        exact absurd (nodup_no_two_buckets hwf.uniq hlt2 hqlt hsmem hs2 hskey hk2 hkS)
          (fun h => h)
  have hhit : bucketFind S PSlot.key PSlot.payload k
      (t.getD (walkIdx probe (red (hash k)) p) []) = some (some v) := by
    rw [hwalk, getD_lt _ _ _ hi]
    have hpre : ∀ j2 (hj2 : j2 < j),
        ((t[i])[j2]).key ≠ k ∧
        ((t[i])[j2]).key ≠ S := by
      intro j2 hj2
      constructor
      · intro hk2
        exact nodup_no_two_in_bucket hwf.uniq hi hj2 hj hk2 (hsval ▸ hskey) hkS
      · exact compact_occ_lt (hwf.occ _ (List.getElem_mem hi)) hj
          (by rw [hsval]; exact hsocc) j2 hj2
    have hres2 : bucketFind S PSlot.key PSlot.payload k (t[i]) =
        some (some (PSlot.payload ((t[i])[j]))) :=
      bucketFind_hit hj (by rw [hsval]; exact hskey) hpre
    rw [hres2, hsval, hspay]
  rw [lookupT, if_neg hkS]
  have hw : lookupWalk S PSlot.key PSlot.payload probe t k (red (hash k))
      (walkIdx probe (red (hash k)) 0) 0 t.length = some (some v) :=
    lookupWalk_hit hpD hcyc hfull2 hhit t.length 0 (by omega) (by omega)
  rw [walkIdx_zero] at hw
  exact hw

/-- Looking up an absent key misses, from the table invariant. -/
theorem lookupT_miss_P {D : Nat} {t : List (List (PSlot V))}
    (gp : GoodProbe D probe) (hred : ∀ x, red x < D) (hD : t.length = D)
    {k : Nat} (hkS : k ≠ S) (habs : ∀ s ∈ t.flatten, s.key ≠ k) :
    lookupT S PSlot.key PSlot.payload probe red hash t k = some none := by
  have hDpos : 0 < D := Nat.lt_of_le_of_lt (Nat.zero_le _) (hred 0)
  rw [lookupT, if_neg hkS]
  exact lookupWalk_miss gp (hred _)
    (fun b hb s hs => habs s (List.mem_flatten.mpr ⟨b, hb, hs⟩)) hD hDpos

theorem insertPWalk_length {t t2 : List (List (PSlot V))} {k : Nat} {v : V}
    {o : Nat} {bres : Bool} :
    ∀ fuel step idx,
      insertPWalk S maxSteps probe t k v o idx step fuel = .ok (t2, bres) →
      t2.length = t.length := by
  intro fuel
  induction fuel with
  | zero => intro step idx h; cases h
  | succ fuel ih =>
    intro step idx h
    rw [insertPWalk] at h
    by_cases hms : maxSteps < step
    · rw [if_pos hms] at h; cases h
    · rw [if_neg hms] at h
      cases hscan : scanIns S k v (t.getD idx []) with
      | placed b2 =>
        rw [hscan] at h
        injection h with h
        injection h with h1 h2
        rw [← h1]
        simp
      | dup =>
        rw [hscan] at h
        injection h with h
        injection h with h1 h2
        rw [← h1]
      | full =>
        rw [hscan] at h
        simp only at h
        split at h
        · cases h
        · exact ih _ _ h

/-- Sequential insertion of pairwise-distinct, non-sentinel keys: when every
insert completes without a fatal error, the invariant holds and the contents
are exactly the inserted pairs (plus what was already there). -/
theorem insertAllP_ok {pairs : List (Nat × V)} :
    ∀ {t t2 : List (List (PSlot V))},
      PWf S probe red hash maxSteps t →
      ((pairs.map Prod.fst).Nodup) →
      (∀ p ∈ pairs, p.1 ≠ S) →
      (∀ p ∈ pairs, p.1 ∉ keysT S PSlot.key PSlot.payload t) →
      insertAllP S maxSteps probe red hash t pairs = .ok t2 →
      PWf S probe red hash maxSteps t2 ∧ t2.length = t.length ∧
        (tabPairs S PSlot.key PSlot.payload t2).Perm
          (pairs ++ tabPairs S PSlot.key PSlot.payload t) := by
  induction pairs with
  | nil =>
    intro t t2 hwf _ _ _ hres
    rw [insertAllP] at hres
    injection hres with hres
    subst hres
    exact ⟨hwf, rfl, by simp⟩
  | cons kv ps ih =>
    intro t t2 hwf hnd hkS hdisj hres
    obtain ⟨k, v⟩ := kv
    rw [insertAllP] at hres
    cases hstep : insertP S maxSteps probe red hash t k v with
    | error e => rw [hstep] at hres; cases hres
    | ok r =>
      obtain ⟨t1, b1⟩ := r
      rw [hstep] at hres
      have hk1 : k ≠ S := hkS (k, v) (by simp)
      have habs : ∀ s ∈ t.flatten, s.key ≠ k :=
        not_key_flatten hk1 (hdisj (k, v) (by simp))
      obtain ⟨-, hwf1, hperm1⟩ := insertP_ok hwf hk1 habs hstep
      have hlen1 : t1.length = t.length := by
        rw [insertP, if_neg hk1] at hstep
        exact insertPWalk_length _ _ _ hstep
      have hkeysperm : (keysT S PSlot.key PSlot.payload t1).Perm
          (k :: keysT S PSlot.key PSlot.payload t) := by
        rw [keysT, keysT]
        exact hperm1.map Prod.fst
      have hnd2 : (ps.map Prod.fst).Nodup := by
        simp only [List.map_cons, List.nodup_cons] at hnd
        exact hnd.2
      have hknotinps : k ∉ ps.map Prod.fst := by
        simp only [List.map_cons, List.nodup_cons] at hnd
        exact hnd.1
      have hdisj2 : ∀ p ∈ ps, p.1 ∉ keysT S PSlot.key PSlot.payload t1 := by
        intro p hp hmem
        rw [hkeysperm.mem_iff] at hmem
        rcases List.mem_cons.mp hmem with heq | hmem
        · exact hknotinps (heq ▸ List.mem_map_of_mem Prod.fst hp)
        · exact hdisj p (by simp [hp]) hmem
      obtain ⟨hwf2, hlen2, hperm2⟩ := ih hwf1 hnd2
        (fun p hp => hkS p (by simp [hp])) hdisj2 hres
      refine ⟨hwf2, by rw [hlen2, hlen1], ?_⟩
      refine hperm2.trans ?_
      refine ((hperm1.append_left ps).trans ?_)
      rw [List.cons_append]
      exact List.perm_middle

/-- Round trip for the `Probing` engine, generic in a `GoodProbe` probing
function: after a successful build from the empty table, every inserted pair
is found and every absent non-sentinel key misses. -/
theorem roundtripP [Inhabited V] {D B : Nat} {pairs : List (Nat × V)}
    {t2 : List (List (PSlot V))}
    (gp : GoodProbe D probe) (hred : ∀ x, red x < D)
    (hnd : (pairs.map Prod.fst).Nodup) (hkS : ∀ p ∈ pairs, p.1 ≠ S)
    (hres : insertAllP S maxSteps probe red hash (emptyTab S D B) pairs = .ok t2) :
    (∀ p ∈ pairs, lookupT S PSlot.key PSlot.payload probe red hash t2 p.1 =
      some (some p.2)) ∧
    (∀ k, k ≠ S → k ∉ pairs.map Prod.fst →
      lookupT S PSlot.key PSlot.payload probe red hash t2 k = some none) := by
  have hD0 : (emptyTab (V := V) S D B).length = D := by simp [emptyTab]
  obtain ⟨hwf2, hlen2, hperm2⟩ := insertAllP_ok PWf_emptyTab hnd hkS
    (by intro p hp; rw [keysT, tabPairs_emptyTab]; simp) hres
  rw [tabPairs_emptyTab, List.append_nil] at hperm2
  have hlen : t2.length = D := by rw [hlen2, hD0]
  constructor
  · intro p hp
    exact lookupT_hit_P gp hred hlen hwf2 (hperm2.mem_iff.mpr hp)
  · intro k hkS2 hnotin
    have hnotkeys : k ∉ keysT S PSlot.key PSlot.payload t2 := by
      intro hmem
      rw [keysT] at hmem
      exact hnotin ((hperm2.map Prod.fst).mem_iff.mp hmem)
    exact lookupT_miss_P gp hred hlen hkS2 (not_key_flatten hkS2 hnotkeys)

end ProbingRoundTrip

/-! ### Robin-Hood probing (src/include/probing.hpp, lines 270-500) -/

/-- Result of the in-bucket scan of `RobinhoodProbing::insert` (lines
331-356).  Displacements overwrite slots as the scan goes, so every outcome
carries the updated slot list; `cont` additionally carries the entry still to
be placed (key, payload and its probing step). -/
inductive RScanRes (V : Type) where
  | placed (b : List (RSlot V))
  | dup (b : List (RSlot V))
  | err
  | cont (b : List (RSlot V)) (k : Nat) (v : V) (step : Nat)

/-- The in-bucket scan of `RobinhoodProbing::insert`: for each slot in order,
fill an empty slot with psl `step`; report a duplicate on a key match; when
the resident slot is richer (`psl < step`), read it out, overwrite it with
the carried entry, and continue the scan carrying the displaced entry with
its own psl (throwing when the displaced key is the original caller key). -/
def rhScan (S origKey : Nat) (k : Nat) (v : V) (step : Nat) :
    List (RSlot V) → RScanRes V
  | [] => .cont [] k v step
  | s :: ss =>
    if s.key = S then .placed ({ key := k, payload := v, psl := step } :: ss)
    else if s.key = k then .dup (s :: ss)
    else if s.psl < step then
      if origKey = s.key then .err
      else
        match rhScan S origKey s.key s.payload s.psl ss with
        | .placed ss2 => .placed ({ key := k, payload := v, psl := step } :: ss2)
        | .dup ss2 => .dup ({ key := k, payload := v, psl := step } :: ss2)
        | .err => .err
        | .cont ss2 k2 v2 st2 => .cont ({ key := k, payload := v, psl := step } :: ss2) k2 v2 st2
    else
      match rhScan S origKey k v step ss with
      | .placed ss2 => .placed (s :: ss2)
      | .dup ss2 => .dup (s :: ss2)
      | .err => .err
      | .cont ss2 k2 v2 st2 => .cont (s :: ss2) k2 v2 st2

/-- Errors of `RobinhoodProbing::insert`: the cycle throw, the
infinite-loop throw, and the fuel monitor of the model (the C++ loop carries
no step bound of its own). -/
inductive RErr where
  | cycle
  | infLoop
  | fuelOut
deriving Repr, DecidableEq

/-- The insert loop of `RobinhoodProbing::insert` (lines 328-363): scan the
bucket at `idx`; on `cont`, advance the carried entry one probing step from
its own (recomputed) origin, with the cycle check against that origin. -/
def insertRWalk (S : Nat) (probe : Nat → Nat → Nat) (red hash : Nat → Nat)
    (origKey : Nat) (t : List (List (RSlot V))) (k : Nat) (v : V) (step idx : Nat) :
    Nat → Except RErr (List (List (RSlot V)) × Bool)
  | 0 => .error .fuelOut
  | fuel + 1 =>
    match rhScan S origKey k v step (t.getD idx []) with
    | .placed b2 => .ok (t.set idx b2, true)
    | .dup b2 => .ok (t.set idx b2, false)
    | .err => .error .infLoop
    | .cont b2 k2 v2 st2 =>
      let t2 := t.set idx b2
      let o2 := red (hash k2)
      let idx2 := probe o2 (st2 + 1)
      if idx2 = o2 then .error .cycle
      else insertRWalk S probe red hash origKey t2 k2 v2 (st2 + 1) idx2 fuel

/-- `RobinhoodProbing::insert(k, p)`: the sentinel is rejected up front; the
walk starts at step 0 from the reduced hash of the key, remembering the
original key for the infinite-loop guard. -/
def insertR (S : Nat) (probe : Nat → Nat → Nat) (red hash : Nat → Nat)
    (t : List (List (RSlot V))) (k : Nat) (v : V) (fuel : Nat) :
    Except RErr (List (List (RSlot V)) × Bool) :=
  if k = S then .ok (t, false)
  else insertRWalk S probe red hash k t k v 0 (red (hash k)) fuel

/-- Sequential insertion for the Robin-Hood table. -/
def insertAllR (S : Nat) (probe : Nat → Nat → Nat) (red hash : Nat → Nat)
    (fuel : Nat) (t : List (List (RSlot V))) :
    List (Nat × V) → Except RErr (List (List (RSlot V)))
  | [] => .ok t
  | (k, v) :: ps =>
    match insertR S probe red hash t k v fuel with
    | .error e => .error e
    | .ok (t2, _) => insertAllR S probe red hash fuel t2 ps

/-- A fresh Robin-Hood table (slots default to sentinel key and psl 0). -/
def emptyTabR [Inhabited V] (S : Nat) (D B : Nat) : List (List (RSlot V)) :=
  List.replicate D (List.replicate B { key := S, payload := default, psl := 0 })

/-! ### Compactness helpers for the Robin-Hood scan -/

section CompactHelpers

variable {σ : Type} {S : Nat} {kf : σ → Nat}

theorem compact_tail {s : σ} {ss : List σ} (hocc : kf s ≠ S)
    (hc : isCompact S kf (s :: ss)) : isCompact S kf ss := by
  obtain ⟨bo, be, he, hbo, hbe⟩ := hc
  cases bo with
  | nil =>
    exfalso
    exact hocc (hbe s (by rw [← List.nil_append be, ← he]; simp))
  | cons b0 bo =>
    simp only [List.cons_append, List.cons.injEq] at he
    exact ⟨bo, be, he.2, fun x hx => hbo x (by simp [hx]), hbe⟩

theorem compact_cons {s : σ} {ss : List σ} (hocc : kf s ≠ S)
    (hc : isCompact S kf ss) : isCompact S kf (s :: ss) := by
  obtain ⟨bo, be, rfl, hbo, hbe⟩ := hc
  refine ⟨s :: bo, be, by simp, ?_, hbe⟩
  intro x hx
  rcases List.mem_cons.mp hx with rfl | hx
  · exact hocc
  · exact hbo x hx

theorem compact_allS_tail {s : σ} {ss : List σ} (hsent : kf s = S)
    (hc : isCompact S kf (s :: ss)) : ∀ x ∈ ss, kf x = S := by
  obtain ⟨bo, be, he, hbo, hbe⟩ := hc
  cases bo with
  | nil =>
    simp only [List.nil_append] at he
    intro x hx
    exact hbe x (by rw [← he]; simp [hx])
  | cons b0 bo =>
    exfalso
    simp only [List.cons_append, List.cons.injEq] at he
    exact hbo b0 (by simp) (he.1 ▸ hsent)

theorem compact_of_allOcc {b : List σ} (h : ∀ s ∈ b, kf s ≠ S) :
    isCompact S kf b :=
  ⟨b, [], by simp, h, by simp⟩

end CompactHelpers

section PairsConsHelpers

variable {σ : Type} {S : Nat} {kf : σ → Nat} {pf : σ → V}

theorem pairsOf_cons_occ {s : σ} {l : List σ} (h : kf s ≠ S) :
    pairsOf S kf pf (s :: l) = (kf s, pf s) :: pairsOf S kf pf l := by
  rw [pairsOf_cons, if_pos h]
  rfl

theorem pairsOf_cons_sent {s : σ} {l : List σ} (h : kf s = S) :
    pairsOf S kf pf (s :: l) = pairsOf S kf pf l := by
  rw [pairsOf_cons]
  simp [h]

end PairsConsHelpers

/-- The central specification of the Robin-Hood in-bucket scan, for a slot
predicate `Q` preserved by the displacement discipline.  On a bucket whose
slots avoid the carried key and have pairwise-distinct occupied keys:
a placement consumes exactly the carried pair; a duplicate is impossible; a
full scan preserves the pair multiset up to the outgoing carry, which is
either the incoming carry or one of the original slots (read out before its
slot was overwritten, psl included). -/
theorem rhScan_spec {S origKey : Nat} (Q : RSlot V → Prop) :
    ∀ (bs : List (RSlot V)) (k : Nat) (v : V) (step : Nat),
      k ≠ S →
      (∀ s ∈ bs, s.key ≠ k) →
      (keysOf S RSlot.key bs).Nodup →
      Q { key := k, payload := v, psl := step } →
      (∀ s ∈ bs, s.key ≠ S → Q s) →
      (match rhScan S origKey k v step bs with
       | .placed b2 =>
           (pairsOf S RSlot.key RSlot.payload b2).Perm
             ((k, v) :: pairsOf S RSlot.key RSlot.payload bs) ∧
           (∀ s ∈ b2, s.key ≠ S → Q s) ∧
           (∀ s ∈ b2, s.key = S → s ∈ bs) ∧
           (∃ s ∈ bs, s.key = S) ∧
           (isCompact S RSlot.key bs → isCompact S RSlot.key b2)
       | .dup _ => False
       | .err => True
       | .cont b2 k2 v2 st2 =>
           ((pairsOf S RSlot.key RSlot.payload b2) ++ [(k2, v2)]).Perm
             ((k, v) :: pairsOf S RSlot.key RSlot.payload bs) ∧
           (∀ s ∈ b2, s.key ≠ S → Q s) ∧
           (∀ s ∈ b2, s.key ≠ S) ∧
           k2 ≠ S ∧
           (({ key := k2, payload := v2, psl := st2 } : RSlot V) =
               { key := k, payload := v, psl := step } ∨
             ({ key := k2, payload := v2, psl := st2 } : RSlot V) ∈ bs)) := by
  intro bs
  induction bs with
  | nil =>
    intro k v step hkS hknotin hnodup hQk hQall
    rw [rhScan]
    refine ⟨by simp [pairsOf], by simp, by simp, hkS, Or.inl rfl⟩
  | cons s ss ih =>
    intro k v step hkS hknotin hnodup hQk hQall
    rw [rhScan]
    by_cases h1 : s.key = S
    · rw [if_pos h1]
      refine ⟨?_, ?_, ?_, ⟨s, by simp, h1⟩, ?_⟩
      · rw [pairsOf_cons_occ (show ({ key := k, payload := v, psl := step } :
            RSlot V).key ≠ S from hkS), pairsOf_cons_sent h1]
      · intro x hx hxocc
        rcases List.mem_cons.mp hx with rfl | hx
        · exact hQk
        · exact hQall x (by simp [hx]) hxocc
      · intro x hx hxS
        rcases List.mem_cons.mp hx with rfl | hx
        · exact absurd hxS hkS
        · exact List.mem_cons_of_mem _ hx
      · intro hc
        refine ⟨[{ key := k, payload := v, psl := step }], ss, by simp, ?_, ?_⟩
        · intro x hx
          rw [List.mem_singleton] at hx
          subst hx
          exact hkS
        · exact compact_allS_tail h1 hc
    · rw [if_neg h1]
      by_cases h2 : s.key = k
      · rw [if_pos h2]
        exact hknotin s (by simp) h2
      · rw [if_neg h2]
        have hknotin2 : ∀ x ∈ ss, x.key ≠ k := fun x hx => hknotin x (by simp [hx])
        have hkeys : keysOf S RSlot.key (s :: ss) =
            s.key :: keysOf S RSlot.key ss := by
          simp [keysOf, List.filter_cons, bne_iff_ne, h1]
        rw [hkeys] at hnodup
        have hnodup2 : (keysOf S RSlot.key ss).Nodup := (List.nodup_cons.mp hnodup).2
        have hsnotin : ∀ x ∈ ss, x.key ≠ s.key := by
          intro x hx he
          by_cases hxS : x.key = S
          · exact h1 (he ▸ hxS)
          · exact (List.nodup_cons.mp hnodup).1
              (mem_keysOf_iff.mpr ⟨x, hx, he, h1⟩)
        by_cases h3 : s.psl < step
        · rw [if_pos h3]
          by_cases h4 : origKey = s.key
          · rw [if_pos h4]
            trivial
          · rw [if_neg h4]
            have hrec := ih s.key s.payload s.psl h1 hsnotin hnodup2
              (hQall s (by simp) h1) (fun x hx hocc => hQall x (by simp [hx]) hocc)
            cases hres : rhScan S origKey s.key s.payload s.psl ss with
            | placed ss2 =>
              rw [hres] at hrec
              obtain ⟨hp, hq, hsm, hse, hcp⟩ := hrec
              refine ⟨?_, ?_, ?_, ?_, ?_⟩
              · rw [pairsOf_cons_occ (show ({ key := k, payload := v, psl := step } :
                    RSlot V).key ≠ S from hkS), pairsOf_cons_occ h1]
                exact hp.cons _
              · intro x hx hxocc
                rcases List.mem_cons.mp hx with rfl | hx
                · exact hQk
                · exact hq x hx hxocc
              · intro x hx hxS
                rcases List.mem_cons.mp hx with rfl | hx
                · exact absurd hxS hkS
                · exact List.mem_cons_of_mem _ (hsm x hx hxS)
              · obtain ⟨y, hy, hyS⟩ := hse
                exact ⟨y, by simp [hy], hyS⟩
              · intro hc
                exact compact_cons hkS (hcp (compact_tail h1 hc))
            | dup ss2 =>
              rw [hres] at hrec
              exact hrec
            | err =>
              trivial
            | cont ss2 k2 v2 st2 =>
              rw [hres] at hrec
              obtain ⟨hp, hq, hocc, hk2S, hcar⟩ := hrec
              refine ⟨?_, ?_, ?_, hk2S, ?_⟩
              · rw [pairsOf_cons_occ (show ({ key := k, payload := v, psl := step } :
                    RSlot V).key ≠ S from hkS), pairsOf_cons_occ h1]
                rw [List.cons_append]
                exact hp.cons _
              · intro x hx hxocc
                rcases List.mem_cons.mp hx with rfl | hx
                · exact hQk
                · exact hq x hx hxocc
              · intro x hx
                rcases List.mem_cons.mp hx with rfl | hx
                · exact hkS
                · exact hocc x hx
              · rcases hcar with hcar | hcar
                · exact Or.inr (by rw [hcar]; simp)
                · exact Or.inr (List.mem_cons_of_mem _ hcar)
        · rw [if_neg h3]
          have hrec := ih k v step hkS hknotin2 hnodup2 hQk
            (fun x hx hocc => hQall x (by simp [hx]) hocc)
          cases hres : rhScan S origKey k v step ss with
          | placed ss2 =>
            rw [hres] at hrec
            obtain ⟨hp, hq, hsm, hse, hcp⟩ := hrec
            refine ⟨?_, ?_, ?_, ?_, ?_⟩
            · rw [pairsOf_cons_occ h1, pairsOf_cons_occ h1]
              exact (hp.cons _).trans (List.Perm.swap _ _ _)
            · intro x hx hxocc
              rcases List.mem_cons.mp hx with rfl | hx
              · exact hQall x (by simp) hxocc
              · exact hq x hx hxocc
            · intro x hx hxS
              rcases List.mem_cons.mp hx with rfl | hx
              · exact absurd hxS h1
              · exact List.mem_cons_of_mem _ (hsm x hx hxS)
            · obtain ⟨y, hy, hyS⟩ := hse
              exact ⟨y, by simp [hy], hyS⟩
            · intro hc
              exact compact_cons h1 (hcp (compact_tail h1 hc))
          | dup ss2 =>
            rw [hres] at hrec
            exact hrec
          | err =>
            trivial
          | cont ss2 k2 v2 st2 =>
            rw [hres] at hrec
            obtain ⟨hp, hq, hocc, hk2S, hcar⟩ := hrec
            refine ⟨?_, ?_, ?_, hk2S, ?_⟩
            · rw [pairsOf_cons_occ h1, pairsOf_cons_occ h1]
              rw [List.cons_append]
              exact (hp.cons _).trans (List.Perm.swap _ _ _)
            · intro x hx hxocc
              rcases List.mem_cons.mp hx with rfl | hx
              · exact hQall x (by simp) hxocc
              · exact hq x hx hxocc
            · intro x hx
              rcases List.mem_cons.mp hx with rfl | hx
              · exact h1
              · exact hocc x hx
            · rcases hcar with hcar | hcar
              · exact Or.inl hcar
              · exact Or.inr (List.mem_cons_of_mem _ hcar)

/-- In-bucket key lists inherit `Nodup` from the whole table. -/
theorem bucket_keys_nodup {σ : Type} {S : Nat} {kf : σ → Nat} {pf : σ → V}
    {t : List (List σ)} (huniq : (keysT S kf pf t).Nodup)
    {i : Nat} (hi : i < t.length) : (keysOf S kf t[i]).Nodup := by
  have hdec := decomp_at t i [] hi
  rw [getD_lt _ _ _ hi] at hdec
  have hsub : (keysOf S kf t[i]).Sublist (keysT S kf pf t) := by
    rw [keysT_flatten]
    conv_rhs => rw [hdec]
    rw [List.flatten_append, List.flatten_cons, keysOf_append, keysOf_append]
    exact (List.sublist_append_left _ _).trans (List.sublist_append_right _ _)
  exact huniq.sublist hsub

/-- Invariant of a `RobinhoodProbing` table under sequential inserts.  A
stored slot records its probing step in `psl`; its bucket is exactly its
walk position, with all earlier walk buckets full and no premature cycle. -/
structure RWf (S : Nat) (probe : Nat → Nat → Nat) (red hash : Nat → Nat)
    (t : List (List (RSlot V))) : Prop where
  occ : ∀ b ∈ t, isCompact S RSlot.key b
  uniq : (keysT S RSlot.key (RSlot.payload (V := V)) t).Nodup
  stored : ∀ i (hi : i < t.length), ∀ s ∈ t[i], s.key ≠ S →
    walkIdx probe (red (hash s.key)) s.psl = i ∧
    (∀ q, 1 ≤ q → q ≤ s.psl → probe (red (hash s.key)) q ≠ red (hash s.key)) ∧
    (∀ q, q < s.psl → ∀ s2 ∈ t.getD (walkIdx probe (red (hash s.key)) q) [], s2.key ≠ S)

section RWfLemmas

variable {S : Nat} {probe : Nat → Nat → Nat} {red hash : Nat → Nat}

/-- Fullness conditions survive a bucket write when the written bucket held
an empty slot (Robin-Hood slot variant). -/
theorem set_full_transferR {t : List (List (RSlot V))} {idx : Nat} {b2 : List (RSlot V)}
    (hsent : ∃ s ∈ t.getD idx [], s.key = S) {j : Nat}
    (hold : ∀ s2 ∈ t.getD j [], s2.key ≠ S) :
    ∀ s2 ∈ (t.set idx b2).getD j [], s2.key ≠ S := by
  by_cases hji : idx = j
  · subst hji
    obtain ⟨s, hs, hkey⟩ := hsent
    exact absurd hkey (hold s hs)
  · rw [getD_set_ne _ _ _ _ _ hji]
    exact hold

/-- Fullness conditions survive a bucket write when the written bucket is
itself entirely occupied. -/
theorem set_full_transfer_occ {t : List (List (RSlot V))} {idx : Nat} {b2 : List (RSlot V)}
    (hb2 : ∀ s ∈ b2, s.key ≠ S) {j : Nat}
    (hold : ∀ s2 ∈ t.getD j [], s2.key ≠ S) :
    ∀ s2 ∈ (t.set idx b2).getD j [], s2.key ≠ S := by
  by_cases hji : idx = j
  · subst hji
    rcases Nat.lt_or_ge idx t.length with hlt | hge
    · rw [getD_set_self _ _ _ _ hlt]
      exact hb2
    · rw [List.set_eq_of_length_le hge]
      exact hold
  · rw [getD_set_ne _ _ _ _ _ hji]
    exact hold

/-- The insert walk of `RobinhoodProbing::insert` on a key absent from the
table: whenever it returns `ok`, it returns `true`, preserves the invariant
and the directory size, and the contents gain exactly the carried pair. -/
theorem insertRWalk_ok {D : Nat}
    (gp : GoodProbe D probe) (hred : ∀ x, red x < D) {origKey : Nat} :
    ∀ (fuel : Nat) (t : List (List (RSlot V))) (k : Nat) (v : V)
      (step idx : Nat) (t2 : List (List (RSlot V))) (bres : Bool),
      t.length = D →
      RWf S probe red hash t →
      k ≠ S →
      (∀ s ∈ t.flatten, s.key ≠ k) →
      walkIdx probe (red (hash k)) step = idx →
      (∀ q, 1 ≤ q → q ≤ step → probe (red (hash k)) q ≠ red (hash k)) →
      (∀ q, q < step → ∀ s2 ∈ t.getD (walkIdx probe (red (hash k)) q) [], s2.key ≠ S) →
      insertRWalk S probe red hash origKey t k v step idx fuel = .ok (t2, bres) →
      bres = true ∧ RWf S probe red hash t2 ∧ t2.length = t.length ∧
        (tabPairs S RSlot.key RSlot.payload t2).Perm
          ((k, v) :: tabPairs S RSlot.key RSlot.payload t) := by
  intro fuel
  induction fuel with
  | zero =>
    intro t k v step idx t2 bres _ _ _ _ _ _ _ hres
    cases hres
  | succ fuel ih =>
    intro t k v step idx t2 bres hD hwf hkS habs hidx hcyc hfull hres
    have ho : red (hash k) < D := hred _
    have hidxlt : idx < t.length := by
      rw [hD, ← hidx]
      exact walkIdx_lt gp ho step
    have hbmem : ∀ s ∈ t.getD idx [], s ∈ t.flatten := by
      intro s hs
      rw [getD_lt _ _ _ hidxlt] at hs
      exact mem_flatten_idx.mpr ⟨idx, hidxlt, hs⟩
    have hknotinb : ∀ s ∈ t.getD idx [], s.key ≠ k := fun s hs => habs s (hbmem s hs)
    have hnodupb : (keysOf S RSlot.key (t.getD idx [])).Nodup := by
      rw [getD_lt _ _ _ hidxlt]
      exact bucket_keys_nodup hwf.uniq hidxlt
    have hQall : ∀ s ∈ t.getD idx [], s.key ≠ S →
        walkIdx probe (red (hash s.key)) s.psl = idx ∧
        (∀ q, 1 ≤ q → q ≤ s.psl → probe (red (hash s.key)) q ≠ red (hash s.key)) ∧
        (∀ q, q < s.psl → ∀ s2 ∈ t.getD (walkIdx probe (red (hash s.key)) q) [],
          s2.key ≠ S) := by
      intro s hs hocc
      rw [getD_lt _ _ _ hidxlt] at hs
      exact hwf.stored idx hidxlt s hs hocc
    have hspec := @rhScan_spec V S origKey
      (fun s => walkIdx probe (red (hash s.key)) s.psl = idx ∧
        (∀ q, 1 ≤ q → q ≤ s.psl → probe (red (hash s.key)) q ≠ red (hash s.key)) ∧
        (∀ q, q < s.psl → ∀ s2 ∈ t.getD (walkIdx probe (red (hash s.key)) q) [],
          s2.key ≠ S))
      (t.getD idx []) k v step hkS hknotinb hnodupb ⟨hidx, hcyc, hfull⟩ hQall
    rw [insertRWalk] at hres
    obtain ⟨A, C, hAC1, hAC2⟩ :=
      @tabPairs_set_decomp V (RSlot V) S RSlot.key RSlot.payload t idx hidxlt
    have hknotin : k ∉ keysT S RSlot.key RSlot.payload t := by
      intro hmem
      rw [keysT] at hmem
      obtain ⟨s, hs, hskey, -⟩ := mem_keys_iff.mp hmem
      exact habs s hs hskey
    cases hscan : rhScan S origKey k v step (t.getD idx []) with
    | placed b2 =>
      rw [hscan] at hres hspec
      obtain ⟨hp, hq, hsm, hse, hcp⟩ := hspec
      injection hres with hres
      injection hres with h1 h2
      subst h1
      have hperm : (tabPairs S RSlot.key RSlot.payload (t.set idx b2)).Perm
          ((k, v) :: tabPairs S RSlot.key RSlot.payload t) := by
        rw [hAC2 b2, hAC1, List.append_assoc, List.append_assoc]
        refine ((hp.append_right C).append_left A).trans ?_
        rw [List.cons_append]
        exact List.perm_middle
      refine ⟨h2.symm, ⟨?_, ?_, ?_⟩, by simp, hperm⟩
      · intro b hbm
        rcases mem_set_elim hbm with rfl | hbm
        · refine hcp ?_
          rw [getD_lt _ _ _ hidxlt]
          exact hwf.occ _ (List.getElem_mem hidxlt)
        · exact hwf.occ b hbm
      · have hmap := hperm.map Prod.fst
        rw [keysT, hmap.nodup_iff]
        simp only [List.map_cons]
        exact List.nodup_cons.mpr ⟨by rw [← keysT]; exact hknotin, hwf.uniq⟩
      · intro i2 hi2 s hs hsocc
        have hi2len : i2 < t.length := by simpa using hi2
        by_cases hii : i2 = idx
        · subst hii
          rw [List.getElem_set_self] at hs
          obtain ⟨hQ1, hQ2, hQ3⟩ := hq s hs hsocc
          exact ⟨hQ1, hQ2, fun q hq2 => set_full_transferR hse (hQ3 q hq2)⟩
        · rw [List.getElem_set_ne (fun h => hii h.symm)] at hs
          obtain ⟨hQ1, hQ2, hQ3⟩ := hwf.stored i2 hi2len s hs hsocc
          exact ⟨hQ1, hQ2, fun q hq2 => set_full_transferR hse (hQ3 q hq2)⟩
    | dup b2 =>
      rw [hscan] at hspec
      exact hspec.elim
    | err =>
      rw [hscan] at hres
      cases hres
    | cont b2 k2 v2 st2 =>
      rw [hscan] at hres hspec
      obtain ⟨hp, hq, hocc2, hk2S, hcar⟩ := hspec
      simp only at hres
      by_cases hcy : probe (red (hash k2)) (st2 + 1) = red (hash k2)
      · rw [if_pos hcy] at hres
        cases hres
      · rw [if_neg hcy] at hres
        have hpermc : ((tabPairs S RSlot.key RSlot.payload (t.set idx b2)) ++
            [(k2, v2)]).Perm ((k, v) :: tabPairs S RSlot.key RSlot.payload t) := by
          have e1 : tabPairs S RSlot.key RSlot.payload (t.set idx b2) ++ [(k2, v2)] =
              A ++ (pairsOf S RSlot.key RSlot.payload b2 ++ (C ++ [(k2, v2)])) := by
            rw [hAC2 b2]
            simp [List.append_assoc]
          have e2 : (k, v) :: tabPairs S RSlot.key RSlot.payload t =
              (k, v) :: (A ++ (pairsOf S RSlot.key RSlot.payload (t.getD idx []) ++ C)) := by
            rw [hAC1]
            simp [List.append_assoc]
          rw [e1, e2]
          refine List.Perm.trans (List.Perm.append_left A ?_) List.perm_middle
          refine List.Perm.trans (List.Perm.append_left _ List.perm_append_comm) ?_
          rw [← List.append_assoc]
          refine List.Perm.trans (hp.append_right C) ?_
          rw [List.cons_append]
        have hkeysnd : ((keysT S RSlot.key RSlot.payload (t.set idx b2)) ++ [k2]).Nodup := by
          have hmap := hpermc.map Prod.fst
          simp only [List.map_append, List.map_cons] at hmap
          rw [keysT]
          refine hmap.nodup_iff.mpr ?_
          exact List.nodup_cons.mpr ⟨by rw [← keysT]; exact hknotin, hwf.uniq⟩
        have hk2notin : k2 ∉ keysT S RSlot.key RSlot.payload (t.set idx b2) := by
          have h3 : (([k2] ++ keysT S RSlot.key RSlot.payload (t.set idx b2))).Nodup :=
            List.perm_append_comm.nodup_iff.mpr hkeysnd
          simp only [List.singleton_append, List.nodup_cons] at h3
          exact h3.1
        have hnodup' : (keysT S RSlot.key (RSlot.payload (V := V)) (t.set idx b2)).Nodup := by
          have h3 : (([k2] ++ keysT S RSlot.key RSlot.payload (t.set idx b2))).Nodup :=
            List.perm_append_comm.nodup_iff.mpr hkeysnd
          simp only [List.singleton_append, List.nodup_cons] at h3
          exact h3.2
        have hcaridx : walkIdx probe (red (hash k2)) st2 = idx ∧
            (∀ q, 1 ≤ q → q ≤ st2 → probe (red (hash k2)) q ≠ red (hash k2)) ∧
            (∀ q, q < st2 → ∀ s2 ∈ t.getD (walkIdx probe (red (hash k2)) q) [],
              s2.key ≠ S) := by
          rcases hcar with hcar | hcar
          · have hfields : k2 = k ∧ v2 = v ∧ st2 = step := by
              simpa [RSlot.mk.injEq] using hcar
            obtain ⟨rfl, -, rfl⟩ := hfields
            exact ⟨hidx, hcyc, hfull⟩
          · exact hQall _ hcar hk2S
        have hwf' : RWf S probe red hash (t.set idx b2) := by
          refine ⟨?_, hnodup', ?_⟩
          · intro b hbm
            rcases mem_set_elim hbm with rfl | hbm
            · exact compact_of_allOcc hocc2
            · exact hwf.occ b hbm
          · intro i2 hi2 s hs hsocc
            have hi2len : i2 < t.length := by simpa using hi2
            by_cases hii : i2 = idx
            · subst hii
              rw [List.getElem_set_self] at hs
              obtain ⟨hQ1, hQ2, hQ3⟩ := hq s hs hsocc
              exact ⟨hQ1, hQ2, fun q hq2 => set_full_transfer_occ hocc2 (hQ3 q hq2)⟩
            · rw [List.getElem_set_ne (fun h => hii h.symm)] at hs
              obtain ⟨hQ1, hQ2, hQ3⟩ := hwf.stored i2 hi2len s hs hsocc
              exact ⟨hQ1, hQ2, fun q hq2 => set_full_transfer_occ hocc2 (hQ3 q hq2)⟩
        have habs' : ∀ s ∈ (t.set idx b2).flatten, s.key ≠ k2 :=
          not_key_flatten hk2S hk2notin
        have hcyc' : ∀ q, 1 ≤ q → q ≤ st2 + 1 →
            probe (red (hash k2)) q ≠ red (hash k2) := by
          intro q hq1 hq2
          rcases Nat.lt_or_ge q (st2 + 1) with hlt | hge
          · exact hcaridx.2.1 q hq1 (by omega)
          · have : q = st2 + 1 := by omega
            subst this
            exact hcy
        have hfull' : ∀ q, q < st2 + 1 →
            ∀ s2 ∈ (t.set idx b2).getD (walkIdx probe (red (hash k2)) q) [],
              s2.key ≠ S := by
          intro q hq2
          rcases Nat.lt_or_ge q st2 with hlt | hge
          · exact set_full_transfer_occ hocc2 (hcaridx.2.2 q hlt)
          · have heq : q = st2 := by omega
            subst heq
            rw [hcaridx.1, getD_set_self _ _ _ _ hidxlt]
            exact hocc2
        obtain ⟨hb, hwf2, hlen2, hperm2⟩ := ih (t.set idx b2) k2 v2 (st2 + 1)
          (probe (red (hash k2)) (st2 + 1)) t2 bres (by simp [hD]) hwf' hk2S habs'
          (walkIdx_pos probe _ _ (by omega)) hcyc' hfull' hres
        refine ⟨hb, hwf2, by rw [hlen2]; simp, ?_⟩
        refine hperm2.trans ?_
        refine List.Perm.trans ?_ hpermc
        have : ((k2, v2) :: tabPairs S RSlot.key RSlot.payload (t.set idx b2)) =
            [(k2, v2)] ++ tabPairs S RSlot.key RSlot.payload (t.set idx b2) := rfl
        rw [this]
        exact List.perm_append_comm

end RWfLemmas

section RobinhoodRoundTrip

variable {S : Nat} {probe : Nat → Nat → Nat} {red hash : Nat → Nat}

theorem emptyTabR_key [Inhabited V] {D B : Nat} :
    ∀ s ∈ (emptyTabR (V := V) S D B).flatten, s.key = S := by
  intro s hs
  obtain ⟨b, hb, hsb⟩ := List.mem_flatten.mp hs
  rw [emptyTabR] at hb
  rw [List.eq_of_mem_replicate hb] at hsb
  rw [List.eq_of_mem_replicate hsb]

theorem tabPairs_emptyTabR [Inhabited V] {D B : Nat} :
    tabPairs S RSlot.key RSlot.payload (emptyTabR (V := V) S D B) = [] := by
  rw [tabPairs, pairsOf]
  rw [List.filter_eq_nil_iff.mpr, List.map_nil]
  intro s hs
  simp [bne_iff_ne, emptyTabR_key s hs]

theorem RWf_emptyTabR [Inhabited V] {D B : Nat} :
    RWf S probe red hash (emptyTabR (V := V) S D B) := by
  refine ⟨?_, ?_, ?_⟩
  · intro b hb
    exact ⟨[], b, by simp, by simp, fun s hs =>
      emptyTabR_key s (List.mem_flatten.mpr ⟨b, hb, hs⟩)⟩
  · rw [keysT, tabPairs_emptyTabR]
    exact List.nodup_nil
  · intro i hi s hs hsocc
    exact absurd (emptyTabR_key s (List.mem_flatten.mpr ⟨_, List.getElem_mem hi, hs⟩))
      hsocc

/-- `RobinhoodProbing::insert` on a key absent from the table. -/
theorem insertR_ok {D : Nat} {t t2 : List (List (RSlot V))} {k : Nat} {v : V}
    {bres : Bool} {fuel : Nat}
    (gp : GoodProbe D probe) (hred : ∀ x, red x < D) (hD : t.length = D)
    (hwf : RWf S probe red hash t) (hkS : k ≠ S)
    (habs : ∀ s ∈ t.flatten, s.key ≠ k)
    (hres : insertR S probe red hash t k v fuel = .ok (t2, bres)) :
    bres = true ∧ RWf S probe red hash t2 ∧ t2.length = t.length ∧
      (tabPairs S RSlot.key RSlot.payload t2).Perm
        ((k, v) :: tabPairs S RSlot.key RSlot.payload t) := by
  rw [insertR, if_neg hkS] at hres
  exact insertRWalk_ok gp hred fuel t k v 0 (red (hash k)) t2 bres hD hwf hkS habs
    (walkIdx_zero probe _) (by omega) (by omega) hres

/-- Looking up a stored pair in a Robin-Hood table succeeds. -/
theorem lookupT_hit_R {D : Nat} {t : List (List (RSlot V))}
    (gp : GoodProbe D probe) (hred : ∀ x, red x < D) (hD : t.length = D)
    (hwf : RWf S probe red hash t) {k : Nat} {v : V}
    (hmem : (k, v) ∈ tabPairs S RSlot.key RSlot.payload t) :
    lookupT S RSlot.key RSlot.payload probe red hash t k = some (some v) := by
  rw [tabPairs] at hmem
  obtain ⟨s, hsfl, hskey, hspay, hkS⟩ := mem_pairsOf_iff.mp hmem
  obtain ⟨i, hi, hsmem⟩ := mem_flatten_idx.mp hsfl
  have hsocc : s.key ≠ S := by rw [hskey]; exact hkS
  obtain ⟨hwalk, hcyc, hfull⟩ := hwf.stored i hi s hsmem hsocc
  rw [hskey] at hwalk hcyc hfull
  have hDpos : 0 < D := Nat.lt_of_le_of_lt (Nat.zero_le _) (hred 0)
  have hpD : s.psl < D := by
    by_contra hge
    exact hcyc D (by omega) (by omega) (gp.cyc _ (hred _))
  obtain ⟨j, hj, hsval⟩ := List.getElem_of_mem hsmem
  have hfull2 : ∀ q, q < s.psl →
      ∀ s2 ∈ t.getD (walkIdx probe (red (hash k)) q) [],
        s2.key ≠ S ∧ (s2.key = k → s2.payload = v) := by
    intro q hq s2 hs2
    have hocc2 := hfull q hq s2 hs2
    refine ⟨hocc2, ?_⟩
    intro hk2
    have hqlt : walkIdx probe (red (hash k)) q < t.length := by
      rw [hD]; exact walkIdx_lt gp (hred _) q
    rw [getD_lt _ _ _ hqlt] at hs2
    by_cases hne : walkIdx probe (red (hash k)) q = i
    · subst hne
      obtain ⟨j2, hj2, hsval2⟩ := List.getElem_of_mem hs2
      rcases Nat.lt_trichotomy j2 j with hlt | heq | hgt
      · exact absurd (nodup_no_two_in_bucket hwf.uniq hi hlt hj
          (hsval2 ▸ hk2) (hsval ▸ hskey) hkS) (fun h => h)
      · subst heq
        rw [show s2 = s from hsval2.symm.trans hsval]
        exact hspay
      · exact absurd (nodup_no_two_in_bucket hwf.uniq hi hgt hj2
          (hsval ▸ hskey) (hsval2 ▸ hk2) hkS) (fun h => h)
    · rcases Nat.lt_or_ge (walkIdx probe (red (hash k)) q) i with hlt | hge2
      · exact absurd (nodup_no_two_buckets hwf.uniq hlt hi hs2 hsmem hk2 hskey hkS)
          (fun h => h)
      · have hlt2 : i < walkIdx probe (red (hash k)) q := by omega
        exact absurd (nodup_no_two_buckets hwf.uniq hlt2 hqlt hsmem hs2 hskey hk2 hkS)
          (fun h => h)
  have hhit : bucketFind S RSlot.key RSlot.payload k
      (t.getD (walkIdx probe (red (hash k)) s.psl) []) = some (some v) := by
    rw [hwalk, getD_lt _ _ _ hi]
    have hpre : ∀ j2 (hj2 : j2 < j),
        ((t[i])[j2]).key ≠ k ∧
        ((t[i])[j2]).key ≠ S := by
      intro j2 hj2
      constructor
      · intro hk2
        exact nodup_no_two_in_bucket hwf.uniq hi hj2 hj hk2 (hsval ▸ hskey) hkS
      · exact compact_occ_lt (hwf.occ _ (List.getElem_mem hi)) hj
          (by rw [hsval]; exact hsocc) j2 hj2
    have hres2 : bucketFind S RSlot.key RSlot.payload k (t[i]) =
        some (some (RSlot.payload ((t[i])[j]))) :=
      bucketFind_hit hj (by rw [hsval]; exact hskey) hpre
    rw [hres2, hsval, hspay]
  rw [lookupT, if_neg hkS]
  have hw : lookupWalk S RSlot.key RSlot.payload probe t k (red (hash k))
      (walkIdx probe (red (hash k)) 0) 0 t.length = some (some v) :=
    lookupWalk_hit hpD hcyc hfull2 hhit t.length 0 (by omega) (by omega)
  rw [walkIdx_zero] at hw
  exact hw

/-- Looking up an absent key in a Robin-Hood table misses. -/
theorem lookupT_miss_R {D : Nat} {t : List (List (RSlot V))}
    (gp : GoodProbe D probe) (hred : ∀ x, red x < D) (hD : t.length = D)
    {k : Nat} (hkS : k ≠ S) (habs : ∀ s ∈ t.flatten, s.key ≠ k) :
    lookupT S RSlot.key RSlot.payload probe red hash t k = some none := by
  have hDpos : 0 < D := Nat.lt_of_le_of_lt (Nat.zero_le _) (hred 0)
  rw [lookupT, if_neg hkS]
  exact lookupWalk_miss gp (hred _)
    (fun b hb s hs => habs s (List.mem_flatten.mpr ⟨b, hb, hs⟩)) hD hDpos

/-- Sequential Robin-Hood insertion of pairwise-distinct non-sentinel keys. -/
theorem insertAllR_ok {D fuel : Nat} (gp : GoodProbe D probe) (hred : ∀ x, red x < D)
    {pairs : List (Nat × V)} :
    ∀ {t t2 : List (List (RSlot V))},
      t.length = D →
      RWf S probe red hash t →
      ((pairs.map Prod.fst).Nodup) →
      (∀ p ∈ pairs, p.1 ≠ S) →
      (∀ p ∈ pairs, p.1 ∉ keysT S RSlot.key RSlot.payload t) →
      insertAllR S probe red hash fuel t pairs = .ok t2 →
      RWf S probe red hash t2 ∧ t2.length = t.length ∧
        (tabPairs S RSlot.key RSlot.payload t2).Perm
          (pairs ++ tabPairs S RSlot.key RSlot.payload t) := by
  induction pairs with
  | nil =>
    intro t t2 hD hwf _ _ _ hres
    rw [insertAllR] at hres
    injection hres with hres
    subst hres
    exact ⟨hwf, rfl, by simp⟩
  | cons kv ps ih =>
    intro t t2 hD hwf hnd hkS hdisj hres
    obtain ⟨k, v⟩ := kv
    rw [insertAllR] at hres
    cases hstep : insertR S probe red hash t k v fuel with
    | error e => rw [hstep] at hres; cases hres
    | ok r =>
      obtain ⟨t1, b1⟩ := r
      rw [hstep] at hres
      have hk1 : k ≠ S := hkS (k, v) (by simp)
      have habs : ∀ s ∈ t.flatten, s.key ≠ k :=
        not_key_flatten hk1 (hdisj (k, v) (by simp))
      obtain ⟨-, hwf1, hlen1, hperm1⟩ := insertR_ok gp hred hD hwf hk1 habs hstep
      have hkeysperm : (keysT S RSlot.key RSlot.payload t1).Perm
          (k :: keysT S RSlot.key RSlot.payload t) := by
        rw [keysT, keysT]
        exact hperm1.map Prod.fst
      have hnd2 : (ps.map Prod.fst).Nodup := by
        simp only [List.map_cons, List.nodup_cons] at hnd
        exact hnd.2
      have hknotinps : k ∉ ps.map Prod.fst := by
        simp only [List.map_cons, List.nodup_cons] at hnd
        exact hnd.1
      have hdisj2 : ∀ p ∈ ps, p.1 ∉ keysT S RSlot.key RSlot.payload t1 := by
        intro p hp hmem
        rw [hkeysperm.mem_iff] at hmem
        rcases List.mem_cons.mp hmem with heq | hmem
        · exact hknotinps (heq ▸ List.mem_map_of_mem Prod.fst hp)
        · exact hdisj p (by simp [hp]) hmem
      obtain ⟨hwf2, hlen2, hperm2⟩ := ih (by rw [hlen1, hD]) hwf1 hnd2
        (fun p hp => hkS p (by simp [hp])) hdisj2 hres
      refine ⟨hwf2, by rw [hlen2, hlen1], ?_⟩
      refine hperm2.trans ?_
      refine ((hperm1.append_left ps).trans ?_)
      rw [List.cons_append]
      exact List.perm_middle

/-- Round trip for the `RobinhoodProbing` engine, generic in a `GoodProbe`
probing function: after a successful build from the empty table, every
inserted pair is found and every absent non-sentinel key misses. -/
theorem roundtripR [Inhabited V] {D B fuel : Nat} {pairs : List (Nat × V)}
    {t2 : List (List (RSlot V))}
    (gp : GoodProbe D probe) (hred : ∀ x, red x < D)
    (hnd : (pairs.map Prod.fst).Nodup) (hkS : ∀ p ∈ pairs, p.1 ≠ S)
    (hres : insertAllR S probe red hash fuel (emptyTabR S D B) pairs = .ok t2) :
    (∀ p ∈ pairs, lookupT S RSlot.key RSlot.payload probe red hash t2 p.1 =
      some (some p.2)) ∧
    (∀ k, k ≠ S → k ∉ pairs.map Prod.fst →
      lookupT S RSlot.key RSlot.payload probe red hash t2 k = some none) := by
  have hD0 : (emptyTabR (V := V) S D B).length = D := by simp [emptyTabR]
  obtain ⟨hwf2, hlen2, hperm2⟩ := insertAllR_ok gp hred hD0 RWf_emptyTabR hnd hkS
    (by intro p hp; rw [keysT, tabPairs_emptyTabR]; simp) hres
  rw [tabPairs_emptyTabR, List.append_nil] at hperm2
  have hlen : t2.length = D := by rw [hlen2, hD0]
  constructor
  · intro p hp
    exact lookupT_hit_R gp hred hlen hwf2 (hperm2.mem_iff.mpr hp)
  · intro k hkS2 hnotin
    have hnotkeys : k ∉ keysT S RSlot.key RSlot.payload t2 := by
      intro hmem
      rw [keysT] at hmem
      exact hnotin ((hperm2.map Prod.fst).mem_iff.mp hmem)
    exact lookupT_miss_R gp hred hlen hkS2 (not_key_flatten hkS2 hnotkeys)

end RobinhoodRoundTrip

/-! ### Chained hashing (src/include/chained.hpp) -/

/-- `Chained::FirstLevelSlot`: an inline key/payload plus the chain of
heap-linked buckets (each bucket is `BucketSize` slots). -/
structure FSlot (V : Type) where
  key : Nat
  payload : V
  chain : List (List (PSlot V))

/-- A fresh first-level slot (sentinel key, no chain). -/
def emptyFSlot [Inhabited V] (S : Nat) : FSlot V :=
  { key := S, payload := default, chain := [] }

/-- `new Bucket()` with the entry stored at slot 0 (remaining slots default
to the sentinel). -/
def newBucket [Inhabited V] (S k : Nat) (v : V) (B : Nat) : List (PSlot V) :=
  { key := k, payload := v } :: List.replicate (B - 1) { key := S, payload := default }

/-- The chain walk of `Chained::insert` (lines 80-103): in each bucket fill
the first empty slot or report a duplicate; if no bucket has room, append a
fresh bucket at the tail. -/
def chainWalk [Inhabited V] (S k : Nat) (v : V) (B : Nat) :
    List (List (PSlot V)) → List (List (PSlot V)) × Bool
  | [] => ([newBucket S k v B], true)
  | b :: bs =>
    match scanIns S k v b with
    | .placed b2 => (b2 :: bs, true)
    | .dup => (b :: bs, false)
    | .full =>
      let r := chainWalk S k v B bs
      (b :: r.1, r.2)

/-- `Chained::insert(key, payload)` (lines 48-107).  NOTE: the C++ code has
no duplicate check against the inline slot: when the inline slot is occupied
(by any key, including `key` itself) it proceeds straight to the chain. -/
def chInsert [Inhabited V] (S B : Nat) (red hash : Nat → Nat)
    (t : List (FSlot V)) (k : Nat) (v : V) : List (FSlot V) × Bool :=
  if k = S then (t, false)
  else
    let idx := red (hash k)
    let fs := t.getD idx (emptyFSlot S)
    if fs.key = S then (t.set idx { fs with key := k, payload := v }, true)
    else if fs.chain.isEmpty then
      (t.set idx { fs with chain := [newBucket S k v B] }, true)
    else
      let r := chainWalk S k v B fs.chain
      (t.set idx { fs with chain := r.1 }, r.2)

/-- The chain walk of `Chained::lookup` (lines 128-140): per bucket, a key
match is a hit and an empty slot a miss; otherwise move to the next bucket. -/
def chainLook (S k : Nat) : List (List (PSlot V)) → Option V
  | [] => none
  | b :: bs =>
    match bucketFind S PSlot.key PSlot.payload k b with
    | some (some v) => some v
    | some none => none
    | none => chainLook S k bs

/-- `Chained::lookup(key)` (lines 115-143). -/
def chLookup [Inhabited V] (S : Nat) (red hash : Nat → Nat)
    (t : List (FSlot V)) (k : Nat) : Option V :=
  if k = S then none
  else
    let fs := t.getD (red (hash k)) (emptyFSlot S)
    if fs.key = k then some fs.payload
    else chainLook S k fs.chain

/-- Sequential insertion into a chained table (insert never throws). -/
def chInsertAll [Inhabited V] (S B : Nat) (red hash : Nat → Nat)
    (t : List (FSlot V)) : List (Nat × V) → List (FSlot V)
  | [] => t
  | (k, v) :: ps => chInsertAll S B red hash (chInsert S B red hash t k v).1 ps

/-- A fresh chained table: `capacity` inline slots, all empty. -/
def emptyTabC [Inhabited V] (S D : Nat) : List (FSlot V) :=
  List.replicate D (emptyFSlot S)

/-- The occupied key/payload pairs of a first-level slot: the inline pair
(when occupied) followed by the chain contents in walk order. -/
def fsPairs (S : Nat) (fs : FSlot V) : List (Nat × V) :=
  (if fs.key ≠ S then [(fs.key, fs.payload)] else []) ++
    pairsOf S PSlot.key PSlot.payload fs.chain.flatten

/-- All occupied key/payload pairs of a chained table. -/
def tabPairsC (S : Nat) (t : List (FSlot V)) : List (Nat × V) :=
  (t.map (fsPairs S)).flatten

/-- The occupied keys of a chained table. -/
def keysC (S : Nat) (t : List (FSlot V)) : List Nat :=
  (tabPairsC S t).map Prod.fst

/-! ### Range lookup (`Chained::lookup_range`, lines 156-199) -/

/-- The in-bucket loop of `lookup_range`: emit payloads of keys in
`[min, max]`, record the stop flag when a non-sentinel key `≥ max` is seen,
and break at the first empty slot. -/
def bucketRange (S min max : Nat) : List (PSlot V) → List V × Bool
  | [] => ([], false)
  | s :: ss =>
    if s.key = S then
      (if min ≤ s.key ∧ s.key ≤ max then [s.payload] else [],
        decide (max ≤ s.key ∧ s.key ≠ S))
    else
      ((if min ≤ s.key ∧ s.key ≤ max then [s.payload] else []) ++
          (bucketRange S min max ss).1,
        decide (max ≤ s.key ∧ s.key ≠ S) || (bucketRange S min max ss).2)

/-- The chain loop of `lookup_range`: every bucket of the chain is visited
(the in-bucket break does not stop the chain walk). -/
def chainRange (S min max : Nat) : List (List (PSlot V)) → List V × Bool
  | [] => ([], false)
  | b :: bs =>
    ((bucketRange S min max b).1 ++ (chainRange S min max bs).1,
      (bucketRange S min max b).2 || (chainRange S min max bs).2)

/-- One directory entry of the range walk: the inline slot then its chain. -/
def slotRange [Inhabited V] (S min max : Nat) (fs : FSlot V) : List V × Bool :=
  ((if min ≤ fs.key ∧ fs.key ≤ max then [fs.payload] else []) ++
      (chainRange S min max fs.chain).1,
    decide (max ≤ fs.key ∧ fs.key ≠ S) || (chainRange S min max fs.chain).2)

/-- The directory walk of `lookup_range`: from the lower-bound index to the
end of the directory, stopping after the first entry that observed a
non-sentinel key `≥ max` (`continue_until_next_slot`). -/
def rangeLoop [Inhabited V] (S min max : Nat) (t : List (FSlot V)) (i : Nat) : List V :=
  if h : i < t.length then
    if (slotRange S min max (t.getD i (emptyFSlot S))).2 then
      (slotRange S min max (t.getD i (emptyFSlot S))).1
    else
      (slotRange S min max (t.getD i (emptyFSlot S))).1 ++ rangeLoop S min max t (i + 1)
  else []
termination_by t.length - i
decreasing_by
  omega

/-- `Chained::lookup_range(min, max)`. -/
def lookupRangeC [Inhabited V] (S : Nat) (red hash : Nat → Nat)
    (t : List (FSlot V)) (min max : Nat) : List V :=
  if min = S ∨ max = S then []
  else rangeLoop S min max t (red (hash min))

/-! ### Compactness over appended lists (for chain flattening) -/

section CompactAppend

variable {σ : Type} {S : Nat} {kf : σ → Nat}

theorem compact_append_left {l1 l2 : List σ} (h : isCompact S kf (l1 ++ l2)) :
    isCompact S kf l1 := by
  induction l1 with
  | nil => exact ⟨[], [], rfl, by simp, by simp⟩
  | cons x l1 ih =>
    by_cases hx : kf x = S
    · have hall := compact_allS_tail hx (by simpa using h)
      exact ⟨[], x :: l1, rfl, by simp, by
        intro z hz
        rcases List.mem_cons.mp hz with rfl | hz
        · exact hx
        · exact hall z (by simp [hz])⟩
    · exact compact_cons hx (ih (compact_tail hx (by simpa using h)))

theorem compact_full_left {l1 l2 : List σ} (h : isCompact S kf (l1 ++ l2))
    (hocc : ∃ x ∈ l2, kf x ≠ S) : ∀ x ∈ l1, kf x ≠ S := by
  induction l1 with
  | nil => simp
  | cons x l1 ih =>
    by_cases hx : kf x = S
    · exfalso
      obtain ⟨y, hy, hyocc⟩ := hocc
      exact hyocc (compact_allS_tail hx (by simpa using h) y (by simp [hy]))
    · intro z hz
      rcases List.mem_cons.mp hz with rfl | hz
      · exact hx
      · exact ih (compact_tail hx (by simpa using h)) z hz

theorem compact_append_right_of_full {l1 l2 : List σ}
    (h : isCompact S kf (l1 ++ l2)) (hocc : ∀ x ∈ l1, kf x ≠ S) :
    isCompact S kf l2 := by
  induction l1 with
  | nil => simpa using h
  | cons x l1 ih =>
    exact ih (compact_tail (hocc x (by simp)) (by simpa using h))
      (fun z hz => hocc z (by simp [hz]))

theorem compact_append_of_full_left {l1 l2 : List σ}
    (hocc : ∀ x ∈ l1, kf x ≠ S) (h : isCompact S kf l2) :
    isCompact S kf (l1 ++ l2) := by
  obtain ⟨bo, be, rfl, hbo, hbe⟩ := h
  refine ⟨l1 ++ bo, be, by simp, ?_, hbe⟩
  intro z hz
  rcases List.mem_append.mp hz with hz | hz
  · exact hocc z hz
  · exact hbo z hz

end CompactAppend

/-! ### Chained invariant and preservation -/

/-- Invariant of a `Chained` table under sequential inserts: keys unique,
every occupied key (inline or in-chain) lives at its reduced-hash directory
index, a chain only hangs off an occupied inline slot, and the flattened
chain of each slot is compact (occupied slots form a prefix of the walk). -/
structure CWf (S : Nat) (red hash : Nat → Nat) (t : List (FSlot V)) : Prop where
  uniq : (keysC S t).Nodup
  inlineIdx : ∀ i (hi : i < t.length), (t[i]).key ≠ S → red (hash (t[i]).key) = i
  chainIdx : ∀ i (hi : i < t.length), ∀ s ∈ (t[i]).chain.flatten, s.key ≠ S →
    red (hash s.key) = i
  chainNE : ∀ i (hi : i < t.length), (t[i]).chain ≠ [] → (t[i]).key ≠ S
  cpt : ∀ i (hi : i < t.length), isCompact S PSlot.key ((t[i]).chain.flatten)

section ChainedLemmas

variable {S : Nat} {red hash : Nat → Nat}

theorem keysC_eq {t : List (FSlot V)} :
    keysC S t = (t.map (fun fs =>
      (if fs.key ≠ S then [fs.key] else []) ++
        keysOf S PSlot.key fs.chain.flatten)).flatten := by
  have hfun : (List.map (Prod.fst (α := Nat) (β := V)) ∘ fsPairs S) =
      (fun fs : FSlot V => (if fs.key ≠ S then [fs.key] else []) ++
        keysOf S PSlot.key fs.chain.flatten) := by
    funext fs
    simp only [Function.comp_apply, fsPairs, List.map_append]
    congr 1
    · by_cases h : fs.key = S <;> simp [h]
    · rw [keysOf, pairsOf, List.map_map]
      rfl
  rw [keysC, tabPairsC, List.map_flatten, List.map_map, hfun]

theorem nodup_flatten_part {α : Type} {L : List (List α)} (h : L.flatten.Nodup)
    {i : Nat} (hi : i < L.length) : (L[i]).Nodup := by
  have hdec := decomp_at L i [] hi
  rw [getD_lt _ _ _ hi] at hdec
  refine h.sublist ?_
  conv_rhs => rw [hdec]
  rw [List.flatten_append, List.flatten_cons]
  exact (List.sublist_append_left _ _).trans (List.sublist_append_right _ _)

/-- The per-slot key list (inline key then chain keys). -/
def slotKeys (S : Nat) (fs : FSlot V) : List Nat :=
  (if fs.key ≠ S then [fs.key] else []) ++ keysOf S PSlot.key fs.chain.flatten

theorem slotKeys_nodup {t : List (FSlot V)} (h : (keysC S t).Nodup)
    {i : Nat} (hi : i < t.length) : (slotKeys S (t[i])).Nodup := by
  rw [keysC_eq] at h
  have := nodup_flatten_part h (by simpa using hi : i < (t.map (fun fs =>
    (if fs.key ≠ S then [fs.key] else []) ++
      keysOf S PSlot.key fs.chain.flatten)).length)
  rw [List.getElem_map] at this
  exact this

theorem mem_keysC_iff {t : List (FSlot V)} {k : Nat} :
    k ∈ keysC S t ↔ ∃ i, ∃ hi : i < t.length, k ∈ slotKeys S (t[i]) := by
  rw [keysC_eq]
  constructor
  · intro h
    obtain ⟨l, hl, hkl⟩ := List.mem_flatten.mp h
    obtain ⟨fs, hfs, rfl⟩ := List.mem_map.mp hl
    obtain ⟨i, hi, rfl⟩ := List.getElem_of_mem hfs
    exact ⟨i, hi, hkl⟩
  · rintro ⟨i, hi, hk⟩
    refine List.mem_flatten.mpr ⟨slotKeys S (t[i]), ?_, hk⟩
    refine List.mem_map.mpr ⟨t[i], List.getElem_mem hi, rfl⟩

theorem tabPairsC_set_decomp {t : List (FSlot V)} {i : Nat} (hi : i < t.length)
    (d : FSlot V) :
    ∃ A C : List (Nat × V),
      tabPairsC S t = A ++ fsPairs S (t.getD i d) ++ C ∧
      ∀ fs2, tabPairsC S (t.set i fs2) = A ++ fsPairs S fs2 ++ C := by
  refine ⟨((t.take i).map (fsPairs S)).flatten, ((t.drop (i + 1)).map (fsPairs S)).flatten,
    ?_, ?_⟩
  · conv_lhs => rw [tabPairsC, decomp_at t i d hi]
    simp [tabPairsC]
  · intro fs2
    rw [tabPairsC, set_decomp t i fs2 hi]
    simp

end ChainedLemmas

section ChainOps

variable {S : Nat} {k : Nat} {v : V}

theorem newBucket_flatten_pairs [Inhabited V] {B : Nat} (hkS : k ≠ S) :
    pairsOf S PSlot.key PSlot.payload (newBucket S k v B) = [(k, v)] := by
  rw [newBucket, pairsOf_cons_occ hkS]
  congr 1
  rw [pairsOf]
  rw [List.filter_eq_nil_iff.mpr, List.map_nil]
  intro s hs
  rw [List.eq_of_mem_replicate hs]
  simp

theorem newBucket_compact [Inhabited V] {B : Nat} (hkS : k ≠ S) :
    isCompact S PSlot.key (newBucket S k v B) := by
  refine ⟨[{ key := k, payload := v }], List.replicate (B - 1) { key := S, payload := default },
    rfl, ?_, ?_⟩
  · intro x hx
    rw [List.mem_singleton] at hx
    subst hx
    exact hkS
  · intro x hx
    rw [List.eq_of_mem_replicate hx]

theorem newBucket_mem [Inhabited V] {B : Nat} {s : PSlot V}
    (hs : s ∈ newBucket S k v B) (hocc : s.key ≠ S) :
    s = { key := k, payload := v } := by
  rw [newBucket] at hs
  rcases List.mem_cons.mp hs with rfl | hs
  · rfl
  · exact absurd (by rw [List.eq_of_mem_replicate hs]) hocc

/-- The chain walk of `Chained::insert` on a key absent from the chain:
it places the pair (never reporting a duplicate), adds exactly that pair to
the walk-order contents, and preserves compactness of the flattened chain. -/
theorem chainWalk_spec [Inhabited V] {B : Nat} (hkS : k ≠ S) :
    ∀ ch : List (List (PSlot V)),
      (∀ s ∈ ch.flatten, s.key ≠ k) →
      isCompact S PSlot.key ch.flatten →
      (chainWalk S k v B ch).2 = true ∧
      (pairsOf S PSlot.key PSlot.payload (chainWalk S k v B ch).1.flatten).Perm
        ((k, v) :: pairsOf S PSlot.key PSlot.payload ch.flatten) ∧
      isCompact S PSlot.key (chainWalk S k v B ch).1.flatten ∧
      (∀ s ∈ (chainWalk S k v B ch).1.flatten, s.key ≠ S →
        s = { key := k, payload := v } ∨ s ∈ ch.flatten) := by
  intro ch
  induction ch with
  | nil =>
    intro _ _
    have h1 : (chainWalk S k v B ([] : List (List (PSlot V)))).1.flatten =
        newBucket S k v B := by
      rw [chainWalk]
      simp
    refine ⟨rfl, ?_, ?_, ?_⟩
    · rw [h1, newBucket_flatten_pairs hkS]
      exact List.Perm.refl _
    · rw [h1]
      exact newBucket_compact hkS
    · intro s hs hocc
      rw [h1] at hs
      exact Or.inl (newBucket_mem hs hocc)
  | cons b bs ih =>
    intro hknotin hcpt
    cases hscan : scanIns S k v b with
    | placed b2 =>
      have hw : chainWalk S k v B (b :: bs) = (b2 :: bs, true) := by
        rw [chainWalk, hscan]
      rw [hw]
      obtain ⟨b1, sX, rest, hb, hsS, hocc1, hb2⟩ := scanIns_placed_decomp hscan
      have hflat : (b :: bs).flatten = b1 ++ sX :: (rest ++ bs.flatten) := by
        simp [hb]
      have hallS : ∀ x ∈ sX :: (rest ++ bs.flatten), x.key = S := by
        obtain ⟨bo, be, hsplit, hbo, hbe⟩ := hcpt
        rw [hflat] at hsplit
        obtain ⟨rfl, hrest⟩ := prefix_eq_of hsplit
          (fun z hz => (hocc1 z hz).1) hsS hbo hbe
        intro x hx
        exact hbe x (by rw [← hrest]; exact hx)
      refine ⟨rfl, ?_, ?_, ?_⟩
      · show (pairsOf S PSlot.key PSlot.payload ((b2 :: bs).flatten)).Perm _
        rw [List.flatten_cons, hb2, hflat]
        rw [List.append_assoc, List.cons_append]
        rw [pairsOf_append, pairsOf_append, pairsOf_cons_occ (show
          ({ key := k, payload := v } : PSlot V).key ≠ S from hkS),
          pairsOf_cons_sent hsS]
        exact List.perm_middle
      · show isCompact S PSlot.key ((b2 :: bs).flatten)
        rw [List.flatten_cons, hb2, List.append_assoc, List.cons_append]
        refine ⟨b1 ++ [{ key := k, payload := v }], rest ++ bs.flatten, by simp, ?_, ?_⟩
        · intro x hx
          rcases List.mem_append.mp hx with hx | hx
          · exact (hocc1 x hx).1
          · rw [List.mem_singleton] at hx
            subst hx
            exact hkS
        · intro x hx
          exact hallS x (by simp [hx])
      · intro s hs hocc
        rw [List.flatten_cons, hb2] at hs
        rcases List.mem_append.mp hs with hs | hs
        · rcases List.mem_append.mp hs with hs | hs
          · exact Or.inr (by rw [hflat]; simp [hs])
          · rcases List.mem_cons.mp hs with rfl | hs
            · exact Or.inl rfl
            · exact Or.inr (by rw [hflat]; simp [hs])
        · exact Or.inr (by simp [hs])
    | dup =>
      exfalso
      obtain ⟨s, hs, hskey, -⟩ := scanIns_dup_mem hscan
      exact hknotin s (by simp [hs]) hskey
    | full =>
      have hbfull : ∀ x ∈ b, x.key ≠ S := fun x hx => (scanIns_full_iff.mp hscan x hx).1
      have hcpt2 : isCompact S PSlot.key bs.flatten :=
        compact_append_right_of_full (by simpa using hcpt) hbfull
      obtain ⟨ht, hperm, hcpt3, hmem⟩ := ih
        (fun s hs => hknotin s (by simp [hs])) hcpt2
      have hw : chainWalk S k v B (b :: bs) =
          (b :: (chainWalk S k v B bs).1, (chainWalk S k v B bs).2) := by
        rw [chainWalk, hscan]
      rw [hw]
      refine ⟨ht, ?_, ?_, ?_⟩
      · show (pairsOf S PSlot.key PSlot.payload
            ((b :: (chainWalk S k v B bs).1).flatten)).Perm _
        rw [List.flatten_cons, pairsOf_append]
        conv_rhs => rw [List.flatten_cons, pairsOf_append]
        refine ((hperm.append_left (pairsOf S PSlot.key PSlot.payload b)).trans ?_)
        exact List.perm_middle
      · show isCompact S PSlot.key ((b :: (chainWalk S k v B bs).1).flatten)
        rw [List.flatten_cons]
        exact compact_append_of_full_left hbfull hcpt3
      · intro s hs hocc
        rw [List.flatten_cons] at hs
        rcases List.mem_append.mp hs with hs | hs
        · exact Or.inr (by simp [hs])
        · rcases hmem s hs hocc with h | h
          · exact Or.inl h
          · exact Or.inr (by simp [h])

/-- The chain walk of `Chained::lookup` misses when the key is absent. -/
theorem chainLook_miss {ch : List (List (PSlot V))}
    (h : ∀ s ∈ ch.flatten, s.key ≠ k) : chainLook S k ch = none := by
  induction ch with
  | nil => rfl
  | cons b bs ih =>
    rw [chainLook]
    cases hbf : bucketFind S PSlot.key PSlot.payload k b with
    | none => exact ih fun s hs => h s (by simp [hs])
    | some r =>
      cases r with
      | none => rfl
      | some v2 =>
        obtain ⟨s, hs, hskey, -⟩ := bucketFind_some_some hbf
        exact absurd hskey (h s (by simp [hs]))

/-- Within one bucket, a unique in-range entry is found by the scan. -/
theorem bucketFind_mem_hit {b : List (PSlot V)} (hcb : isCompact S PSlot.key b)
    (hnb : (keysOf S PSlot.key b).Nodup) {s : PSlot V} (hs : s ∈ b)
    (hskey : s.key = k) (hspay : s.payload = v) (hkS : k ≠ S) :
    bucketFind S PSlot.key PSlot.payload k b = some (some v) := by
  obtain ⟨j, hj, hsval⟩ := List.getElem_of_mem hs
  have hres : bucketFind S PSlot.key PSlot.payload k b =
      some (some (PSlot.payload (b[j]))) := by
    refine bucketFind_hit hj (by rw [hsval]; exact hskey) ?_
    intro j2 hj2
    constructor
    · intro hk2
      have hcnt : 2 ≤ (keysOf S PSlot.key b).count k :=
        count_two_of_two_pos hj2 hj hk2 (hsval ▸ hskey) hkS
      have := List.nodup_iff_count_le_one.mp hnb k
      omega
    · exact compact_occ_lt hcb hj (by rw [hsval, hskey]; exact hkS) j2 hj2
  rw [hres, hsval, hspay]

/-- The chain walk of `Chained::lookup` finds a unique stored pair. -/
theorem chainLook_hit {ch : List (List (PSlot V))}
    (hc : isCompact S PSlot.key ch.flatten)
    (hnd : (keysOf S PSlot.key ch.flatten).Nodup)
    {s : PSlot V} (hmem : s ∈ ch.flatten) (hskey : s.key = k) (hspay : s.payload = v)
    (hkS : k ≠ S) :
    chainLook S k ch = some v := by
  induction ch with
  | nil => simp at hmem
  | cons b bs ih =>
    rw [List.flatten_cons] at hc hnd hmem
    rw [chainLook]
    rcases List.mem_append.mp hmem with hsb | hsbs
    · rw [bucketFind_mem_hit (compact_append_left hc)
        ((keysOf_append b bs.flatten ▸ hnd).of_append_left) hsb hskey hspay hkS]
    · have hnotb : ∀ x ∈ b, x.key ≠ k := by
        intro x hx hxk
        by_cases hxS : x.key = S
        · exact hkS (hxk ▸ hxS)
        · have h1 : k ∈ keysOf S PSlot.key b := mem_keysOf_iff.mpr ⟨x, hx, hxk, hkS⟩
          have h2 : k ∈ keysOf S PSlot.key bs.flatten :=
            mem_keysOf_iff.mpr ⟨s, hsbs, hskey, hkS⟩
          rw [keysOf_append] at hnd
          exact (List.disjoint_of_nodup_append hnd) h1 h2
      have hbfull : ∀ x ∈ b, x.key ≠ S :=
        compact_full_left hc ⟨s, hsbs, by rw [hskey]; exact hkS⟩
      rw [bucketFind_none (fun x hx => ⟨hnotb x hx, hbfull x hx⟩)]
      exact ih (compact_append_right_of_full hc hbfull)
        ((keysOf_append b bs.flatten ▸ hnd).of_append_right) hsbs

end ChainOps

/-- Shared rearrangement: replacing a middle segment by one with an extra
front element moves that element to the front of the whole list. -/
theorem perm_set_cons {α : Type} {A C B1 B2 : List α} {x : α} (h : B2.Perm (x :: B1)) :
    (A ++ B2 ++ C).Perm (x :: (A ++ B1 ++ C)) := by
  rw [List.append_assoc, List.append_assoc]
  refine ((h.append_right C).append_left A).trans ?_
  rw [List.cons_append]
  exact List.perm_middle

section ChainedInsert

variable {S : Nat} {red hash : Nat → Nat}

theorem mem_tabPairsC_iff {t : List (FSlot V)} {k : Nat} {v : V} :
    (k, v) ∈ tabPairsC S t ↔ ∃ i, ∃ hi : i < t.length, (k, v) ∈ fsPairs S (t[i]) := by
  rw [tabPairsC]
  constructor
  · intro h
    obtain ⟨l, hl, hkl⟩ := List.mem_flatten.mp h
    obtain ⟨fs, hfs, rfl⟩ := List.mem_map.mp hl
    obtain ⟨i, hi, rfl⟩ := List.getElem_of_mem hfs
    exact ⟨i, hi, hkl⟩
  · rintro ⟨i, hi, hk⟩
    exact List.mem_flatten.mpr ⟨fsPairs S (t[i]),
      List.mem_map.mpr ⟨t[i], List.getElem_mem hi, rfl⟩, hk⟩

theorem keysC_of_inline {t : List (FSlot V)} {i : Nat} (hi : i < t.length)
    (hocc : (t[i]).key ≠ S) : (t[i]).key ∈ keysC S t :=
  mem_keysC_iff.mpr ⟨i, hi, by simp [slotKeys, hocc]⟩

theorem keysC_of_chain {t : List (FSlot V)} {i : Nat} (hi : i < t.length)
    {s : PSlot V} (hs : s ∈ (t[i]).chain.flatten) (hocc : s.key ≠ S) :
    s.key ∈ keysC S t :=
  mem_keysC_iff.mpr ⟨i, hi, by
    simp only [slotKeys, List.mem_append]
    exact Or.inr (mem_keysOf_iff.mpr ⟨s, hs, rfl, hocc⟩)⟩

/-- `Chained::insert` on a key absent from the table: it returns `true`,
preserves the invariant and adds exactly the inserted pair. -/
theorem chInsert_ok [Inhabited V] {D B : Nat} {t : List (FSlot V)} {k : Nat} {v : V}
    (hred : ∀ x, red x < D) (hD : t.length = D)
    (hwf : CWf S red hash t) (hkS : k ≠ S) (habs : k ∉ keysC S t) :
    (chInsert S B red hash t k v).2 = true ∧
    CWf S red hash (chInsert S B red hash t k v).1 ∧
    (chInsert S B red hash t k v).1.length = t.length ∧
    (tabPairsC S (chInsert S B red hash t k v).1).Perm ((k, v) :: tabPairsC S t) := by
  rw [chInsert, if_neg hkS]
  have hidxlt : red (hash k) < t.length := by rw [hD]; exact hred _
  have hfs : t.getD (red (hash k)) (emptyFSlot S) = t[red (hash k)] :=
    getD_lt _ _ _ hidxlt
  obtain ⟨A, C, hAC1, hAC2⟩ := tabPairsC_set_decomp hidxlt (emptyFSlot S)
  have huniq2 : ∀ {fs2 : FSlot V}, (fsPairs S fs2).Perm
      ((k, v) :: fsPairs S (t.getD (red (hash k)) (emptyFSlot S))) →
      (tabPairsC S (t.set (red (hash k)) fs2)).Perm ((k, v) :: tabPairsC S t) := by
    intro fs2 hp
    rw [hAC2 fs2, hAC1]
    exact perm_set_cons hp
  have hwfkeep : ∀ {fs2 : FSlot V},
      (tabPairsC S (t.set (red (hash k)) fs2)).Perm ((k, v) :: tabPairsC S t) →
      (keysC S (t.set (red (hash k)) fs2)).Nodup := by
    intro fs2 hp
    have hmap := hp.map Prod.fst
    rw [keysC, hmap.nodup_iff]
    simp only [List.map_cons]
    exact List.nodup_cons.mpr ⟨by rw [← keysC]; exact habs, hwf.uniq⟩
  by_cases h1 : (t.getD (red (hash k)) (emptyFSlot S)).key = S
  · rw [if_pos h1]
    have hch : (t[red (hash k)]).chain = [] := by
      by_contra hne
      exact hwf.chainNE _ hidxlt hne (by rw [← hfs]; exact h1)
    have hch2 : (t.getD (red (hash k)) (emptyFSlot S)).chain = [] := by
      rw [hfs]; exact hch
    have hpair : (fsPairs S { t.getD (red (hash k)) (emptyFSlot S) with
        key := k, payload := v }).Perm
        ((k, v) :: fsPairs S (t.getD (red (hash k)) (emptyFSlot S))) := by
      have hl : fsPairs S { t.getD (red (hash k)) (emptyFSlot S) with
          key := k, payload := v } = [(k, v)] := by
        rw [fsPairs,
          show ({ t.getD (red (hash k)) (emptyFSlot S) with key := k, payload := v } :
            FSlot V).chain = (t.getD (red (hash k)) (emptyFSlot S)).chain from rfl,
          hch2]
        simp [hkS, pairsOf]
      have hr : fsPairs S (t.getD (red (hash k)) (emptyFSlot S)) = [] := by
        rw [fsPairs, hch2, if_neg (not_not.mpr h1)]
        simp [pairsOf]
      rw [hl, hr]
    have hperm := huniq2 hpair
    refine ⟨rfl, ⟨hwfkeep hperm, ?_, ?_, ?_, ?_⟩, by simp, hperm⟩
    · intro i hi hocc
      have hilen : i < t.length := by simpa using hi
      by_cases hii : i = red (hash k)
      · subst hii
        rw [List.getElem_set_self] at hocc ⊢
      · rw [List.getElem_set_ne (fun h => hii h.symm)] at hocc ⊢
        exact hwf.inlineIdx i hilen hocc
    · intro i hi s hs hocc
      have hilen : i < t.length := by simpa using hi
      by_cases hii : i = red (hash k)
      · subst hii
        rw [List.getElem_set_self,
          show ({ t.getD (red (hash k)) (emptyFSlot S) with key := k, payload := v } :
            FSlot V).chain = (t.getD (red (hash k)) (emptyFSlot S)).chain from rfl,
          hch2] at hs
        simp at hs
      · rw [List.getElem_set_ne (fun h => hii h.symm)] at hs
        exact hwf.chainIdx i hilen s hs hocc
    · intro i hi hchne
      have hilen : i < t.length := by simpa using hi
      by_cases hii : i = red (hash k)
      · subst hii
        rw [List.getElem_set_self]
        exact hkS
      · rw [List.getElem_set_ne (fun h => hii h.symm)] at hchne ⊢
        exact hwf.chainNE i hilen hchne
    · intro i hi
      have hilen : i < t.length := by simpa using hi
      by_cases hii : i = red (hash k)
      · subst hii
        rw [List.getElem_set_self,
          show ({ t.getD (red (hash k)) (emptyFSlot S) with key := k, payload := v } :
            FSlot V).chain = (t.getD (red (hash k)) (emptyFSlot S)).chain from rfl,
          hch2]
        exact ⟨[], [], rfl, by simp, by simp⟩
      · rw [List.getElem_set_ne (fun h => hii h.symm)]
        exact hwf.cpt i hilen
  · rw [if_neg h1]
    have habschain : ∀ s ∈ (t.getD (red (hash k)) (emptyFSlot S)).chain.flatten,
        s.key ≠ k := by
      intro s hs hsk
      by_cases hsS : s.key = S
      · exact hkS (hsk ▸ hsS)
      · exact habs (hsk ▸ keysC_of_chain hidxlt (by rw [← hfs]; exact hs) hsS)
    by_cases h2 : (t.getD (red (hash k)) (emptyFSlot S)).chain.isEmpty
    · rw [if_pos h2]
      have hch2 : (t.getD (red (hash k)) (emptyFSlot S)).chain = [] :=
        List.isEmpty_iff.mp h2
      have hpair : (fsPairs S { t.getD (red (hash k)) (emptyFSlot S) with
          chain := [newBucket S k v B] }).Perm
          ((k, v) :: fsPairs S (t.getD (red (hash k)) (emptyFSlot S))) := by
        have hl : fsPairs S { t.getD (red (hash k)) (emptyFSlot S) with
            chain := [newBucket S k v B] } =
            [((t.getD (red (hash k)) (emptyFSlot S)).key,
              (t.getD (red (hash k)) (emptyFSlot S)).payload), (k, v)] := by
          rw [fsPairs]
          simp only [if_pos h1]
          rw [show ([newBucket S k v B] : List (List (PSlot V))).flatten =
            newBucket S k v B by simp]
          rw [newBucket_flatten_pairs hkS]
          simp [h1]
        have hr : fsPairs S (t.getD (red (hash k)) (emptyFSlot S)) =
            [((t.getD (red (hash k)) (emptyFSlot S)).key,
              (t.getD (red (hash k)) (emptyFSlot S)).payload)] := by
          rw [fsPairs, hch2, if_pos h1]
          simp [pairsOf]
        rw [hl, hr]
        exact List.Perm.swap _ _ _
      have hperm := huniq2 hpair
      refine ⟨rfl, ⟨hwfkeep hperm, ?_, ?_, ?_, ?_⟩, by simp, hperm⟩
      · intro i hi hocc
        have hilen : i < t.length := by simpa using hi
        by_cases hii : i = red (hash k)
        · subst hii
          rw [List.getElem_set_self] at hocc ⊢
          show red (hash (t.getD (red (hash k)) (emptyFSlot S)).key) = red (hash k)
          rw [hfs]
          exact hwf.inlineIdx _ hidxlt (by rw [← hfs]; exact hocc)
        · rw [List.getElem_set_ne (fun h => hii h.symm)] at hocc ⊢
          exact hwf.inlineIdx i hilen hocc
      · intro i hi s hs hocc
        have hilen : i < t.length := by simpa using hi
        by_cases hii : i = red (hash k)
        · subst hii
          rw [List.getElem_set_self] at hs
          simp only [show ({ t.getD (red (hash k)) (emptyFSlot S) with
            chain := [newBucket S k v B] } : FSlot V).chain =
            [newBucket S k v B] from rfl] at hs
          rw [show ([newBucket S k v B] : List (List (PSlot V))).flatten =
            newBucket S k v B by simp] at hs
          rw [newBucket_mem hs hocc]
        · rw [List.getElem_set_ne (fun h => hii h.symm)] at hs
          exact hwf.chainIdx i hilen s hs hocc
      · intro i hi hchne
        have hilen : i < t.length := by simpa using hi
        by_cases hii : i = red (hash k)
        · subst hii
          rw [List.getElem_set_self]
          exact h1
        · rw [List.getElem_set_ne (fun h => hii h.symm)] at hchne ⊢
          exact hwf.chainNE i hilen hchne
      · intro i hi
        have hilen : i < t.length := by simpa using hi
        by_cases hii : i = red (hash k)
        · subst hii
          rw [List.getElem_set_self]
          simp only [show ({ t.getD (red (hash k)) (emptyFSlot S) with
            chain := [newBucket S k v B] } : FSlot V).chain =
            [newBucket S k v B] from rfl]
          rw [show ([newBucket S k v B] : List (List (PSlot V))).flatten =
            newBucket S k v B by simp]
          exact newBucket_compact hkS
        · rw [List.getElem_set_ne (fun h => hii h.symm)]
          exact hwf.cpt i hilen
    · rw [if_neg h2]
      have hcpt0 : isCompact S PSlot.key
          ((t.getD (red (hash k)) (emptyFSlot S)).chain.flatten) := by
        rw [hfs]
        exact hwf.cpt _ hidxlt
      obtain ⟨hwt, hwp, hwc, hwm⟩ := chainWalk_spec (v := v) (B := B) hkS
        (t.getD (red (hash k)) (emptyFSlot S)).chain habschain hcpt0
      have hpair : (fsPairs S { t.getD (red (hash k)) (emptyFSlot S) with
          chain := (chainWalk S k v B
            (t.getD (red (hash k)) (emptyFSlot S)).chain).1 }).Perm
          ((k, v) :: fsPairs S (t.getD (red (hash k)) (emptyFSlot S))) := by
        rw [fsPairs, fsPairs]
        simp only [if_pos h1]
        refine List.Perm.trans (hwp.append_left _) ?_
        exact List.perm_middle
      have hperm := huniq2 hpair
      refine ⟨hwt, ⟨hwfkeep hperm, ?_, ?_, ?_, ?_⟩, by simp, hperm⟩
      · intro i hi hocc
        have hilen : i < t.length := by simpa using hi
        by_cases hii : i = red (hash k)
        · subst hii
          rw [List.getElem_set_self] at hocc ⊢
          show red (hash (t.getD (red (hash k)) (emptyFSlot S)).key) = red (hash k)
          rw [hfs]
          exact hwf.inlineIdx _ hidxlt (by rw [← hfs]; exact hocc)
        · rw [List.getElem_set_ne (fun h => hii h.symm)] at hocc ⊢
          exact hwf.inlineIdx i hilen hocc
      · intro i hi s hs hocc
        have hilen : i < t.length := by simpa using hi
        by_cases hii : i = red (hash k)
        · subst hii
          rw [List.getElem_set_self] at hs
          rcases hwm s hs hocc with rfl | hs2
          · rfl
          · exact hwf.chainIdx _ hidxlt s (by rw [← hfs]; exact hs2) hocc
        · rw [List.getElem_set_ne (fun h => hii h.symm)] at hs
          exact hwf.chainIdx i hilen s hs hocc
      · intro i hi hchne
        have hilen : i < t.length := by simpa using hi
        by_cases hii : i = red (hash k)
        · subst hii
          rw [List.getElem_set_self]
          exact h1
        · rw [List.getElem_set_ne (fun h => hii h.symm)] at hchne ⊢
          exact hwf.chainNE i hilen hchne
      · intro i hi
        have hilen : i < t.length := by simpa using hi
        by_cases hii : i = red (hash k)
        · subst hii
          rw [List.getElem_set_self]
          exact hwc
        · rw [List.getElem_set_ne (fun h => hii h.symm)]
          exact hwf.cpt i hilen

end ChainedInsert










/-! ### Chained round trip -/

section ChainedRoundTrip

variable {S : Nat} {red hash : Nat → Nat}

theorem fsPairs_emptyFSlot [Inhabited V] :
    fsPairs S (emptyFSlot (V := V) S) = [] := by
  rw [fsPairs]
  simp [emptyFSlot, pairsOf]

theorem tabPairsC_emptyTabC [Inhabited V] {D : Nat} :
    tabPairsC S (emptyTabC (V := V) S D) = [] := by
  rw [tabPairsC, emptyTabC]
  induction D with
  | zero => rfl
  | succ n ih =>
    rw [List.replicate_succ, List.map_cons, List.flatten_cons, fsPairs_emptyFSlot]
    simpa using ih

theorem CWf_emptyTabC [Inhabited V] {D : Nat} :
    CWf S red hash (emptyTabC (V := V) S D) := by
  have hget : ∀ i (hi : i < (emptyTabC (V := V) S D).length),
      (emptyTabC (V := V) S D)[i] = emptyFSlot S := by
    intro i hi
    simp only [emptyTabC] at hi ⊢
    exact List.getElem_replicate ..
  refine ⟨?_, ?_, ?_, ?_, ?_⟩
  · rw [keysC, tabPairsC_emptyTabC]
    exact List.nodup_nil
  · intro i hi h
    rw [hget i hi] at h
    exact absurd rfl h
  · intro i hi s hs _
    rw [hget i hi] at hs
    simp [emptyFSlot] at hs
  · intro i hi h
    rw [hget i hi] at h
    exact absurd rfl h
  · intro i hi
    rw [hget i hi]
    exact ⟨[], [], rfl, by simp, by simp⟩

theorem mem_fsPairs_iff [Inhabited V] {fs : FSlot V} {k : Nat} {v : V} :
    (k, v) ∈ fsPairs S fs ↔
      ((fs.key = k ∧ fs.payload = v ∧ k ≠ S) ∨
        ∃ s ∈ fs.chain.flatten, s.key = k ∧ s.payload = v ∧ k ≠ S) := by
  rw [fsPairs, List.mem_append, mem_pairsOf_iff]
  apply or_congr
  · by_cases hS : fs.key = S
    · rw [if_neg (not_not.mpr hS)]
      constructor
      · intro h
        simp at h
      · rintro ⟨h1, -, h3⟩
        exact absurd (h1 ▸ hS) h3
    · rw [if_pos hS]
      constructor
      · intro h
        have heq := List.mem_singleton.mp h
        obtain ⟨h1, h2⟩ := Prod.mk.injEq .. ▸ heq
        exact ⟨h1.symm, h2.symm, by rw [h1]; exact hS⟩
      · rintro ⟨h1, h2, -⟩
        exact List.mem_singleton.mpr (by rw [h1, h2])
  · exact Iff.rfl

/-- Looking up a stored pair in a chained table succeeds, from the invariant. -/
theorem chLookup_hit [Inhabited V] {D : Nat} {t : List (FSlot V)} {k : Nat} {v : V}
    (hred : ∀ x, red x < D) (hD : t.length = D)
    (hwf : CWf S red hash t) (hmem : (k, v) ∈ tabPairsC S t) :
    chLookup S red hash t k = some v := by
  obtain ⟨i, hi, hfsmem⟩ := mem_tabPairsC_iff.mp hmem
  rcases mem_fsPairs_iff.mp hfsmem with ⟨hkey, hpay, hkS⟩ | ⟨s, hs, hskey, hspay, hkS⟩
  · have hidx : red (hash k) = i := by
      have h2 := hwf.inlineIdx i hi (by rw [hkey]; exact hkS)
      rw [hkey] at h2
      exact h2
    rw [chLookup, if_neg hkS]
    show (if (t.getD (red (hash k)) (emptyFSlot S)).key = k then
      some (t.getD (red (hash k)) (emptyFSlot S)).payload
      else chainLook S k (t.getD (red (hash k)) (emptyFSlot S)).chain) = some v
    have hgd : t.getD (red (hash k)) (emptyFSlot S) = t[i] := by
      rw [hidx]
      exact getD_lt _ _ _ hi
    rw [hgd, if_pos hkey, hpay]
  · have hidx : red (hash k) = i := by
      have h2 := hwf.chainIdx i hi s hs (by rw [hskey]; exact hkS)
      rw [hskey] at h2
      exact h2
    rw [chLookup, if_neg hkS]
    show (if (t.getD (red (hash k)) (emptyFSlot S)).key = k then
      some (t.getD (red (hash k)) (emptyFSlot S)).payload
      else chainLook S k (t.getD (red (hash k)) (emptyFSlot S)).chain) = some v
    have hgd : t.getD (red (hash k)) (emptyFSlot S) = t[i] := by
      rw [hidx]
      exact getD_lt _ _ _ hi
    rw [hgd]
    have hsk : (t[i]).key ≠ k := by
      intro heq
      have hnodup := slotKeys_nodup hwf.uniq hi
      rw [slotKeys, if_pos (by rw [heq]; exact hkS)] at hnodup
      have hkchain : k ∈ keysOf S PSlot.key ((t[i]).chain.flatten) :=
        mem_keysOf_iff.mpr ⟨s, hs, hskey, hkS⟩
      exact (List.disjoint_of_nodup_append hnodup) (by simp [heq]) hkchain
    rw [if_neg hsk]
    have hchainnd := slotKeys_nodup hwf.uniq hi
    rw [slotKeys] at hchainnd
    exact chainLook_hit (hwf.cpt i hi) hchainnd.of_append_right hs hskey hspay hkS

/-- Looking up an absent non-sentinel key in a chained table misses. -/
theorem chLookup_miss [Inhabited V] {D : Nat} {t : List (FSlot V)} {k : Nat}
    (hred : ∀ x, red x < D) (hD : t.length = D)
    (hwf : CWf S red hash t) (hkS : k ≠ S) (habs : k ∉ keysC S t) :
    chLookup S red hash t k = none := by
  rw [chLookup, if_neg hkS]
  have hidxlt : red (hash k) < t.length := by
    rw [hD]
    exact hred _
  have hgd : t.getD (red (hash k)) (emptyFSlot S) = t[red (hash k)] :=
    getD_lt _ _ _ hidxlt
  show (if (t.getD (red (hash k)) (emptyFSlot S)).key = k then
    some (t.getD (red (hash k)) (emptyFSlot S)).payload
    else chainLook S k (t.getD (red (hash k)) (emptyFSlot S)).chain) = none
  rw [hgd]
  have hne : (t[red (hash k)]).key ≠ k := by
    intro heq
    exact habs (heq ▸ keysC_of_inline hidxlt (by rw [heq]; exact hkS))
  rw [if_neg hne]
  refine chainLook_miss ?_
  intro s hs hsk
  exact habs (hsk ▸ keysC_of_chain hidxlt hs (by rw [hsk]; exact hkS))

/-- Sequential insertion of fresh distinct keys preserves the chained
invariant and stores exactly the inserted pairs. -/
theorem chInsertAll_ok [Inhabited V] {D B : Nat} {pairs : List (Nat × V)} :
    ∀ {t : List (FSlot V)},
      (∀ x, red x < D) → t.length = D →
      CWf S red hash t →
      (pairs.map Prod.fst).Nodup →
      (∀ p ∈ pairs, p.1 ≠ S) →
      (∀ p ∈ pairs, p.1 ∉ keysC S t) →
      CWf S red hash (chInsertAll S B red hash t pairs) ∧
      (chInsertAll S B red hash t pairs).length = t.length ∧
      (tabPairsC S (chInsertAll S B red hash t pairs)).Perm
        (pairs ++ tabPairsC S t) := by
  induction pairs with
  | nil =>
    intro t hred hD hwf _ _ _
    rw [chInsertAll]
    exact ⟨hwf, rfl, by simp⟩
  | cons kv ps ih =>
    intro t hred hD hwf hnd hkS hdisj
    obtain ⟨k, v⟩ := kv
    rw [chInsertAll]
    obtain ⟨hb, hwf2, hlen2, hperm2⟩ := chInsert_ok (B := B) hred hD hwf
      (hkS (k, v) (by simp)) (hdisj (k, v) (by simp))
    have hnd2 : (ps.map Prod.fst).Nodup := by
      rw [List.map_cons] at hnd
      exact hnd.of_cons
    have hkS2 : ∀ p ∈ ps, p.1 ≠ S := fun p hp => hkS p (by simp [hp])
    have hdisj2 : ∀ p ∈ ps, p.1 ∉ keysC S (chInsert S B red hash t k v).1 := by
      intro p hp hmemk
      rw [keysC] at hmemk
      have hmem2 := (hperm2.map Prod.fst).mem_iff.mp hmemk
      rw [List.map_cons] at hmem2
      rcases List.mem_cons.mp hmem2 with h | h
      · rw [List.map_cons] at hnd
        exact (List.nodup_cons.mp hnd).1 (h ▸ List.mem_map_of_mem Prod.fst hp)
      · exact hdisj p (by simp [hp]) (by rw [keysC]; exact h)
    obtain ⟨hwf3, hlen3, hperm3⟩ := ih hred (by rw [hlen2, hD]) hwf2 hnd2 hkS2 hdisj2
    refine ⟨hwf3, by rw [hlen3, hlen2], ?_⟩
    refine hperm3.trans ((hperm2.append_left ps).trans ?_)
    rw [List.cons_append]
    exact List.perm_middle

/-- Chained round trip: freshly inserted distinct non-sentinel keys are all
found with their payloads, and absent keys miss. -/
theorem roundtripC [Inhabited V] {D B : Nat} {pairs : List (Nat × V)}
    (hred : ∀ x, red x < D)
    (hnd : (pairs.map Prod.fst).Nodup) (hkS : ∀ p ∈ pairs, p.1 ≠ S) :
    (∀ p ∈ pairs, chLookup S red hash
      (chInsertAll S B red hash (emptyTabC (V := V) S D) pairs) p.1 = some p.2) ∧
    (∀ k, k ≠ S → k ∉ pairs.map Prod.fst →
      chLookup S red hash
        (chInsertAll S B red hash (emptyTabC (V := V) S D) pairs) k = none) := by
  have hD0 : (emptyTabC (V := V) S D).length = D := by simp [emptyTabC]
  obtain ⟨hwf2, hlen2, hperm2⟩ := chInsertAll_ok hred hD0 CWf_emptyTabC hnd hkS
    (by intro p hp; rw [keysC, tabPairsC_emptyTabC]; simp)
  rw [tabPairsC_emptyTabC, List.append_nil] at hperm2
  have hlen : (chInsertAll S B red hash (emptyTabC (V := V) S D) pairs).length = D := by
    rw [hlen2, hD0]
  constructor
  · intro p hp
    exact chLookup_hit hred hlen hwf2 (hperm2.mem_iff.mpr hp)
  · intro k hk hnotin
    refine chLookup_miss hred hlen hwf2 hk ?_
    intro hmem
    rw [keysC] at hmem
    exact hnotin ((hperm2.map Prod.fst).mem_iff.mp hmem)

end ChainedRoundTrip


/-! ### Cuckoo hashing (`cuckoo.hpp`)

A bucket is a list of `B` slots (`std::array<Slot, BucketSize>`); the table
is the bucket vector. Slots reuse `PSlot` (key and payload, key initialised
to the sentinel). The `mt19937` draws of the kicking policies are modelled
by a stream of naturals consumed exactly where the code calls `rand_()`. -/

section CuckooDefs

variable {V : Type}

/-- Result of one kicking-policy call: the two rewritten buckets and the
evicted pair, if any (`std::optional<std::pair<Key, Payload>>`). -/
structure KickRes (V : Type) where
  b1 : List (PSlot V)
  b2 : List (PSlot V)
  kicked : Option (Nat × V)

/-- Occupied-slot count of a bucket (lines 43-47 and 91-95): the number of
slots whose key differs from the sentinel. -/
def countOcc (S : Nat) (b : List (PSlot V)) : Nat :=
  (b.filter (fun s => s.key != S)).length

/-- `BalancedKicking::operator()` (lines 40-66). The random word is drawn
from the head of `rng` only on the both-full path (line 59). -/
def balancedKick [Inhabited V] (S B : Nat) (b1 b2 : List (PSlot V)) (k : Nat) (v : V)
    (rng : List Nat) : KickRes V × List Nat :=
  let c1 := countOcc S b1
  let c2 := countOcc S b2
  if c1 ≤ c2 ∧ c1 < B then
    ({ b1 := b1.set c1 ⟨k, v⟩, b2 := b2, kicked := none }, rng)
  else if c2 < B then
    ({ b1 := b1, b2 := b2.set c2 ⟨k, v⟩, kicked := none }, rng)
  else
    let r := rng.headD 0
    let vi := r % B
    if r % 2 = 1 then
      ({ b1 := b1.set vi ⟨k, v⟩, b2 := b2,
         kicked := some ((b1.getD vi ⟨S, default⟩).key, (b1.getD vi ⟨S, default⟩).payload) },
       rng.tail)
    else
      ({ b1 := b1, b2 := b2.set vi ⟨k, v⟩,
         kicked := some ((b2.getD vi ⟨S, default⟩).key, (b2.getD vi ⟨S, default⟩).payload) },
       rng.tail)

/-- `BiasedKicking<Bias>::operator()` (lines 88-114); `thr` is the value of
the `threshold_` member (`0` for `UnbiasedKicking = BiasedKicking<0>`). -/
def biasedKick [Inhabited V] (S B thr : Nat) (b1 b2 : List (PSlot V)) (k : Nat) (v : V)
    (rng : List Nat) : KickRes V × List Nat :=
  let c1 := countOcc S b1
  let c2 := countOcc S b2
  if c1 < B then
    ({ b1 := b1.set c1 ⟨k, v⟩, b2 := b2, kicked := none }, rng)
  else if c2 < B then
    ({ b1 := b1, b2 := b2.set c2 ⟨k, v⟩, kicked := none }, rng)
  else
    let r := rng.headD 0
    let vi := r % B
    if thr < r then
      ({ b1 := b1.set vi ⟨k, v⟩, b2 := b2,
         kicked := some ((b1.getD vi ⟨S, default⟩).key, (b1.getD vi ⟨S, default⟩).payload) },
       rng.tail)
    else
      ({ b1 := b1, b2 := b2.set vi ⟨k, v⟩,
         kicked := some ((b2.getD vi ⟨S, default⟩).key, (b2.getD vi ⟨S, default⟩).payload) },
       rng.tail)

/-- The nudged second candidate index (lines 177-180 and 273-275):
`i2` is moved to `(i1 + 1) mod D` when it coincides with `i1`. -/
def nudge2 (D i1 i2 : Nat) : Nat :=
  if i2 = i1 then (if i1 = D - 1 then 0 else i1 + 1) else i2

/-- One full-bucket scan of `Cuckoo::lookup` (lines 170-175): the payload of
the first slot whose key equals `k`. There is no sentinel guard. -/
def cuckooScan (k : Nat) : List (PSlot V) → Option V
  | [] => none
  | s :: ss => if s.key = k then some s.payload else cuckooScan k ss

/-- `Cuckoo::lookup` (lines 165-191). -/
def cuckooLookup (red1 hash1 red2 hash2 : Nat → Nat)
    (t : List (List (PSlot V))) (k : Nat) : Option V :=
  match cuckooScan k (t.getD (red1 (hash1 k)) []) with
  | some v => some v
  | none =>
    cuckooScan k (t.getD (nudge2 t.length (red1 (hash1 k)) (red2 (hash2 k))) [])

/-- The interleaved update scan of `Cuckoo::insert` (lines 288-301): at each
`i` from `0`, check `b1.slots[i].key == key` then `b2.slots[i].key == key`;
report the first matching bucket and slot index. -/
def updFind [Inhabited V] (S k : Nat) (b1 b2 : List (PSlot V)) :
    Nat → Nat → Option (Bool × Nat)
  | _, 0 => none
  | i, rem + 1 =>
    if (b1.getD i ⟨S, default⟩).key = k then some (true, i)
    else if (b2.getD i ⟨S, default⟩).key = k then some (false, i)
    else updFind S k b1 b2 (i + 1) rem

/-- The lower of the two (nudged) candidate indices: `Cuckoo::insert`
normalises `i1 < i2` before locking (lines 276-279). -/
def candFst (red1 hash1 red2 hash2 : Nat → Nat) (D k : Nat) : Nat :=
  if nudge2 D (red1 (hash1 k)) (red2 (hash2 k)) < red1 (hash1 k) then
    nudge2 D (red1 (hash1 k)) (red2 (hash2 k))
  else red1 (hash1 k)

/-- The higher of the two (nudged) candidate indices (lines 276-279). -/
def candSnd (red1 hash1 red2 hash2 : Nat → Nat) (D k : Nat) : Nat :=
  if nudge2 D (red1 (hash1 k)) (red2 (hash2 k)) < red1 (hash1 k) then
    red1 (hash1 k)
  else nudge2 D (red1 (hash1 k)) (red2 (hash2 k))

/-- The fatal error of `Cuckoo::insert`: the kick-cycle length bound was
exceeded (`std::runtime_error`, lines 262-265). `fuelOut` is a model
artefact and is unreachable from the canonical fuel. -/
inductive CuckErr where
  | kickCycle
  | fuelOut
deriving Repr, DecidableEq

/-- The private `Cuckoo::insert(key, payload, kick_count)` loop
(lines 260-316): candidate indices with the nudge (273-275) and the
order-normalising swap (277-279), the in-place update scan (288-301), then
the kicking policy; an evicted pair restarts the loop with `kick_count + 1`.
`fuel` only bounds the recursion; `maxKick + 2` suffices from `kc = 0`. -/
def cuckooInsertGo [Inhabited V] (S maxKick B : Nat) (red1 hash1 red2 hash2 : Nat → Nat)
    (kick : List (PSlot V) → List (PSlot V) → Nat → V → List Nat →
      KickRes V × List Nat) :
    Nat → List (List (PSlot V)) → List Nat → Nat → V → Nat →
    Except CuckErr (List (List (PSlot V)) × List Nat)
  | 0, _, _, _, _, _ => .error .fuelOut
  | fuel + 1, t, rng, k, v, kc =>
    if maxKick < kc then .error .kickCycle
    else
      match updFind S k (t.getD (candFst red1 hash1 red2 hash2 t.length k) [])
          (t.getD (candSnd red1 hash1 red2 hash2 t.length k) []) 0 B with
      | some (true, i) =>
        .ok (t.set (candFst red1 hash1 red2 hash2 t.length k)
          ((t.getD (candFst red1 hash1 red2 hash2 t.length k) []).set i
            { (t.getD (candFst red1 hash1 red2 hash2 t.length k) []).getD i
                ⟨S, default⟩ with payload := v }), rng)
      | some (false, i) =>
        .ok (t.set (candSnd red1 hash1 red2 hash2 t.length k)
          ((t.getD (candSnd red1 hash1 red2 hash2 t.length k) []).set i
            { (t.getD (candSnd red1 hash1 red2 hash2 t.length k) []).getD i
                ⟨S, default⟩ with payload := v }), rng)
      | none =>
        match kick (t.getD (candFst red1 hash1 red2 hash2 t.length k) [])
            (t.getD (candSnd red1 hash1 red2 hash2 t.length k) []) k v rng with
        | (res, rng2) =>
          match res.kicked with
          | none =>
            .ok ((t.set (candFst red1 hash1 red2 hash2 t.length k) res.b1).set
              (candSnd red1 hash1 red2 hash2 t.length k) res.b2, rng2)
          | some (k2, v2) =>
            cuckooInsertGo S maxKick B red1 hash1 red2 hash2 kick fuel
              ((t.set (candFst red1 hash1 red2 hash2 t.length k) res.b1).set
                (candSnd red1 hash1 red2 hash2 t.length k) res.b2) rng2 k2 v2 (kc + 1)

/-- `MaxKickCycleLength` (line 159). -/
def MaxKickCycleLength : Nat := 50000

/-- The public `Cuckoo::insert(key, value)` (lines 212-214): the loop started
at `kick_count = 0`, with its canonical fuel. -/
def cuckooInsert [Inhabited V] (S maxKick B : Nat) (red1 hash1 red2 hash2 : Nat → Nat)
    (kick : List (PSlot V) → List (PSlot V) → Nat → V → List Nat →
      KickRes V × List Nat)
    (t : List (List (PSlot V))) (rng : List Nat) (k : Nat) (v : V) :
    Except CuckErr (List (List (PSlot V)) × List Nat) :=
  cuckooInsertGo S maxKick B red1 hash1 red2 hash2 kick (maxKick + 2) t rng k v 0

/-- Sequential insertion of a pair list into a cuckoo table. -/
def cuckooInsertAll [Inhabited V] (S maxKick B : Nat) (red1 hash1 red2 hash2 : Nat → Nat)
    (kick : List (PSlot V) → List (PSlot V) → Nat → V → List Nat →
      KickRes V × List Nat) :
    List (List (PSlot V)) → List Nat → List (Nat × V) →
    Except CuckErr (List (List (PSlot V)) × List Nat)
  | t, rng, [] => .ok (t, rng)
  | t, rng, (k, v) :: ps =>
    match cuckooInsert S maxKick B red1 hash1 red2 hash2 kick t rng k v with
    | .error e => .error e
    | .ok (t2, rng2) => cuckooInsertAll S maxKick B red1 hash1 red2 hash2 kick t2 rng2 ps

end CuckooDefs


/-! ### Cuckoo bucket operations -/

section CuckooBucketOps

variable {V : Type} {S : Nat}

theorem set_append_cons {α : Type} (A : List α) (x : α) (C : List α) (y : α) :
    (A ++ x :: C).set A.length y = A ++ y :: C := by
  induction A with
  | nil => rfl
  | cons a as ih =>
    show a :: ((as ++ x :: C).set as.length y) = a :: (as ++ y :: C)
    rw [ih]

theorem countOcc_le_length (b : List (PSlot V)) : countOcc S b ≤ b.length :=
  List.length_filter_le _ b

theorem countOcc_split {bo be : List (PSlot V)} (ho : ∀ s ∈ bo, s.key ≠ S)
    (he : ∀ s ∈ be, s.key = S) : countOcc S (bo ++ be) = bo.length := by
  rw [countOcc, List.filter_append,
    List.filter_eq_self.mpr (fun s hs => by simpa using ho s hs),
    List.filter_eq_nil_iff.mpr (fun s hs => by simpa using he s hs)]
  simp

theorem countOcc_full {b : List (PSlot V)} (h : countOcc S b = b.length) :
    ∀ s ∈ b, s.key ≠ S := by
  intro s hs
  have hsub : (b.filter (fun s => s.key != S)).Sublist b := List.filter_sublist b
  have heq : b.filter (fun s => s.key != S) = b := hsub.eq_of_length h
  simpa using List.filter_eq_self.mp heq s hs

theorem pairsOf_sentinel {l : List (PSlot V)} (h : ∀ s ∈ l, s.key = S) :
    pairsOf S PSlot.key PSlot.payload l = [] := by
  rw [pairsOf, List.filter_eq_nil_iff.mpr (fun s hs => by simpa using h s hs)]
  rfl

/-- Appending the new entry at the occupied-count index of a compact,
non-full bucket (`b->slots[c] = {key, payload}`). -/
theorem bucket_place {B : Nat} {b : List (PSlot V)} (hlen : b.length = B)
    (hcpt : isCompact S PSlot.key b) (hc : countOcc S b < B) {k : Nat} (v : V)
    (hkS : k ≠ S) :
    (b.set (countOcc S b) ⟨k, v⟩).length = B ∧
    isCompact S PSlot.key (b.set (countOcc S b) ⟨k, v⟩) ∧
    (pairsOf S PSlot.key PSlot.payload (b.set (countOcc S b) ⟨k, v⟩)).Perm
      ((k, v) :: pairsOf S PSlot.key PSlot.payload b) := by
  obtain ⟨bo, be, hsplit, ho, he⟩ := hcpt
  subst hsplit
  have hco : countOcc S (bo ++ be) = bo.length := countOcc_split ho he
  have hbe : be ≠ [] := by
    intro hnil
    rw [hnil, List.append_nil] at hlen hco hc
    omega
  obtain ⟨e, be2, rfl⟩ := List.exists_cons_of_ne_nil hbe
  rw [hco, set_append_cons]
  refine ⟨by simpa using hlen, ⟨bo ++ [⟨k, v⟩], be2, by simp, ?_, ?_⟩, ?_⟩
  · intro s hs
    rcases List.mem_append.mp hs with h | h
    · exact ho s h
    · rw [List.mem_singleton.mp h]
      exact hkS
  · intro s hs
    exact he s (by simp [hs])
  · have he2 : pairsOf S PSlot.key PSlot.payload be2 = [] :=
      pairsOf_sentinel (fun s hs => he s (by simp [hs]))
    rw [pairsOf_append, pairsOf_append, pairsOf_cons_occ hkS,
      pairsOf_cons_sent (he e (by simp)), he2, List.append_nil]
    exact List.perm_append_singleton _ _

/-- Swapping the victim at `vi` out of a full bucket
(`victim_bucket->slots[victim_index] = {key, payload}`). -/
theorem bucket_evict [Inhabited V] {B : Nat} {b : List (PSlot V)} (hlen : b.length = B)
    (hfull : countOcc S b = B) {vi : Nat} (hvi : vi < B) {k : Nat} (v : V)
    (hkS : k ≠ S) :
    (b.set vi ⟨k, v⟩).length = B ∧
    isCompact S PSlot.key (b.set vi ⟨k, v⟩) ∧
    (b.getD vi ⟨S, default⟩).key ≠ S ∧
    (((b.getD vi ⟨S, default⟩).key, (b.getD vi ⟨S, default⟩).payload) ::
        pairsOf S PSlot.key PSlot.payload (b.set vi ⟨k, v⟩)).Perm
      ((k, v) :: pairsOf S PSlot.key PSlot.payload b) := by
  have hocc : ∀ s ∈ b, s.key ≠ S := countOcc_full (by rw [hfull, hlen])
  have hvib : vi < b.length := by rw [hlen]; exact hvi
  have hgd : b.getD vi ⟨S, default⟩ = b[vi] := getD_lt _ _ _ hvib
  have hdec := decomp_at b vi ⟨S, default⟩ hvib
  rw [hgd] at hdec
  have hset : b.set vi ⟨k, v⟩ = b.take vi ++ ⟨k, v⟩ :: b.drop (vi + 1) :=
    set_decomp b vi _ hvib
  refine ⟨by simpa using hlen, ?_, ?_, ?_⟩
  · refine ⟨b.set vi ⟨k, v⟩, [], by simp, ?_, by simp⟩
    intro s hs
    rcases mem_set_elim hs with h | h
    · rw [h]
      exact hkS
    · exact hocc s h
  · rw [hgd]
    exact hocc _ (List.getElem_mem hvib)
  · rw [hgd, hset]
    conv_rhs => rw [hdec]
    rw [pairsOf_append, pairsOf_append,
      pairsOf_cons_occ (show PSlot.key ⟨k, v⟩ ≠ S from hkS),
      pairsOf_cons_occ (hocc _ (List.getElem_mem hvib))]
    refine List.Perm.trans (List.Perm.cons _ List.perm_middle) ?_
    refine List.Perm.trans (List.Perm.swap _ _ _) ?_
    exact List.Perm.cons _ List.perm_middle.symm

end CuckooBucketOps


/-! ### Kicking-policy contracts -/

section CuckooPolicy

variable {V : Type} {S : Nat}

/-- Weak policy contract: every slot of a rewritten bucket is either the
newly written entry or a slot of the old bucket. -/
def PolicyMem [Inhabited V]
    (kick : List (PSlot V) → List (PSlot V) → Nat → V → List Nat →
      KickRes V × List Nat) : Prop :=
  ∀ (b1 b2 : List (PSlot V)) (k : Nat) (v : V) (rng : List Nat),
    (∀ s ∈ (kick b1 b2 k v rng).1.b1, s = ⟨k, v⟩ ∨ s ∈ b1) ∧
    (∀ s ∈ (kick b1 b2 k v rng).1.b2, s = ⟨k, v⟩ ∨ s ∈ b2)

/-- Strong policy contract on compact buckets of size `B`: bucket shape is
preserved and the multiset of stored pairs changes by adding `(k, v)` and
removing exactly the evicted pair, if any. -/
def PolicyOk [Inhabited V] (S B : Nat)
    (kick : List (PSlot V) → List (PSlot V) → Nat → V → List Nat →
      KickRes V × List Nat) : Prop :=
  ∀ (b1 b2 : List (PSlot V)) (k : Nat) (v : V) (rng : List Nat),
    b1.length = B → b2.length = B →
    isCompact S PSlot.key b1 → isCompact S PSlot.key b2 → k ≠ S →
    ((kick b1 b2 k v rng).1.b1.length = B ∧
     (kick b1 b2 k v rng).1.b2.length = B ∧
     isCompact S PSlot.key (kick b1 b2 k v rng).1.b1 ∧
     isCompact S PSlot.key (kick b1 b2 k v rng).1.b2 ∧
     match (kick b1 b2 k v rng).1.kicked with
     | none =>
       (pairsOf S PSlot.key PSlot.payload (kick b1 b2 k v rng).1.b1 ++
         pairsOf S PSlot.key PSlot.payload (kick b1 b2 k v rng).1.b2).Perm
         ((k, v) :: (pairsOf S PSlot.key PSlot.payload b1 ++
           pairsOf S PSlot.key PSlot.payload b2))
     | some kv =>
       kv.1 ≠ S ∧
       (kv :: (pairsOf S PSlot.key PSlot.payload (kick b1 b2 k v rng).1.b1 ++
         pairsOf S PSlot.key PSlot.payload (kick b1 b2 k v rng).1.b2)).Perm
         ((k, v) :: (pairsOf S PSlot.key PSlot.payload b1 ++
           pairsOf S PSlot.key PSlot.payload b2)))

theorem balancedKick_mem [Inhabited V] {B : Nat} :
    PolicyMem (V := V) (balancedKick S B) := by
  intro b1 b2 k v rng
  rw [balancedKick]
  by_cases h1 : countOcc S b1 ≤ countOcc S b2 ∧ countOcc S b1 < B
  · rw [if_pos h1]
    exact ⟨fun s hs => mem_set_elim hs, fun s hs => Or.inr hs⟩
  · rw [if_neg h1]
    by_cases h2 : countOcc S b2 < B
    · rw [if_pos h2]
      exact ⟨fun s hs => Or.inr hs, fun s hs => mem_set_elim hs⟩
    · rw [if_neg h2]
      by_cases h3 : rng.headD 0 % 2 = 1
      · rw [if_pos h3]
        exact ⟨fun s hs => mem_set_elim hs, fun s hs => Or.inr hs⟩
      · rw [if_neg h3]
        exact ⟨fun s hs => Or.inr hs, fun s hs => mem_set_elim hs⟩

theorem biasedKick_mem [Inhabited V] {B thr : Nat} :
    PolicyMem (V := V) (biasedKick S B thr) := by
  intro b1 b2 k v rng
  rw [biasedKick]
  by_cases h1 : countOcc S b1 < B
  · rw [if_pos h1]
    exact ⟨fun s hs => mem_set_elim hs, fun s hs => Or.inr hs⟩
  · rw [if_neg h1]
    by_cases h2 : countOcc S b2 < B
    · rw [if_pos h2]
      exact ⟨fun s hs => Or.inr hs, fun s hs => mem_set_elim hs⟩
    · rw [if_neg h2]
      by_cases h3 : thr < rng.headD 0
      · rw [if_pos h3]
        exact ⟨fun s hs => mem_set_elim hs, fun s hs => Or.inr hs⟩
      · rw [if_neg h3]
        exact ⟨fun s hs => Or.inr hs, fun s hs => mem_set_elim hs⟩

theorem balancedKick_ok [Inhabited V] {B : Nat} (hB : 0 < B) :
    PolicyOk (V := V) S B (balancedKick S B) := by
  intro b1 b2 k v rng hl1 hl2 hc1 hc2 hkS
  rw [balancedKick]
  by_cases h1 : countOcc S b1 ≤ countOcc S b2 ∧ countOcc S b1 < B
  · rw [if_pos h1]
    obtain ⟨hlen, hcpt, hperm⟩ := bucket_place hl1 hc1 h1.2 v hkS
    exact ⟨hlen, hl2, hcpt, hc2, hperm.append_right _⟩
  · rw [if_neg h1]
    by_cases h2 : countOcc S b2 < B
    · rw [if_pos h2]
      obtain ⟨hlen, hcpt, hperm⟩ := bucket_place hl2 hc2 h2 v hkS
      exact ⟨hl1, hlen, hc1, hcpt,
        (hperm.append_left _).trans List.perm_middle⟩
    · rw [if_neg h2]
      have hf1 : countOcc S b1 = B := by
        have := countOcc_le_length (S := S) b1
        have := countOcc_le_length (S := S) b2
        omega
      have hf2 : countOcc S b2 = B := by
        have := countOcc_le_length (S := S) b2
        omega
      have hvi : rng.headD 0 % B < B := Nat.mod_lt _ hB
      by_cases h3 : rng.headD 0 % 2 = 1
      · rw [if_pos h3]
        obtain ⟨hlen, hcpt, hvk, hperm⟩ := bucket_evict hl1 hf1 hvi v hkS
        exact ⟨hlen, hl2, hcpt, hc2, hvk, hperm.append_right _⟩
      · rw [if_neg h3]
        obtain ⟨hlen, hcpt, hvk, hperm⟩ := bucket_evict hl2 hf2 hvi v hkS
        exact ⟨hl1, hlen, hc1, hcpt, hvk,
          (List.perm_middle.symm.trans (hperm.append_left _)).trans
            List.perm_middle⟩

theorem biasedKick_ok [Inhabited V] {B thr : Nat} (hB : 0 < B) :
    PolicyOk (V := V) S B (biasedKick S B thr) := by
  intro b1 b2 k v rng hl1 hl2 hc1 hc2 hkS
  rw [biasedKick]
  by_cases h1 : countOcc S b1 < B
  · rw [if_pos h1]
    obtain ⟨hlen, hcpt, hperm⟩ := bucket_place hl1 hc1 h1 v hkS
    exact ⟨hlen, hl2, hcpt, hc2, hperm.append_right _⟩
  · rw [if_neg h1]
    by_cases h2 : countOcc S b2 < B
    · rw [if_pos h2]
      obtain ⟨hlen, hcpt, hperm⟩ := bucket_place hl2 hc2 h2 v hkS
      exact ⟨hl1, hlen, hc1, hcpt,
        (hperm.append_left _).trans List.perm_middle⟩
    · rw [if_neg h2]
      have hf1 : countOcc S b1 = B := by
        have := countOcc_le_length (S := S) b1
        omega
      have hf2 : countOcc S b2 = B := by
        have := countOcc_le_length (S := S) b2
        omega
      have hvi : rng.headD 0 % B < B := Nat.mod_lt _ hB
      by_cases h3 : thr < rng.headD 0
      · rw [if_pos h3]
        obtain ⟨hlen, hcpt, hvk, hperm⟩ := bucket_evict hl1 hf1 hvi v hkS
        exact ⟨hlen, hl2, hcpt, hc2, hvk, hperm.append_right _⟩
      · rw [if_neg h3]
        obtain ⟨hlen, hcpt, hvk, hperm⟩ := bucket_evict hl2 hf2 hvi v hkS
        exact ⟨hl1, hlen, hc1, hcpt, hvk,
          (List.perm_middle.symm.trans (hperm.append_left _)).trans
            List.perm_middle⟩

end CuckooPolicy


/-! ### Cuckoo index and scan helpers -/

section CuckooHelpers

variable {V : Type} {S : Nat}

theorem nudge2_ne {D i1 i2 : Nat} (hD : 2 ≤ D) (hi1 : i1 < D) :
    nudge2 D i1 i2 ≠ i1 := by
  rw [nudge2]
  by_cases h : i2 = i1
  · rw [if_pos h]
    by_cases h2 : i1 = D - 1
    · rw [if_pos h2]
      omega
    · rw [if_neg h2]
      omega
  · rw [if_neg h]
    exact h

theorem nudge2_lt {D i1 i2 : Nat} (hi1 : i1 < D) (hi2 : i2 < D) :
    nudge2 D i1 i2 < D := by
  rw [nudge2]
  by_cases h : i2 = i1
  · rw [if_pos h]
    by_cases h2 : i1 = D - 1
    · rw [if_pos h2]
      omega
    · rw [if_neg h2]
      omega
  · rw [if_neg h]
    exact hi2

/-- The normalised pair `{candFst, candSnd}` is exactly the candidate pair
`{i1, nudge2 i1 i2}`. -/
theorem cand_cases (red1 hash1 red2 hash2 : Nat → Nat) (D k : Nat) :
    (candFst red1 hash1 red2 hash2 D k = red1 (hash1 k) ∧
      candSnd red1 hash1 red2 hash2 D k =
        nudge2 D (red1 (hash1 k)) (red2 (hash2 k))) ∨
    (candFst red1 hash1 red2 hash2 D k =
        nudge2 D (red1 (hash1 k)) (red2 (hash2 k)) ∧
      candSnd red1 hash1 red2 hash2 D k = red1 (hash1 k)) := by
  rw [candFst, candSnd]
  by_cases h : nudge2 D (red1 (hash1 k)) (red2 (hash2 k)) < red1 (hash1 k)
  · rw [if_pos h, if_pos h]
    exact Or.inr ⟨rfl, rfl⟩
  · rw [if_neg h, if_neg h]
    exact Or.inl ⟨rfl, rfl⟩

theorem candFst_lt {red1 hash1 red2 hash2 : Nat → Nat} {D k : Nat}
    (hr1 : ∀ x, red1 x < D) (hr2 : ∀ x, red2 x < D) :
    candFst red1 hash1 red2 hash2 D k < D := by
  rcases cand_cases red1 hash1 red2 hash2 D k with ⟨h, -⟩ | ⟨h, -⟩
  · rw [h]
    exact hr1 _
  · rw [h]
    exact nudge2_lt (hr1 _) (hr2 _)

theorem candSnd_lt {red1 hash1 red2 hash2 : Nat → Nat} {D k : Nat}
    (hr1 : ∀ x, red1 x < D) (hr2 : ∀ x, red2 x < D) :
    candSnd red1 hash1 red2 hash2 D k < D := by
  rcases cand_cases red1 hash1 red2 hash2 D k with ⟨-, h⟩ | ⟨-, h⟩
  · rw [h]
    exact nudge2_lt (hr1 _) (hr2 _)
  · rw [h]
    exact hr1 _

theorem candFst_ne_candSnd {red1 hash1 red2 hash2 : Nat → Nat} {D k : Nat}
    (hD : 2 ≤ D) (hr1 : ∀ x, red1 x < D) :
    candFst red1 hash1 red2 hash2 D k ≠ candSnd red1 hash1 red2 hash2 D k := by
  rcases cand_cases red1 hash1 red2 hash2 D k with ⟨h1, h2⟩ | ⟨h1, h2⟩
  · rw [h1, h2]
    exact fun h => nudge2_ne hD (hr1 _) h.symm
  · rw [h1, h2]
    exact nudge2_ne hD (hr1 _)

theorem updFind_none [Inhabited V] {k : Nat} {b1 b2 : List (PSlot V)} (hkS : k ≠ S)
    (h1 : ∀ s ∈ b1, s.key ≠ k) (h2 : ∀ s ∈ b2, s.key ≠ k) :
    ∀ i rem, updFind S k b1 b2 i rem = none := by
  intro i rem
  induction rem generalizing i with
  | zero => rfl
  | succ rem ih =>
    rw [updFind]
    have hg1 : (b1.getD i ⟨S, default⟩).key ≠ k := by
      rcases Nat.lt_or_ge i b1.length with hlt | hge
      · rw [getD_lt _ _ _ hlt]
        exact h1 _ (List.getElem_mem hlt)
      · rw [getD_ge _ _ _ hge]
        exact fun h => hkS h.symm
    have hg2 : (b2.getD i ⟨S, default⟩).key ≠ k := by
      rcases Nat.lt_or_ge i b2.length with hlt | hge
      · rw [getD_lt _ _ _ hlt]
        exact h2 _ (List.getElem_mem hlt)
      · rw [getD_ge _ _ _ hge]
        exact fun h => hkS h.symm
    rw [if_neg hg1, if_neg hg2]
    exact ih (i + 1)

theorem updFind_some_key [Inhabited V] {k : Nat} {b1 b2 : List (PSlot V)} :
    ∀ i rem {br : Bool} {j : Nat}, updFind S k b1 b2 i rem = some (br, j) →
      (br = true → (b1.getD j ⟨S, default⟩).key = k) ∧
      (br = false → (b2.getD j ⟨S, default⟩).key = k) := by
  intro i rem
  induction rem generalizing i with
  | zero => intro br j h; cases h
  | succ rem ih =>
    intro br j h
    rw [updFind] at h
    by_cases hg1 : (b1.getD i ⟨S, default⟩).key = k
    · rw [if_pos hg1] at h
      injection h with h
      injection h with h1 h2
      subst h1
      subst h2
      exact ⟨fun _ => hg1, fun hf => Bool.noConfusion hf⟩
    · rw [if_neg hg1] at h
      by_cases hg2 : (b2.getD i ⟨S, default⟩).key = k
      · rw [if_pos hg2] at h
        injection h with h
        injection h with h1 h2
        subst h1
        subst h2
        exact ⟨fun hf => Bool.noConfusion hf, fun _ => hg2⟩
      · rw [if_neg hg2] at h
        exact ih (i + 1) h

/-- Every non-sentinel slot of a table with `Nodup` occupied keys not
containing `k` has a key different from `k`. -/
theorem bucket_no_key {t : List (List (PSlot V))} {k i : Nat}
    (hi : i < t.length) (hkS : k ≠ S)
    (habs : k ∉ keysT S PSlot.key PSlot.payload t) :
    ∀ s ∈ t[i], s.key ≠ k := by
  intro s hs hsk
  refine habs ?_
  rw [keysT]
  exact mem_keys_iff.mpr ⟨s, mem_flatten_idx.mpr ⟨i, hi, hs⟩, hsk, hkS⟩

end CuckooHelpers

section TabPairsSet2

variable {V : Type} {σ : Type} {S : Nat} {kf : σ → Nat} {pf : σ → V}

/-- Rewriting two distinct buckets at once: pair accounting. -/
theorem tabPairs_set2 {t : List (List σ)} {i j : Nat} (hij : i ≠ j)
    (hi : i < t.length) (hj : j < t.length) (nb1 nb2 : List σ) :
    (tabPairs S kf pf ((t.set i nb1).set j nb2) ++
      (pairsOf S kf pf (t.getD i []) ++ pairsOf S kf pf (t.getD j []))).Perm
      ((pairsOf S kf pf nb1 ++ pairsOf S kf pf nb2) ++ tabPairs S kf pf t) := by
  have hj2 : j < (t.set i nb1).length := by simpa using hj
  obtain ⟨A, C, h1, h2⟩ := @tabPairs_set_decomp V σ S kf pf t i hi
  obtain ⟨A2, C2, h3, h4⟩ := @tabPairs_set_decomp V σ S kf pf (t.set i nb1) j hj2
  rw [getD_set_ne t i j nb1 [] hij] at h3
  have hE : A ++ pairsOf S kf pf nb1 ++ C =
      A2 ++ pairsOf S kf pf (t.getD j []) ++ C2 := (h2 nb1).symm.trans h3
  rw [h4 nb2, h1]
  have hco : ∀ l1 l2 : List (Nat × V),
      ((l1 ++ l2 : List (Nat × V)) : Multiset (Nat × V)) =
        (l1 : Multiset (Nat × V)) + (l2 : Multiset (Nat × V)) := fun _ _ => rfl
  rw [← Multiset.coe_eq_coe]
  simp only [hco]
  have hE2 := congrArg (fun l : List (Nat × V) => (l : Multiset (Nat × V))) hE
  simp only [hco] at hE2
  refine Eq.trans (b := (A2 : Multiset (Nat × V)) +
    ↑(pairsOf S kf pf (t.getD j [])) + ↑C2 +
    (↑(pairsOf S kf pf nb2) + ↑(pairsOf S kf pf (t.getD i [])))) (by abel) ?_
  rw [← hE2]
  abel

end TabPairsSet2


/-! ### Cuckoo locality invariant (claim C9) -/

section CuckooLocal

variable {V : Type} {S : Nat}

/-- Every occupied slot of the table lies in one of the candidate buckets of
its key: `i1 = reduce1(hash1 K)` or the nudged `i2`, exactly the two indices
`Cuckoo::lookup` scans. -/
def CuckLocal (S D : Nat) (red1 hash1 red2 hash2 : Nat → Nat)
    (t : List (List (PSlot V))) : Prop :=
  ∀ i (hi : i < t.length), ∀ s ∈ t[i], s.key ≠ S →
    i = red1 (hash1 s.key) ∨
    i = nudge2 D (red1 (hash1 s.key)) (red2 (hash2 s.key))

/-- Writing a bucket whose new slots either carry the inserted key or come
from the overwritten bucket preserves locality, provided the write happens
at a candidate index of the inserted key. -/
theorem cuckLocal_write {D : Nat} {red1 hash1 red2 hash2 : Nat → Nat}
    {t : List (List (PSlot V))}
    (hloc : CuckLocal S D red1 hash1 red2 hash2 t)
    {k : Nat} {a : Nat} {nb : List (PSlot V)}
    (ha : a = red1 (hash1 k) ∨ a = nudge2 D (red1 (hash1 k)) (red2 (hash2 k)))
    (hm : ∀ s ∈ nb, s.key = k ∨ s ∈ t.getD a []) :
    CuckLocal S D red1 hash1 red2 hash2 (t.set a nb) := by
  intro i hi s hs hocc
  have hilen : i < t.length := by simpa using hi
  by_cases hia : i = a
  · subst hia
    rw [List.getElem_set_self] at hs
    rcases hm s hs with hk | hold
    · rw [hk]
      exact ha
    · rw [getD_lt _ _ _ hilen] at hold
      exact hloc i hilen s hold hocc
  · rw [List.getElem_set_ne (fun h => hia h.symm)] at hs
    exact hloc i hilen s hs hocc

/-- The insert loop preserves locality: every write of `Cuckoo::insert`
either updates a payload in place or places the carried entry in one of its
candidate buckets. -/
theorem cuckooInsertGo_local [Inhabited V] {maxKick B D : Nat}
    {red1 hash1 red2 hash2 : Nat → Nat}
    {kick : List (PSlot V) → List (PSlot V) → Nat → V → List Nat →
      KickRes V × List Nat}
    (hmem : PolicyMem kick) (hD2 : 2 ≤ D)
    (hr1 : ∀ x, red1 x < D) (hr2 : ∀ x, red2 x < D) :
    ∀ fuel (t : List (List (PSlot V))) rng k v kc t2 rng2,
      t.length = D →
      CuckLocal S D red1 hash1 red2 hash2 t →
      cuckooInsertGo S maxKick B red1 hash1 red2 hash2 kick fuel t rng k v kc =
        .ok (t2, rng2) →
      t2.length = D ∧ CuckLocal S D red1 hash1 red2 hash2 t2 := by
  intro fuel
  induction fuel with
  | zero =>
    intro t rng k v kc t2 rng2 hD hloc h
    cases h
  | succ fuel ih =>
    intro t rng k v kc t2 rng2 hD hloc h
    rw [cuckooInsertGo] at h
    by_cases hkc : maxKick < kc
    · rw [if_pos hkc] at h
      cases h
    · rw [if_neg hkc] at h
      have hcand := cand_cases red1 hash1 red2 hash2 D k
      have haD : candFst red1 hash1 red2 hash2 D k < D := candFst_lt hr1 hr2
      have hbD : candSnd red1 hash1 red2 hash2 D k < D := candSnd_lt hr1 hr2
      have hane : candFst red1 hash1 red2 hash2 D k ≠
          candSnd red1 hash1 red2 hash2 D k := candFst_ne_candSnd hD2 hr1
      rw [hD] at h
      have hafst : candFst red1 hash1 red2 hash2 D k = red1 (hash1 k) ∨
          candFst red1 hash1 red2 hash2 D k =
            nudge2 D (red1 (hash1 k)) (red2 (hash2 k)) := by
        rcases hcand with ⟨h1, -⟩ | ⟨h1, -⟩
        · exact Or.inl h1
        · exact Or.inr h1
      have hasnd : candSnd red1 hash1 red2 hash2 D k = red1 (hash1 k) ∨
          candSnd red1 hash1 red2 hash2 D k =
            nudge2 D (red1 (hash1 k)) (red2 (hash2 k)) := by
        rcases hcand with ⟨-, h1⟩ | ⟨-, h1⟩
        · exact Or.inr h1
        · exact Or.inl h1
      cases hupd : updFind S k (t.getD (candFst red1 hash1 red2 hash2 D k) [])
          (t.getD (candSnd red1 hash1 red2 hash2 D k) []) 0 B with
      | some bi =>
        rw [hupd] at h
        obtain ⟨br, i⟩ := bi
        obtain ⟨hk1, hk2⟩ := updFind_some_key 0 B hupd
        cases br with
        | true =>
          injection h with h
          injection h with h1 h2
          subst h1
          refine ⟨by simpa using hD, ?_⟩
          refine cuckLocal_write hloc hafst ?_
          intro s hs
          rcases mem_set_elim hs with hsm | hsm
          · rw [hsm]
            exact Or.inl (hk1 rfl)
          · exact Or.inr hsm
        | false =>
          injection h with h
          injection h with h1 h2
          subst h1
          refine ⟨by simpa using hD, ?_⟩
          refine cuckLocal_write hloc hasnd ?_
          intro s hs
          rcases mem_set_elim hs with hsm | hsm
          · rw [hsm]
            exact Or.inl (hk2 rfl)
          · exact Or.inr hsm
      | none =>
        rw [hupd] at h
        rcases hkk : kick (t.getD (candFst red1 hash1 red2 hash2 D k) [])
            (t.getD (candSnd red1 hash1 red2 hash2 D k) []) k v rng with ⟨res, rng3⟩
        rw [hkk] at h
        obtain ⟨hmb1, hmb2⟩ := hmem (t.getD (candFst red1 hash1 red2 hash2 D k) [])
          (t.getD (candSnd red1 hash1 red2 hash2 D k) []) k v rng
        rw [hkk] at hmb1 hmb2
        have hloc2 : CuckLocal S D red1 hash1 red2 hash2
            ((t.set (candFst red1 hash1 red2 hash2 D k) res.b1).set
              (candSnd red1 hash1 red2 hash2 D k) res.b2) := by
          refine cuckLocal_write (cuckLocal_write hloc hafst ?_) hasnd ?_
          · intro s hs
            rcases hmb1 s hs with hsm | hsm
            · rw [hsm]
              exact Or.inl rfl
            · exact Or.inr hsm
          · intro s hs
            rcases hmb2 s hs with hsm | hsm
            · rw [hsm]
              exact Or.inl rfl
            · rw [getD_set_ne t _ _ res.b1 [] hane]
              exact Or.inr hsm
        have hlen2 : ((t.set (candFst red1 hash1 red2 hash2 D k) res.b1).set
            (candSnd red1 hash1 red2 hash2 D k) res.b2).length = D := by
          simpa using hD
        have h2 : (match res.kicked with
            | none =>
              Except.ok (((t.set (candFst red1 hash1 red2 hash2 D k) res.b1).set
                (candSnd red1 hash1 red2 hash2 D k) res.b2), rng3)
            | some (k2, v2) =>
              cuckooInsertGo S maxKick B red1 hash1 red2 hash2 kick fuel
                ((t.set (candFst red1 hash1 red2 hash2 D k) res.b1).set
                  (candSnd red1 hash1 red2 hash2 D k) res.b2) rng3 k2 v2 (kc + 1)) =
            Except.ok (t2, rng2) := h
        cases hkd : res.kicked with
        | none =>
          rw [hkd] at h2
          injection h2 with h3
          injection h3 with h4 h5
          subst h4
          exact ⟨hlen2, hloc2⟩
        | some kv =>
          obtain ⟨k2, v2⟩ := kv
          rw [hkd] at h2
          exact ih _ _ _ _ _ _ _ hlen2 hloc2 h2

end CuckooLocal


/-! ### Cuckoo insert: full invariant preservation -/

section CuckooStrong

variable {V : Type} {S : Nat}

/-- The insert loop under the strong policy contract: on success the table
keeps its shape, stays compact, and its contents gain exactly the carried
pair. -/
theorem cuckooInsertGo_ok [Inhabited V] {maxKick B D : Nat}
    {red1 hash1 red2 hash2 : Nat → Nat}
    {kick : List (PSlot V) → List (PSlot V) → Nat → V → List Nat →
      KickRes V × List Nat}
    (hpol : PolicyOk S B kick) (hD2 : 2 ≤ D)
    (hr1 : ∀ x, red1 x < D) (hr2 : ∀ x, red2 x < D) :
    ∀ fuel (t : List (List (PSlot V))) rng k v kc t2 rng2,
      t.length = D →
      (∀ c ∈ t, c.length = B) →
      (∀ c ∈ t, isCompact S PSlot.key c) →
      k ≠ S →
      (((k, v) :: tabPairs S PSlot.key PSlot.payload t).map Prod.fst).Nodup →
      cuckooInsertGo S maxKick B red1 hash1 red2 hash2 kick fuel t rng k v kc =
        .ok (t2, rng2) →
      t2.length = D ∧ (∀ c ∈ t2, c.length = B) ∧
      (∀ c ∈ t2, isCompact S PSlot.key c) ∧
      (tabPairs S PSlot.key PSlot.payload t2).Perm
        ((k, v) :: tabPairs S PSlot.key PSlot.payload t) := by
  intro fuel
  induction fuel with
  | zero =>
    intro t rng k v kc t2 rng2 hD hblen hcpt hkS hnd h
    cases h
  | succ fuel ih =>
    intro t rng k v kc t2 rng2 hD hblen hcpt hkS hnd h
    rw [cuckooInsertGo] at h
    by_cases hkc : maxKick < kc
    · rw [if_pos hkc] at h
      cases h
    · rw [if_neg hkc] at h
      rw [hD] at h
      have haD : candFst red1 hash1 red2 hash2 D k < D := candFst_lt hr1 hr2
      have hbD : candSnd red1 hash1 red2 hash2 D k < D := candSnd_lt hr1 hr2
      have hane : candFst red1 hash1 red2 hash2 D k ≠
          candSnd red1 hash1 red2 hash2 D k := candFst_ne_candSnd hD2 hr1
      have haL : candFst red1 hash1 red2 hash2 D k < t.length := by
        rw [hD]
        exact haD
      have hbL : candSnd red1 hash1 red2 hash2 D k < t.length := by
        rw [hD]
        exact hbD
      have hga : t.getD (candFst red1 hash1 red2 hash2 D k) [] =
          t[candFst red1 hash1 red2 hash2 D k] := getD_lt _ _ _ haL
      have hgb : t.getD (candSnd red1 hash1 red2 hash2 D k) [] =
          t[candSnd red1 hash1 red2 hash2 D k] := getD_lt _ _ _ hbL
      have hknotin : k ∉ keysT S PSlot.key PSlot.payload t := by
        rw [keysT]
        rw [List.map_cons] at hnd
        exact (List.nodup_cons.mp hnd).1
      have hb1k : ∀ s ∈ t.getD (candFst red1 hash1 red2 hash2 D k) [],
          s.key ≠ k := by
        rw [hga]
        exact bucket_no_key haL hkS hknotin
      have hb2k : ∀ s ∈ t.getD (candSnd red1 hash1 red2 hash2 D k) [],
          s.key ≠ k := by
        rw [hgb]
        exact bucket_no_key hbL hkS hknotin
      cases hupd : updFind S k (t.getD (candFst red1 hash1 red2 hash2 D k) [])
          (t.getD (candSnd red1 hash1 red2 hash2 D k) []) 0 B with
      | some bi =>
        exact absurd ((updFind_none hkS hb1k hb2k 0 B).symm.trans hupd)
          (by simp)
      | none =>
        rw [hupd] at h
        rcases hkk : kick (t.getD (candFst red1 hash1 red2 hash2 D k) [])
            (t.getD (candSnd red1 hash1 red2 hash2 D k) []) k v rng with ⟨res, rng3⟩
        rw [hkk] at h
        obtain ⟨hlb1, hlb2, hcb1, hcb2, hkdprop⟩ :=
          hpol (t.getD (candFst red1 hash1 red2 hash2 D k) [])
            (t.getD (candSnd red1 hash1 red2 hash2 D k) []) k v rng
            (by rw [hga]; exact hblen _ (List.getElem_mem haL))
            (by rw [hgb]; exact hblen _ (List.getElem_mem hbL))
            (by rw [hga]; exact hcpt _ (List.getElem_mem haL))
            (by rw [hgb]; exact hcpt _ (List.getElem_mem hbL)) hkS
        rw [hkk] at hlb1 hlb2 hcb1 hcb2
        have hkd2 : (match res.kicked with
            | none =>
              (pairsOf S PSlot.key PSlot.payload res.b1 ++
                pairsOf S PSlot.key PSlot.payload res.b2).Perm
                ((k, v) :: (pairsOf S PSlot.key PSlot.payload
                    (t.getD (candFst red1 hash1 red2 hash2 D k) []) ++
                  pairsOf S PSlot.key PSlot.payload
                    (t.getD (candSnd red1 hash1 red2 hash2 D k) [])))
            | some kv =>
              kv.1 ≠ S ∧
              (kv :: (pairsOf S PSlot.key PSlot.payload res.b1 ++
                pairsOf S PSlot.key PSlot.payload res.b2)).Perm
                ((k, v) :: (pairsOf S PSlot.key PSlot.payload
                    (t.getD (candFst red1 hash1 red2 hash2 D k) []) ++
                  pairsOf S PSlot.key PSlot.payload
                    (t.getD (candSnd red1 hash1 red2 hash2 D k) [])))) := by
          rw [hkk] at hkdprop
          exact hkdprop
        have hset2 := @tabPairs_set2 V (PSlot V) S PSlot.key PSlot.payload t
          (candFst red1 hash1 red2 hash2 D k) (candSnd red1 hash1 red2 hash2 D k)
          hane haL hbL res.b1 res.b2
        have hlen2 : ((t.set (candFst red1 hash1 red2 hash2 D k) res.b1).set
            (candSnd red1 hash1 red2 hash2 D k) res.b2).length = D := by
          simpa using hD
        have hblen2 : ∀ c ∈ (t.set (candFst red1 hash1 red2 hash2 D k) res.b1).set
            (candSnd red1 hash1 red2 hash2 D k) res.b2, c.length = B := by
          intro c hc
          rcases mem_set_elim hc with rfl | hc2
          · exact hlb2
          · rcases mem_set_elim hc2 with rfl | hc3
            · exact hlb1
            · exact hblen _ hc3
        have hcpt2 : ∀ c ∈ (t.set (candFst red1 hash1 red2 hash2 D k) res.b1).set
            (candSnd red1 hash1 red2 hash2 D k) res.b2,
            isCompact S PSlot.key c := by
          intro c hc
          rcases mem_set_elim hc with rfl | hc2
          · exact hcb2
          · rcases mem_set_elim hc2 with rfl | hc3
            · exact hcb1
            · exact hcpt _ hc3
        have h2 : (match res.kicked with
            | none =>
              Except.ok (((t.set (candFst red1 hash1 red2 hash2 D k) res.b1).set
                (candSnd red1 hash1 red2 hash2 D k) res.b2), rng3)
            | some (k2, v2) =>
              cuckooInsertGo S maxKick B red1 hash1 red2 hash2 kick fuel
                ((t.set (candFst red1 hash1 red2 hash2 D k) res.b1).set
                  (candSnd red1 hash1 red2 hash2 D k) res.b2) rng3 k2 v2 (kc + 1)) =
            Except.ok (t2, rng2) := h
        cases hkd : res.kicked with
        | none =>
          rw [hkd] at h2 hkd2
          injection h2 with h3
          injection h3 with h4 h5
          subst h4
          refine ⟨hlen2, hblen2, hcpt2, ?_⟩
          refine (List.perm_append_right_iff
            (pairsOf S PSlot.key PSlot.payload
                (t.getD (candFst red1 hash1 red2 hash2 D k) []) ++
              pairsOf S PSlot.key PSlot.payload
                (t.getD (candSnd red1 hash1 red2 hash2 D k) []))).mp ?_
          refine hset2.trans ?_
          refine (hkd2.append_right _).trans ?_
          rw [List.cons_append, List.cons_append]
          exact (List.perm_append_comm).cons _
        | some kv =>
          obtain ⟨k2, v2⟩ := kv
          rw [hkd] at h2 hkd2
          have hvkS : k2 ≠ S := hkd2.1
          have hstep : ((k2, v2) :: tabPairs S PSlot.key PSlot.payload
              ((t.set (candFst red1 hash1 red2 hash2 D k) res.b1).set
                (candSnd red1 hash1 red2 hash2 D k) res.b2)).Perm
              ((k, v) :: tabPairs S PSlot.key PSlot.payload t) := by
            refine (List.perm_append_right_iff
              (pairsOf S PSlot.key PSlot.payload
                  (t.getD (candFst red1 hash1 red2 hash2 D k) []) ++
                pairsOf S PSlot.key PSlot.payload
                  (t.getD (candSnd red1 hash1 red2 hash2 D k) []))).mp ?_
            rw [List.cons_append]
            refine (hset2.cons _).trans ?_
            rw [← List.cons_append]
            refine (hkd2.2.append_right _).trans ?_
            rw [List.cons_append, List.cons_append]
            exact (List.perm_append_comm).cons _
          have hnd2 : (((k2, v2) :: tabPairs S PSlot.key PSlot.payload
              ((t.set (candFst red1 hash1 red2 hash2 D k) res.b1).set
                (candSnd red1 hash1 red2 hash2 D k) res.b2)).map Prod.fst).Nodup :=
            ((hstep.map Prod.fst).nodup_iff).mpr hnd
          obtain ⟨hl4, hb4, hc4, hp4⟩ :=
            ih _ _ _ _ _ _ _ hlen2 hblen2 hcpt2 hvkS hnd2 h2
          exact ⟨hl4, hb4, hc4, hp4.trans hstep⟩

end CuckooStrong


/-! ### Cuckoo lookup and round trip -/

section CuckooLookupLemmas

variable {V : Type} {S : Nat} {k : Nat} {v : V}

theorem cuckooScan_miss {b : List (PSlot V)} (h : ∀ s ∈ b, s.key ≠ k) :
    cuckooScan k b = (none : Option V) := by
  induction b with
  | nil => rfl
  | cons s ss ih =>
    rw [cuckooScan, if_neg (h s (by simp))]
    exact ih fun s2 hs2 => h s2 (by simp [hs2])

theorem cuckooScan_hit {b : List (PSlot V)}
    (hex : ∃ s ∈ b, s.key = k) (hall : ∀ s ∈ b, s.key = k → s.payload = v) :
    cuckooScan k b = some v := by
  induction b with
  | nil => simp at hex
  | cons s ss ih =>
    by_cases hsk : s.key = k
    · rw [cuckooScan, if_pos hsk, hall s (by simp) hsk]
    · rw [cuckooScan, if_neg hsk]
      obtain ⟨s2, hs2, hs2k⟩ := hex
      rcases List.mem_cons.mp hs2 with rfl | hs2m
      · exact absurd hs2k hsk
      · exact ih ⟨s2, hs2m, hs2k⟩ fun s3 hs3 => hall s3 (by simp [hs3])

/-- A bucket scan of `Cuckoo::lookup` finds a uniquely stored pair. -/
theorem cuckooScan_hit_unique {t : List (List (PSlot V))}
    (huniq : (keysT S PSlot.key PSlot.payload t).Nodup)
    {i : Nat} (hi : i < t.length) {s : PSlot V} (hs : s ∈ t[i])
    (hskey : s.key = k) (hspay : s.payload = v) (hkS : k ≠ S) :
    cuckooScan k (t[i]) = some v := by
  refine cuckooScan_hit ⟨s, hs, hskey⟩ ?_
  intro s2 hs2 hs2k
  obtain ⟨j1, hj1, he1⟩ := List.getElem_of_mem hs
  obtain ⟨j2, hj2, he2⟩ := List.getElem_of_mem hs2
  rcases Nat.lt_trichotomy j1 j2 with hlt | heq | hgt
  · exact ((nodup_no_two_in_bucket huniq hi hlt hj2
      (by rw [he1]; exact hskey) (by rw [he2]; exact hs2k) hkS)).elim
  · subst heq
    rw [← he2, he1, hspay]
  · exact ((nodup_no_two_in_bucket huniq hi hgt hj1
      (by rw [he2]; exact hs2k) (by rw [he1]; exact hskey) hkS)).elim

/-- No slot of any (padded) bucket carries an absent non-sentinel key. -/
theorem bucket_no_key_getD {t : List (List (PSlot V))} {i : Nat} (hkS : k ≠ S)
    (habs : k ∉ keysT S PSlot.key PSlot.payload t) :
    ∀ s ∈ t.getD i [], s.key ≠ k := by
  rcases Nat.lt_or_ge i t.length with hlt | hge
  · rw [getD_lt _ _ _ hlt]
    exact bucket_no_key hlt hkS habs
  · rw [getD_ge _ _ _ hge]
    intro s hs
    simp at hs

/-- `Cuckoo::lookup` misses on an absent non-sentinel key. -/
theorem cuckooLookup_miss [Inhabited V] {t : List (List (PSlot V))}
    {red1 hash1 red2 hash2 : Nat → Nat} (hkS : k ≠ S)
    (habs : k ∉ keysT S PSlot.key PSlot.payload t) :
    cuckooLookup red1 hash1 red2 hash2 t k = (none : Option V) := by
  rw [cuckooLookup, cuckooScan_miss (bucket_no_key_getD hkS habs),
    cuckooScan_miss (bucket_no_key_getD hkS habs)]

/-- `Cuckoo::lookup` finds a stored pair, from uniqueness and locality. -/
theorem cuckooLookup_hit [Inhabited V] {D : Nat} {t : List (List (PSlot V))}
    {red1 hash1 red2 hash2 : Nat → Nat} (hD2 : 2 ≤ D)
    (hr1 : ∀ x, red1 x < D) (hr2 : ∀ x, red2 x < D)
    (hD : t.length = D)
    (hloc : CuckLocal S D red1 hash1 red2 hash2 t)
    (huniq : (keysT S PSlot.key PSlot.payload t).Nodup)
    (hmem : (k, v) ∈ tabPairs S PSlot.key PSlot.payload t) (hkS : k ≠ S) :
    cuckooLookup red1 hash1 red2 hash2 t k = some v := by
  rw [tabPairs] at hmem
  obtain ⟨s, hsfl, hskey, hspay, -⟩ := mem_pairsOf_iff.mp hmem
  obtain ⟨i, hi, hsmem⟩ := mem_flatten_idx.mp hsfl
  have hsocc : s.key ≠ S := by rw [hskey]; exact hkS
  have hloci := hloc i hi s hsmem hsocc
  rw [hskey] at hloci
  rw [cuckooLookup, hD]
  rcases hloci with hi1 | hi2
  · subst hi1
    rw [getD_lt _ _ _ hi, cuckooScan_hit_unique huniq hi hsmem hskey hspay hkS]
  · subst hi2
    have hne : nudge2 D (red1 (hash1 k)) (red2 (hash2 k)) ≠ red1 (hash1 k) :=
      nudge2_ne hD2 (hr1 _)
    have hr1L : red1 (hash1 k) < t.length := by rw [hD]; exact hr1 _
    have hb1k : ∀ s2 ∈ t.getD (red1 (hash1 k)) [], s2.key ≠ k := by
      rw [getD_lt _ _ _ hr1L]
      intro s2 hs2 hs2k
      rcases Nat.lt_trichotomy (red1 (hash1 k))
          (nudge2 D (red1 (hash1 k)) (red2 (hash2 k))) with hlt | heq | hgt
      · exact nodup_no_two_buckets huniq hlt hi hs2 hsmem hs2k hskey hkS
      · exact hne heq.symm
      · exact nodup_no_two_buckets huniq hgt hr1L hsmem hs2 hskey hs2k hkS
    rw [cuckooScan_miss hb1k, getD_lt _ _ _ hi,
      cuckooScan_hit_unique huniq hi hsmem hskey hspay hkS]

end CuckooLookupLemmas

section CuckooInsertAll

variable {V : Type} {S : Nat}

/-- Sequential cuckoo insertion of pairwise-distinct fresh non-sentinel
keys: on success all invariants hold and the contents are exactly the
inserted pairs plus the previous contents. -/
theorem cuckooInsertAll_ok [Inhabited V] {maxKick B D : Nat}
    {red1 hash1 red2 hash2 : Nat → Nat}
    {kick : List (PSlot V) → List (PSlot V) → Nat → V → List Nat →
      KickRes V × List Nat}
    (hpol : PolicyOk S B kick) (hmem : PolicyMem kick) (hD2 : 2 ≤ D)
    (hr1 : ∀ x, red1 x < D) (hr2 : ∀ x, red2 x < D) :
    ∀ {pairs : List (Nat × V)} {t : List (List (PSlot V))} {rng : List Nat}
      {t2 : List (List (PSlot V))} {rng2 : List Nat},
      t.length = D →
      (∀ c ∈ t, c.length = B) →
      (∀ c ∈ t, isCompact S PSlot.key c) →
      CuckLocal S D red1 hash1 red2 hash2 t →
      (keysT S PSlot.key PSlot.payload t).Nodup →
      (pairs.map Prod.fst).Nodup →
      (∀ p ∈ pairs, p.1 ≠ S) →
      (∀ p ∈ pairs, p.1 ∉ keysT S PSlot.key PSlot.payload t) →
      cuckooInsertAll S maxKick B red1 hash1 red2 hash2 kick t rng pairs =
        .ok (t2, rng2) →
      t2.length = D ∧ (∀ c ∈ t2, c.length = B) ∧
      (∀ c ∈ t2, isCompact S PSlot.key c) ∧
      CuckLocal S D red1 hash1 red2 hash2 t2 ∧
      (tabPairs S PSlot.key PSlot.payload t2).Perm
        (pairs ++ tabPairs S PSlot.key PSlot.payload t) := by
  intro pairs
  induction pairs with
  | nil =>
    intro t rng t2 rng2 hD hblen hcpt hloc huniq _ _ _ hres
    rw [cuckooInsertAll] at hres
    injection hres with hres
    injection hres with h1 h2
    subst h1
    exact ⟨hD, hblen, hcpt, hloc, by simp⟩
  | cons kv ps ih =>
    intro t rng t2 rng2 hD hblen hcpt hloc huniq hnd hkS hdisj hres
    obtain ⟨k, v⟩ := kv
    rw [cuckooInsertAll] at hres
    cases hins : cuckooInsert S maxKick B red1 hash1 red2 hash2 kick t rng k v with
    | error e =>
      rw [hins] at hres
      cases hres
    | ok pr =>
      obtain ⟨tmid, rngmid⟩ := pr
      rw [hins] at hres
      have hkvS : k ≠ S := hkS (k, v) (by simp)
      have hnd1 : (((k, v) :: tabPairs S PSlot.key PSlot.payload t).map
          Prod.fst).Nodup := by
        rw [List.map_cons]
        refine List.nodup_cons.mpr ⟨?_, huniq⟩
        exact hdisj (k, v) (by simp)
      obtain ⟨hl1, hb1, hc1, hp1⟩ := cuckooInsertGo_ok hpol hD2 hr1 hr2
        (maxKick + 2) t rng k v 0 tmid rngmid hD hblen hcpt hkvS hnd1 hins
      obtain ⟨-, hloc1⟩ := cuckooInsertGo_local hmem hD2 hr1 hr2
        (maxKick + 2) t rng k v 0 tmid rngmid hD hloc hins
      have huniq1 : (keysT S PSlot.key PSlot.payload tmid).Nodup := by
        rw [keysT]
        exact ((hp1.map Prod.fst).nodup_iff).mpr hnd1
      have hnd2 : (ps.map Prod.fst).Nodup := by
        rw [List.map_cons] at hnd
        exact hnd.of_cons
      have hkS2 : ∀ p ∈ ps, p.1 ≠ S := fun p hp => hkS p (by simp [hp])
      have hdisj2 : ∀ p ∈ ps, p.1 ∉ keysT S PSlot.key PSlot.payload tmid := by
        intro p hp hmemk
        rw [keysT] at hmemk
        have hmem2 := (hp1.map Prod.fst).mem_iff.mp hmemk
        rw [List.map_cons] at hmem2
        rcases List.mem_cons.mp hmem2 with hh | hh
        · rw [List.map_cons] at hnd
          exact (List.nodup_cons.mp hnd).1 (hh ▸ List.mem_map_of_mem Prod.fst hp)
        · exact hdisj p (by simp [hp]) (by rw [keysT]; exact hh)
      obtain ⟨hl3, hb3, hc3, hloc3, hp3⟩ := ih hl1 hb1 hc1 hloc1 huniq1
        hnd2 hkS2 hdisj2 hres
      refine ⟨hl3, hb3, hc3, hloc3, ?_⟩
      refine hp3.trans ((hp1.append_left ps).trans ?_)
      rw [List.cons_append]
      exact List.perm_middle

end CuckooInsertAll


section CuckooRoundTrip

variable {V : Type} {S : Nat}

theorem CuckLocal_emptyTab [Inhabited V] {D B maxKick : Nat}
    {red1 hash1 red2 hash2 : Nat → Nat} :
    CuckLocal (V := V) S maxKick red1 hash1 red2 hash2 (emptyTab S D B) := by
  intro i hi s hs hocc
  exact absurd (emptyTab_key s (List.mem_flatten.mpr
    ⟨_, List.getElem_mem hi, hs⟩)) hocc

/-- Cuckoo round trip: distinct non-sentinel keys inserted from an empty
table without a fatal error are all found with their payloads; absent
non-sentinel keys miss. -/
theorem roundtripK [Inhabited V] {maxKick B D : Nat}
    {red1 hash1 red2 hash2 : Nat → Nat}
    {kick : List (PSlot V) → List (PSlot V) → Nat → V → List Nat →
      KickRes V × List Nat}
    {pairs : List (Nat × V)} {rng : List Nat}
    {t2 : List (List (PSlot V))} {rng2 : List Nat}
    (hpol : PolicyOk S B kick) (hmem : PolicyMem kick) (hD2 : 2 ≤ D)
    (hr1 : ∀ x, red1 x < D) (hr2 : ∀ x, red2 x < D)
    (hnd : (pairs.map Prod.fst).Nodup) (hkS : ∀ p ∈ pairs, p.1 ≠ S)
    (hres : cuckooInsertAll S maxKick B red1 hash1 red2 hash2 kick
      (emptyTab S D B) rng pairs = .ok (t2, rng2)) :
    (∀ p ∈ pairs, cuckooLookup red1 hash1 red2 hash2 t2 p.1 = some p.2) ∧
    (∀ k, k ≠ S → k ∉ pairs.map Prod.fst →
      cuckooLookup red1 hash1 red2 hash2 t2 k = (none : Option V)) := by
  have hD0 : (emptyTab (V := V) S D B).length = D := by simp [emptyTab]
  have hblen0 : ∀ c ∈ emptyTab (V := V) S D B, c.length = B := by
    intro c hc
    rw [emptyTab] at hc
    rw [List.eq_of_mem_replicate hc]
    simp
  have hcpt0 : ∀ c ∈ emptyTab (V := V) S D B, isCompact S PSlot.key c := by
    intro c hc
    refine ⟨[], c, by simp, by simp, ?_⟩
    intro s hs
    exact emptyTab_key s (List.mem_flatten.mpr ⟨c, hc, hs⟩)
  have huniq0 : (keysT S PSlot.key PSlot.payload (emptyTab (V := V) S D B)).Nodup := by
    rw [keysT, tabPairs_emptyTab]
    exact List.nodup_nil
  obtain ⟨hl2, hb2, hc2, hloc2, hp2⟩ := cuckooInsertAll_ok hpol hmem hD2 hr1 hr2
    hD0 hblen0 hcpt0 CuckLocal_emptyTab huniq0 hnd hkS
    (by intro p hp; rw [keysT, tabPairs_emptyTab]; simp) hres
  rw [tabPairs_emptyTab, List.append_nil] at hp2
  have huniq2 : (keysT S PSlot.key PSlot.payload t2).Nodup := by
    rw [keysT]
    exact ((hp2.map Prod.fst).nodup_iff).mpr hnd
  constructor
  · intro p hp
    exact cuckooLookup_hit hD2 hr1 hr2 hl2 hloc2 huniq2
      (hp2.mem_iff.mpr hp) (hkS p hp)
  · intro k hk hnotin
    refine cuckooLookup_miss hk ?_
    intro hmemk
    rw [keysT] at hmemk
    exact hnotin ((hp2.map Prod.fst).mem_iff.mp hmemk)

end CuckooRoundTrip


/-! ### Probing insert: error taxonomy (claim C7) -/

section ProbingErrors

variable {V : Type} {S maxSteps : Nat} {probe : Nat → Nat → Nat}
variable {red hash : Nat → Nat}

/-- Fuel adequacy of the insert walk: with the canonical fuel the model
monitor `fuelOut` is unreachable, so the only errors are the two
`std::runtime_error` throws of the source. -/
theorem insertPWalk_no_fuelOut {t : List (List (PSlot V))} {k : Nat} {v : V}
    {o : Nat} :
    ∀ fuel step idx, step ≤ maxSteps + 1 → maxSteps + 2 - step ≤ fuel →
      insertPWalk S maxSteps probe t k v o idx step fuel ≠ .error .fuelOut := by
  intro fuel
  induction fuel with
  | zero => intro step idx hstep hfuel; omega
  | succ fuel ih =>
    intro step idx hstep _
    rw [insertPWalk]
    by_cases hms : maxSteps < step
    · rw [if_pos hms]
      intro h
      injection h with h2
      cases h2
    · rw [if_neg hms]
      cases hscan : scanIns S k v (t.getD idx []) with
      | placed b2 =>
        intro h
        cases h
      | dup =>
        intro h
        cases h
      | full =>
        simp only
        split
        · intro h
          injection h with h2
          cases h2
        · exact ih (step + 1) _ (by omega) (by omega)

/-- A `false` return of the insert walk leaves the table unchanged and the
key is already stored. -/
theorem insertPWalk_false {t t2 : List (List (PSlot V))} {k : Nat} {v : V}
    {o : Nat} (hkS : k ≠ S) :
    ∀ fuel step idx,
      insertPWalk S maxSteps probe t k v o idx step fuel = .ok (t2, false) →
      t2 = t ∧ k ∈ keysT S PSlot.key PSlot.payload t := by
  intro fuel
  induction fuel with
  | zero => intro step idx h; cases h
  | succ fuel ih =>
    intro step idx h
    rw [insertPWalk] at h
    by_cases hms : maxSteps < step
    · rw [if_pos hms] at h
      cases h
    · rw [if_neg hms] at h
      cases hscan : scanIns S k v (t.getD idx []) with
      | placed b2 =>
        rw [hscan] at h
        injection h with h
        injection h with h1 h2
        cases h2
      | dup =>
        rw [hscan] at h
        injection h with h
        injection h with h1 h2
        subst h1
        obtain ⟨s, hsmem, hsk, hsS⟩ := scanIns_dup_mem hscan
        refine ⟨rfl, ?_⟩
        rcases Nat.lt_or_ge idx t.length with hidx | hidx
        · rw [getD_lt _ _ _ hidx] at hsmem
          rw [keysT]
          exact mem_keys_iff.mpr
            ⟨s, mem_flatten_idx.mpr ⟨idx, hidx, hsmem⟩, hsk, hkS⟩
        · rw [getD_ge _ _ _ hidx] at hsmem
          simp at hsmem
      | full =>
        rw [hscan] at h
        simp only at h
        split at h
        · cases h
        · exact ih _ _ h

/-- The insert walk reports a duplicate when the key is stored on its probe
path with all earlier buckets full. -/
theorem insertPWalk_dup_walk {o : Nat} {t : List (List (PSlot V))} {k : Nat}
    {v : V} {p : Nat} (hp : p ≤ maxSteps)
    (hcyc : ∀ q, 1 ≤ q → q ≤ p → probe o q ≠ o)
    (hfull : ∀ q < p, ∀ s ∈ t.getD (walkIdx probe o q) [], s.key ≠ S)
    (hhit : scanIns S k v (t.getD (walkIdx probe o p) []) = .dup) :
    ∀ fuel step, step ≤ p → p + 1 - step ≤ fuel →
      insertPWalk S maxSteps probe t k v o (walkIdx probe o step) step fuel =
        .ok (t, false) := by
  intro fuel
  induction fuel with
  | zero => intro step hstep hfuel; omega
  | succ fuel ih =>
    intro step hstep _
    rw [insertPWalk, if_neg (by omega : ¬maxSteps < step)]
    rcases Nat.lt_or_ge step p with hlt | hge
    · cases hscan : scanIns S k v (t.getD (walkIdx probe o step) []) with
      | placed b2 =>
        obtain ⟨b1, sX, rest, hb, hsS, -, -⟩ := scanIns_placed_decomp hscan
        exact absurd hsS (hfull step hlt sX (by rw [hb]; simp))
      | dup => rfl
      | full =>
        simp only
        rw [if_neg (by simpa [walkIdx] using hcyc (step + 1) (by omega) (by omega))]
        have hwi := walkIdx_pos probe o (step + 1) (by omega)
        rw [← hwi]
        exact ih (step + 1) (by omega) (by omega)
    · have hsp : step = p := by omega
      subst hsp
      rw [hhit]

/-- `Probing::insert` on an already-stored key returns `false` and leaves
the table unchanged. -/
theorem insertP_dup {D : Nat} {t : List (List (PSlot V))}
    (gp : GoodProbe D probe) (hred : ∀ x, red x < D) (hD : t.length = D)
    (hwf : PWf S probe red hash maxSteps t) {k : Nat} (hkS : k ≠ S)
    (hkmem : k ∈ keysT S PSlot.key PSlot.payload t) (v : V) :
    insertP S maxSteps probe red hash t k v = .ok (t, false) := by
  rw [keysT] at hkmem
  obtain ⟨s, hsfl, hskey, -⟩ := mem_keys_iff.mp hkmem
  obtain ⟨i, hi, hsmem⟩ := mem_flatten_idx.mp hsfl
  have hsocc : s.key ≠ S := by rw [hskey]; exact hkS
  obtain ⟨p, hple, hwalk, hcyc, hfull⟩ := hwf.stored i hi s hsmem hsocc
  rw [hskey] at hwalk hcyc hfull
  obtain ⟨j, hj, hsval⟩ := List.getElem_of_mem hsmem
  have hhit : scanIns S k v (t.getD (walkIdx probe (red (hash k)) p) []) =
      .dup := by
    rw [hwalk, getD_lt _ _ _ hi]
    refine scanIns_dup_of hj (by rw [hsval]; exact hskey) ?_ hkS
    intro j1 hj1
    constructor
    · exact compact_occ_lt (hwf.occ _ (List.getElem_mem hi)) hj
        (by rw [hsval]; exact hsocc) j1 hj1
    · intro hk2
      exact nodup_no_two_in_bucket hwf.uniq hi hj1 hj hk2 (hsval ▸ hskey) hkS
  rw [insertP, if_neg hkS]
  have hw := insertPWalk_dup_walk (v := v) hple hcyc hfull hhit
    (maxSteps + 2) 0 (by omega) (by omega)
  rw [walkIdx_zero] at hw
  exact hw

/-- `Probing::insert` never hits the model fuel monitor. -/
theorem insertP_no_fuelOut {t : List (List (PSlot V))} {k : Nat} {v : V} :
    insertP S maxSteps probe red hash t k v ≠ .error .fuelOut := by
  rw [insertP]
  by_cases hk : k = S
  · rw [if_pos hk]
    intro h
    cases h
  · rw [if_neg hk]
    exact insertPWalk_no_fuelOut (maxSteps + 2) 0 _ (by omega) (by omega)

/-- Totality of the probing lookup: the walk always produces an answer
(hit or empty optional), never the fuel monitor. -/
theorem lookupT_isSome {σ : Type} {kf : σ → Nat} {pf : σ → V} {D : Nat}
    {t : List (List σ)} (gp : GoodProbe D probe) (hred : ∀ x, red x < D)
    (hD : t.length = D) (k : Nat) :
    (lookupT S kf pf probe red hash t k).isSome := by
  rw [lookupT]
  by_cases hk : k = S
  · rw [if_pos hk]
    simp
  · rw [if_neg hk]
    have hDpos : 0 < D := Nat.lt_of_le_of_lt (Nat.zero_le _) (hred 0)
    rw [hD]
    exact lookupWalk_isSome gp (hred _) D 0 _ hDpos (by omega)

end ProbingErrors


/-! ### Chained range lookup (claim C5) -/

section ChainedRange

variable {V : Type} {S : Nat} {red hash : Nat → Nat}

theorem compact_head_sent {σ : Type} {kf : σ → Nat} {s : σ} {ss : List σ}
    (hc : isCompact S kf (s :: ss)) (hS : kf s = S) : ∀ x ∈ s :: ss, kf x = S := by
  obtain ⟨bo, be, he, hbo, hbe⟩ := hc
  cases bo with
  | nil =>
    intro x hx
    rw [List.nil_append] at he
    exact hbe x (he ▸ hx)
  | cons b0 bo2 =>
    exfalso
    rw [List.cons_append] at he
    injection he with h1 h2
    exact hbo b0 (by simp) (h1 ▸ hS)

theorem bucketRange_eq {min max : Nat} (hmax : max < S) {b : List (PSlot V)}
    (hc : isCompact S PSlot.key b) :
    (bucketRange S min max b).1 =
      ((pairsOf S PSlot.key PSlot.payload b).filter
        (fun p => decide (min ≤ p.1 ∧ p.1 ≤ max))).map Prod.snd := by
  induction b with
  | nil => rfl
  | cons s ss ih =>
    by_cases hS : s.key = S
    · have hsent := compact_head_sent hc hS
      rw [bucketRange, if_pos hS]
      show (if min ≤ s.key ∧ s.key ≤ max then [s.payload] else []) = _
      rw [hS, if_neg (by omega : ¬(min ≤ S ∧ S ≤ max)), pairsOf_sentinel hsent]
      rfl
    · rw [bucketRange, if_neg hS]
      show (if min ≤ s.key ∧ s.key ≤ max then [s.payload] else []) ++
        (bucketRange S min max ss).1 = _
      rw [ih (compact_tail hS hc), pairsOf_cons_occ hS, List.filter_cons]
      by_cases hin : min ≤ s.key ∧ s.key ≤ max
      · rw [if_pos hin, if_pos (by simpa using hin)]
        simp
      · rw [if_neg hin, if_neg (by simpa using hin)]
        simp

theorem bucketRange_flag {min max : Nat} {b : List (PSlot V)}
    (hc : isCompact S PSlot.key b) :
    (bucketRange S min max b).2 = true ↔
      ∃ s ∈ b, s.key ≠ S ∧ max ≤ s.key := by
  induction b with
  | nil => simp [bucketRange]
  | cons s ss ih =>
    by_cases hS : s.key = S
    · have hsent := compact_head_sent hc hS
      rw [bucketRange, if_pos hS]
      show decide (max ≤ s.key ∧ s.key ≠ S) = true ↔ _
      constructor
      · intro h
        rw [hS] at h
        simp at h
      · rintro ⟨x, hx, hxS, -⟩
        exact absurd (hsent x hx) hxS
    · rw [bucketRange, if_neg hS]
      show (decide (max ≤ s.key ∧ s.key ≠ S) || (bucketRange S min max ss).2) =
        true ↔ _
      rw [Bool.or_eq_true, ih (compact_tail hS hc)]
      constructor
      · rintro (h | ⟨x, hx, h1, h2⟩)
        · simp only [decide_eq_true_eq] at h
          exact ⟨s, by simp, h.2, h.1⟩
        · exact ⟨x, by simp [hx], h1, h2⟩
      · rintro ⟨x, hx, h1, h2⟩
        rcases List.mem_cons.mp hx with rfl | hx2
        · exact Or.inl (by simp only [decide_eq_true_eq]; exact ⟨h2, h1⟩)
        · exact Or.inr ⟨x, hx2, h1, h2⟩

theorem bucketRange_sentinel {min max : Nat} (hmax : max < S) {b : List (PSlot V)}
    (h : ∀ s ∈ b, s.key = S) : bucketRange S min max b = ([], false) := by
  cases b with
  | nil => rfl
  | cons s ss =>
    rw [bucketRange, if_pos (h s (by simp)), h s (by simp)]
    simp [Nat.not_le.mpr hmax]

theorem chainRange_sentinel {min max : Nat} (hmax : max < S)
    {bs : List (List (PSlot V))} (h : ∀ s ∈ bs.flatten, s.key = S) :
    chainRange S min max bs = ([], false) := by
  induction bs with
  | nil => rfl
  | cons b bs2 ih =>
    rw [List.flatten_cons] at h
    rw [chainRange, bucketRange_sentinel hmax (fun s hs => h s (by simp [hs])),
      ih (fun s hs => h s (by simp [hs]))]
    rfl

theorem chainRange_eq {min max : Nat} (hmax : max < S)
    {bs : List (List (PSlot V))} (hc : isCompact S PSlot.key bs.flatten) :
    (chainRange S min max bs).1 =
      ((pairsOf S PSlot.key PSlot.payload bs.flatten).filter
        (fun p => decide (min ≤ p.1 ∧ p.1 ≤ max))).map Prod.snd := by
  induction bs with
  | nil => rfl
  | cons b bs2 ih =>
    rw [List.flatten_cons] at hc ⊢
    have hcb := compact_append_left hc
    show (bucketRange S min max b).1 ++ (chainRange S min max bs2).1 = _
    by_cases hfull : ∀ s ∈ b, s.key ≠ S
    · rw [bucketRange_eq hmax hcb, ih (compact_append_right_of_full hc hfull),
        pairsOf_append, List.filter_append, List.map_append]
    · have hrest : ∀ s ∈ bs2.flatten, s.key = S := by
        by_contra hco
        push_neg at hco
        obtain ⟨x, hx, hxS⟩ := hco
        exact hfull (compact_full_left hc ⟨x, hx, hxS⟩)
      rw [bucketRange_eq hmax hcb, chainRange_sentinel hmax hrest,
        pairsOf_append, pairsOf_sentinel hrest]
      simp

theorem chainRange_flag {min max : Nat} (hmax : max < S)
    {bs : List (List (PSlot V))} (hc : isCompact S PSlot.key bs.flatten) :
    (chainRange S min max bs).2 = true ↔
      ∃ s ∈ bs.flatten, s.key ≠ S ∧ max ≤ s.key := by
  induction bs with
  | nil => simp [chainRange]
  | cons b bs2 ih =>
    rw [List.flatten_cons] at hc ⊢
    have hcb := compact_append_left hc
    show ((bucketRange S min max b).2 || (chainRange S min max bs2).2) = true ↔ _
    by_cases hfull : ∀ s ∈ b, s.key ≠ S
    · rw [Bool.or_eq_true, bucketRange_flag hcb,
        ih (compact_append_right_of_full hc hfull)]
      constructor
      · rintro (⟨x, hx, h1, h2⟩ | ⟨x, hx, h1, h2⟩)
        · exact ⟨x, by simp [hx], h1, h2⟩
        · exact ⟨x, by simp [hx], h1, h2⟩
      · rintro ⟨x, hx, h1, h2⟩
        rcases List.mem_append.mp hx with hx2 | hx2
        · exact Or.inl ⟨x, hx2, h1, h2⟩
        · exact Or.inr ⟨x, hx2, h1, h2⟩
    · have hrest : ∀ s ∈ bs2.flatten, s.key = S := by
        by_contra hco
        push_neg at hco
        obtain ⟨x, hx, hxS⟩ := hco
        exact hfull (compact_full_left hc ⟨x, hx, hxS⟩)
      rw [Bool.or_eq_true, bucketRange_flag hcb, chainRange_sentinel hmax hrest]
      constructor
      · rintro (⟨x, hx, h1, h2⟩ | h)
        · exact ⟨x, by simp [hx], h1, h2⟩
        · simp at h
      · rintro ⟨x, hx, h1, h2⟩
        rcases List.mem_append.mp hx with hx2 | hx2
        · exact Or.inl ⟨x, hx2, h1, h2⟩
        · exact absurd (hrest x hx2) h1

theorem slotRange_eq [Inhabited V] {min max : Nat} (hmax : max < S) {fs : FSlot V}
    (hc : isCompact S PSlot.key fs.chain.flatten) :
    (slotRange S min max fs).1 =
      ((fsPairs S fs).filter
        (fun p => decide (min ≤ p.1 ∧ p.1 ≤ max))).map Prod.snd := by
  rw [slotRange, fsPairs, List.filter_append, List.map_append]
  show (if min ≤ fs.key ∧ fs.key ≤ max then [fs.payload] else []) ++
    (chainRange S min max fs.chain).1 = _
  rw [chainRange_eq hmax hc]
  congr 1
  by_cases hS : fs.key = S
  · rw [if_neg (not_not.mpr hS), hS,
      if_neg (by omega : ¬(min ≤ S ∧ S ≤ max))]
    rfl
  · rw [if_pos hS, List.filter_cons]
    by_cases hin : min ≤ fs.key ∧ fs.key ≤ max
    · rw [if_pos hin, if_pos (by simpa using hin)]
      rfl
    · rw [if_neg hin, if_neg (by simpa using hin)]
      rfl

theorem slotRange_flag [Inhabited V] {min max : Nat} (hmax : max < S) {fs : FSlot V}
    (hc : isCompact S PSlot.key fs.chain.flatten) :
    (slotRange S min max fs).2 = true ↔
      ((fs.key ≠ S ∧ max ≤ fs.key) ∨
        ∃ s ∈ fs.chain.flatten, s.key ≠ S ∧ max ≤ s.key) := by
  rw [slotRange]
  show (decide (max ≤ fs.key ∧ fs.key ≠ S) || (chainRange S min max fs.chain).2) =
    true ↔ _
  rw [Bool.or_eq_true, chainRange_flag hmax hc]
  constructor
  · rintro (h | h)
    · simp only [decide_eq_true_eq] at h
      exact Or.inl ⟨h.2, h.1⟩
    · exact Or.inr h
  · rintro (⟨h1, h2⟩ | h)
    · exact Or.inl (by simp only [decide_eq_true_eq]; exact ⟨h2, h1⟩)
    · exact Or.inr h

/-- Every stored pair of a well-formed chained table sits at its reduced
hash index. -/
theorem fsPairs_idx [Inhabited V] {t : List (FSlot V)} (hwf : CWf S red hash t) :
    ∀ j (hj : j < t.length), ∀ p ∈ fsPairs S (t[j]), red (hash p.1) = j := by
  intro j hj p hp
  obtain ⟨κ, v⟩ := p
  rcases mem_fsPairs_iff.mp hp with ⟨hk, -, hkS⟩ | ⟨s, hs, hk, -, hkS⟩
  · have h2 := hwf.inlineIdx j hj (by rw [hk]; exact hkS)
    rw [hk] at h2
    exact h2
  · have h2 := hwf.chainIdx j hj s hs (by rw [hk]; exact hkS)
    rw [hk] at h2
    exact h2

end ChainedRange


section ChainedRangeMain

variable {V : Type} {S : Nat} {red hash : Nat → Nat}

/-- Membership in the flattened pair lists of a directory suffix. -/
theorem mem_dropPairs [Inhabited V] {t : List (FSlot V)} {i : Nat}
    {p : Nat × V} (hp : p ∈ ((t.drop i).map (fsPairs S)).flatten) :
    ∃ j, ∃ hj : j < t.length, i ≤ j ∧ p ∈ fsPairs S (t[j]) := by
  obtain ⟨l, hl, hpl⟩ := List.mem_flatten.mp hp
  obtain ⟨fs, hfs, rfl⟩ := List.mem_map.mp hl
  obtain ⟨m, hm, rfl⟩ := List.getElem_of_mem hfs
  have hmlen : i + m < t.length := by
    simp at hm
    omega
  refine ⟨i + m, hmlen, by omega, ?_⟩
  rw [List.getElem_drop] at hpl
  exact hpl

/-- The directory walk collects exactly the in-range pairs of the suffix
starting at `i`: entries past a stop flag hold no in-range keys, by
monotonicity. -/
theorem rangeLoop_eq [Inhabited V] {D : Nat} {t : List (FSlot V)} {min max : Nat}
    (hred : ∀ x, red x < D) (hD : t.length = D) (hwf : CWf S red hash t)
    (hmax : max < S)
    (hmono : ∀ a b, a ≤ b → red (hash a) ≤ red (hash b)) :
    ∀ i, rangeLoop S min max t i =
      ((((t.drop i).map (fsPairs S)).flatten).filter
        (fun p => decide (min ≤ p.1 ∧ p.1 ≤ max))).map Prod.snd := by
  have main : ∀ n i, t.length - i ≤ n → rangeLoop S min max t i =
      ((((t.drop i).map (fsPairs S)).flatten).filter
        (fun p => decide (min ≤ p.1 ∧ p.1 ≤ max))).map Prod.snd := by
    intro n
    induction n with
    | zero =>
      intro i hle
      rw [rangeLoop, dif_neg (by omega), List.drop_eq_nil_of_le (by omega)]
      rfl
    | succ n ih =>
      intro i hle
      by_cases hlt : i < t.length
      · rw [rangeLoop, dif_pos hlt]
        have hgd : t.getD i (emptyFSlot S) = t[i] := getD_lt _ _ _ hlt
        have hcpt : isCompact S PSlot.key ((t.getD i (emptyFSlot S)).chain.flatten) := by
          rw [hgd]
          exact hwf.cpt i hlt
        have hslot := @slotRange_eq V S _ min max hmax (t.getD i (emptyFSlot S)) hcpt
        have hdrop : t.drop i = t[i] :: t.drop (i + 1) := List.drop_eq_getElem_cons hlt
        rw [hdrop, List.map_cons, List.flatten_cons, List.filter_append,
          List.map_append]
        by_cases hflag : (slotRange S min max (t.getD i (emptyFSlot S))).2 = true
        · rw [if_pos hflag]
          have hwit := (slotRange_flag hmax hcpt).mp hflag
          have hkey : ∃ κ, red (hash κ) = i ∧ max ≤ κ ∧ κ ≠ S := by
            rcases hwit with ⟨h1, h2⟩ | ⟨x, hx, h1, h2⟩
            · refine ⟨(t.getD i (emptyFSlot S)).key, ?_, h2, h1⟩
              rw [hgd] at h1 ⊢
              exact hwf.inlineIdx i hlt h1
            · refine ⟨x.key, ?_, h2, h1⟩
              rw [hgd] at hx
              exact hwf.chainIdx i hlt x hx h1
          obtain ⟨κ, hκi, hκmax, -⟩ := hkey
          have hrest : (((t.drop (i + 1)).map (fsPairs S)).flatten).filter
              (fun p => decide (min ≤ p.1 ∧ p.1 ≤ max)) = [] := by
            rw [List.filter_eq_nil_iff]
            intro p hp
            obtain ⟨j, hj, hij, hpj⟩ := mem_dropPairs hp
            have hidx := fsPairs_idx hwf j hj p hpj
            simp only [decide_eq_true_eq]
            rintro ⟨-, h2⟩
            have hmono2 := hmono p.1 κ (Nat.le_trans h2 hκmax)
            rw [hidx, hκi] at hmono2
            omega
          rw [hslot, hgd, hrest]
          simp
        · rw [if_neg hflag, ih (i + 1) (by omega), hslot, hgd]
      · rw [rangeLoop, dif_neg hlt, List.drop_eq_nil_of_le (by omega)]
        rfl
  exact fun i => main t.length i (by omega)

/-- `Chained::lookup_range` returns exactly the payloads of the stored
pairs with keys in `[min, max]`, in a well-formed table under a monotone
hash-reducer composition. -/
theorem lookupRangeC_eq [Inhabited V] {D : Nat} {t : List (FSlot V)}
    {min max : Nat}
    (hred : ∀ x, red x < D) (hD : t.length = D) (hwf : CWf S red hash t)
    (hminmax : min ≤ max) (hmax : max < S)
    (hmono : ∀ a b, a ≤ b → red (hash a) ≤ red (hash b)) :
    lookupRangeC S red hash t min max =
      ((tabPairsC S t).filter
        (fun p => decide (min ≤ p.1 ∧ p.1 ≤ max))).map Prod.snd := by
  rw [lookupRangeC, if_neg (by omega : ¬(min = S ∨ max = S))]
  rw [rangeLoop_eq hred hD hwf hmax hmono (red (hash min))]
  have hsplit : tabPairsC S t =
      ((t.take (red (hash min))).map (fsPairs S)).flatten ++
      ((t.drop (red (hash min))).map (fsPairs S)).flatten := by
    rw [tabPairsC]
    conv_lhs => rw [← List.take_append_drop (red (hash min)) t]
    rw [List.map_append, List.flatten_append]
  rw [hsplit, List.filter_append, List.map_append]
  have hpre : (((t.take (red (hash min))).map (fsPairs S)).flatten).filter
      (fun p => decide (min ≤ p.1 ∧ p.1 ≤ max)) = [] := by
    rw [List.filter_eq_nil_iff]
    intro p hp
    obtain ⟨l, hl, hpl⟩ := List.mem_flatten.mp hp
    obtain ⟨fs, hfs, rfl⟩ := List.mem_map.mp hl
    obtain ⟨m, hm, rfl⟩ := List.getElem_of_mem hfs
    have hmlen1 : m < red (hash min) := by
      simp at hm
      omega
    have hmlen2 : m < t.length := by
      simp at hm
      omega
    have hget : (t.take (red (hash min)))[m] = t[m] :=
      List.getElem_take ..
    rw [hget] at hpl
    have hidx := fsPairs_idx hwf m hmlen2 p hpl
    simp only [decide_eq_true_eq]
    rintro ⟨h1, -⟩
    have hmono2 := hmono min p.1 h1
    rw [hidx] at hmono2
    omega
  rw [hpre]
  rfl

/-- The structural termination law of the directory walk: it scans entries
from `i` on, one at a time, and stops right after the first entry that
raised the stop flag, or at the end of the directory. -/
theorem rangeLoop_scan [Inhabited V] {t : List (FSlot V)} {min max : Nat} :
    ∀ i, i ≤ t.length → ∃ j, i ≤ j ∧ j ≤ t.length ∧
      (∀ q, i ≤ q → q < j → (slotRange S min max (t.getD q (emptyFSlot S))).2 = false) ∧
      ((j = t.length ∧ rangeLoop S min max t i =
          ((List.range' i (t.length - i)).map
            (fun q => (slotRange S min max (t.getD q (emptyFSlot S))).1)).flatten) ∨
       (j < t.length ∧ (slotRange S min max (t.getD j (emptyFSlot S))).2 = true ∧
        rangeLoop S min max t i =
          ((List.range' i (j + 1 - i)).map
            (fun q => (slotRange S min max (t.getD q (emptyFSlot S))).1)).flatten)) := by
  have main : ∀ n i, t.length - i ≤ n → i ≤ t.length → ∃ j, i ≤ j ∧ j ≤ t.length ∧
      (∀ q, i ≤ q → q < j → (slotRange S min max (t.getD q (emptyFSlot S))).2 = false) ∧
      ((j = t.length ∧ rangeLoop S min max t i =
          ((List.range' i (t.length - i)).map
            (fun q => (slotRange S min max (t.getD q (emptyFSlot S))).1)).flatten) ∨
       (j < t.length ∧ (slotRange S min max (t.getD j (emptyFSlot S))).2 = true ∧
        rangeLoop S min max t i =
          ((List.range' i (j + 1 - i)).map
            (fun q => (slotRange S min max (t.getD q (emptyFSlot S))).1)).flatten)) := by
    intro n
    induction n with
    | zero =>
      intro i hle hi
      have hieq : i = t.length := by omega
      refine ⟨i, Nat.le_refl i, hi, fun q hq1 hq2 => by omega, Or.inl ⟨hieq, ?_⟩⟩
      rw [rangeLoop, dif_neg (by omega), show t.length - i = 0 by omega]
      rfl
    | succ n ih =>
      intro i hle hi
      by_cases hlt : i < t.length
      · by_cases hflag : (slotRange S min max (t.getD i (emptyFSlot S))).2 = true
        · refine ⟨i, Nat.le_refl i, hi, fun q hq1 hq2 => by omega,
            Or.inr ⟨hlt, hflag, ?_⟩⟩
          rw [rangeLoop, dif_pos hlt, if_pos hflag,
            show i + 1 - i = 1 by omega]
          simp
        · obtain ⟨j, hij, hjle, hnoflag, hcase⟩ :=
            ih (i + 1) (by omega) (by omega)
          refine ⟨j, by omega, hjle, ?_, ?_⟩
          · intro q hq1 hq2
            rcases Nat.eq_or_lt_of_le hq1 with rfl | hq3
            · exact Bool.eq_false_iff.mpr hflag
            · exact hnoflag q (by omega) hq2
          · rcases hcase with ⟨hjeq, heq⟩ | ⟨hjlt, hjflag, heq⟩
            · refine Or.inl ⟨hjeq, ?_⟩
              rw [rangeLoop, dif_pos hlt, if_neg hflag, heq,
                show t.length - i = (t.length - (i + 1)) + 1 by omega,
                List.range'_succ i (t.length - (i + 1)) 1]
              simp
            · refine Or.inr ⟨hjlt, hjflag, ?_⟩
              rw [rangeLoop, dif_pos hlt, if_neg hflag, heq,
                show j + 1 - i = (j + 1 - (i + 1)) + 1 by omega,
                List.range'_succ i (j + 1 - (i + 1)) 1]
              simp
      · have hieq : i = t.length := by omega
        refine ⟨i, Nat.le_refl i, hi, fun q hq1 hq2 => by omega, Or.inl ⟨hieq, ?_⟩⟩
        rw [rangeLoop, dif_neg (by omega), show t.length - i = 0 by omega]
        rfl
  exact fun i hi => main t.length i (by omega) hi

end ChainedRangeMain


/-! ### Sequential cuckoo insertion preserves locality (any key sequence) -/

section CuckooLocalAll

variable {V : Type} {S : Nat}

theorem cuckooInsertAll_local [Inhabited V] {maxKick B D : Nat}
    {red1 hash1 red2 hash2 : Nat → Nat}
    {kick : List (PSlot V) → List (PSlot V) → Nat → V → List Nat →
      KickRes V × List Nat}
    (hmem : PolicyMem kick) (hD2 : 2 ≤ D)
    (hr1 : ∀ x, red1 x < D) (hr2 : ∀ x, red2 x < D) :
    ∀ {pairs : List (Nat × V)} {t : List (List (PSlot V))} {rng : List Nat}
      {t2 : List (List (PSlot V))} {rng2 : List Nat},
      t.length = D →
      CuckLocal S D red1 hash1 red2 hash2 t →
      cuckooInsertAll S maxKick B red1 hash1 red2 hash2 kick t rng pairs =
        .ok (t2, rng2) →
      t2.length = D ∧ CuckLocal S D red1 hash1 red2 hash2 t2 := by
  intro pairs
  induction pairs with
  | nil =>
    intro t rng t2 rng2 hD hloc hres
    rw [cuckooInsertAll] at hres
    injection hres with hres
    injection hres with h1 h2
    subst h1
    exact ⟨hD, hloc⟩
  | cons kv ps ih =>
    intro t rng t2 rng2 hD hloc hres
    obtain ⟨k, v⟩ := kv
    rw [cuckooInsertAll] at hres
    cases hins : cuckooInsert S maxKick B red1 hash1 red2 hash2 kick t rng k v with
    | error e =>
      rw [hins] at hres
      cases hres
    | ok pr =>
      obtain ⟨tmid, rngmid⟩ := pr
      rw [hins] at hres
      obtain ⟨hl1, hloc1⟩ := cuckooInsertGo_local hmem hD2 hr1 hr2
        (maxKick + 2) t rng k v 0 tmid rngmid hD hloc hins
      exact ih hl1 hloc1 hres

end CuckooLocalAll

/-! ## Claim theorems -/

section Claims

/-- C2: `Chained::insert` promises to fail iff the key already exists,
but it never compares the inline first-level slot key against the inserted
key. On a concrete table whose inline slot already holds key `1`, a second
`insert(1, 20)` returns `true` and the table ends up with two occupied
slots sharing key `1`; the first payload is still the one looked up. -/
theorem claim_C2 :
    (chInsert 100 2 id id
      ((chInsert 100 2 id id (emptyTabC (V := Nat) 100 8) 1 10).1) 1 20).2 = true ∧
    (keysC 100 (chInsert 100 2 id id
      ((chInsert 100 2 id id (emptyTabC (V := Nat) 100 8) 1 10).1) 1 20).1).count 1
      = 2 ∧
    chLookup 100 id id (chInsert 100 2 id id
      ((chInsert 100 2 id id (emptyTabC (V := Nat) 100 8) 1 10).1) 1 20).1 1 =
      some 10 := by
  refine ⟨rfl, ?_, rfl⟩
  decide

/-- C3 (counterexample to the original claim): `Cuckoo` has no sentinel
guard. On a fresh table with sentinel `5`, `lookup(5)` matches an empty
slot and returns its default payload instead of a miss, and `insert(5, 7)`
succeeds while modifying the table. -/
theorem claim_C3_counterexample :
    cuckooLookup (· % 2) id (· % 2) id (emptyTab (V := Nat) 5 2 1) 5 = some 0 ∧
    cuckooInsert 5 50000 1 (· % 2) id (· % 2) id (balancedKick 5 1)
      (emptyTab (V := Nat) 5 2 1) [] 5 7 =
      .ok ([[⟨5, 7⟩], [⟨5, 0⟩]], []) ∧
    ([[⟨5, 7⟩], [⟨5, 0⟩]] : List (List (PSlot Nat))) ≠ emptyTab 5 2 1 := by
  refine ⟨rfl, rfl, ?_⟩
  decide

/-- C3 (amended): the sentinel guard holds for `Chained`, `Probing` and
`RobinhoodProbing` — `insert(S, _)` returns `false` without touching the
table and `lookup(S)` misses — but not for `Cuckoo`, which has no guard
(see the counterexample). -/
theorem claim_C3 :
    (∀ (V : Type) [Inhabited V] (S B : Nat) (red hash : Nat → Nat)
      (t : List (FSlot V)) (v : V), chInsert S B red hash t S v = (t, false)) ∧
    (∀ (V : Type) [Inhabited V] (S : Nat) (red hash : Nat → Nat)
      (t : List (FSlot V)), chLookup S red hash t S = none) ∧
    (∀ (V : Type) (S maxSteps : Nat) (probe : Nat → Nat → Nat)
      (red hash : Nat → Nat) (t : List (List (PSlot V))) (v : V),
      insertP S maxSteps probe red hash t S v = .ok (t, false)) ∧
    (∀ (V : Type) (S : Nat) (probe : Nat → Nat → Nat) (red hash : Nat → Nat)
      (t : List (List (RSlot V))) (v : V) (fuel : Nat),
      insertR S probe red hash t S v fuel = .ok (t, false)) ∧
    (∀ (σ V : Type) (S : Nat) (kf : σ → Nat) (pf : σ → V)
      (probe : Nat → Nat → Nat) (red hash : Nat → Nat) (t : List (List σ)),
      lookupT S kf pf probe red hash t S = some none) := by
  refine ⟨?_, ?_, ?_, ?_, ?_⟩
  · intro V _ S B red hash t v
    rw [chInsert, if_pos rfl]
  · intro V _ S red hash t
    rw [chLookup, if_pos rfl]
  · intro V S maxSteps probe red hash t v
    rw [insertP, if_pos rfl]
  · intro V S probe red hash t v fuel
    rw [insertR, if_pos rfl]
  · intro σ V S kf pf probe red hash t
    rw [lookupT, if_pos rfl]

/-- C4 (counterexample to the original claim): with `Bias = 0`
(`UnbiasedKicking`, `threshold_ = 0`) and both buckets full, the random
word `r = 0` satisfies `r ≤ threshold`, and the code evicts from bucket 2 —
the claim predicts bucket 1 both via its `r > threshold ↔ bucket 2` rule
and via its "Unbiased always evicts from bucket 1" consequence. -/
theorem claim_C4_counterexample :
    countOcc 9 [(⟨1, 10⟩ : PSlot Nat)] = 1 ∧
    countOcc 9 [(⟨2, 20⟩ : PSlot Nat)] = 1 ∧
    (biasedKick (V := Nat) 9 1 0 [⟨1, 10⟩] [⟨2, 20⟩] 3 30 [0]).1.kicked =
      some (2, 20) ∧
    (biasedKick (V := Nat) 9 1 0 [⟨1, 10⟩] [⟨2, 20⟩] 3 30 [0]).1.b2 = [⟨3, 30⟩] ∧
    (biasedKick (V := Nat) 9 1 0 [⟨1, 10⟩] [⟨2, 20⟩] 3 30 [0]).1.b1 = [⟨1, 10⟩] := by
  refine ⟨?_, ?_, rfl, rfl, rfl⟩ <;> decide

/-- C4 (amended): on the both-buckets-full path, `BiasedKicking` evicts
from bucket 1 exactly when `r > threshold_` and from bucket 2 otherwise
(the reverse of the claimed direction); in particular Unbiased
(`threshold = 0`) evicts from bucket 2 whenever `r = 0`. -/
theorem claim_C4 (V : Type) [Inhabited V] (S B thr : Nat)
    (b1 b2 : List (PSlot V)) (k : Nat) (v : V) (rng : List Nat)
    (hc1 : ¬ countOcc S b1 < B) (hc2 : ¬ countOcc S b2 < B) :
    (thr < rng.headD 0 →
      (biasedKick S B thr b1 b2 k v rng).1 =
        { b1 := b1.set (rng.headD 0 % B) ⟨k, v⟩, b2 := b2,
          kicked := some ((b1.getD (rng.headD 0 % B) ⟨S, default⟩).key,
            (b1.getD (rng.headD 0 % B) ⟨S, default⟩).payload) }) ∧
    (¬ thr < rng.headD 0 →
      (biasedKick S B thr b1 b2 k v rng).1 =
        { b1 := b1, b2 := b2.set (rng.headD 0 % B) ⟨k, v⟩,
          kicked := some ((b2.getD (rng.headD 0 % B) ⟨S, default⟩).key,
            (b2.getD (rng.headD 0 % B) ⟨S, default⟩).payload) }) := by
  constructor
  · intro h3
    rw [biasedKick, if_neg hc1, if_neg hc2, if_pos h3]
  · intro h3
    rw [biasedKick, if_neg hc1, if_neg hc2, if_neg h3]

theorem claim_C4_witness :
    (biasedKick (V := Nat) 9 1 0 [⟨1, 10⟩] [⟨2, 20⟩] 3 30 [0]).1 =
      { b1 := [⟨1, 10⟩], b2 := [⟨3, 30⟩], kicked := some (2, 20) } := by
  have h := (claim_C4 Nat 9 1 0 [⟨1, 10⟩] [⟨2, 20⟩] 3 30 [0]
    (by decide) (by decide)).2 (by decide)
  rw [h]
  rfl

/-- C6: the Robin-Hood displacement mechanics. When the in-bucket scan at
probing step `step` reaches an occupied, non-matching slot with
`psl < step` (and the infinite-loop guard does not fire), the incumbent
slot value is read out and carried on — key, payload and its own psl —
while the slot is overwritten with `{key, payload, psl := step}`; and when
the walk continues with a displaced entry, the next probe index is computed
from the recomputed origin `reduce(hash(displaced key))`. -/
theorem claim_C6 (V : Type) (S origKey k : Nat) (v : V) (step : Nat)
    (s : RSlot V) (ss : List (RSlot V))
    (hS : s.key ≠ S) (hk : s.key ≠ k) (hpsl : s.psl < step)
    (horig : origKey ≠ s.key) :
    (rhScan S origKey k v step (s :: ss) =
      match rhScan S origKey s.key s.payload s.psl ss with
      | .placed ss2 => .placed ({ key := k, payload := v, psl := step } :: ss2)
      | .dup ss2 => .dup ({ key := k, payload := v, psl := step } :: ss2)
      | .err => .err
      | .cont ss2 k2 v2 st2 =>
          .cont ({ key := k, payload := v, psl := step } :: ss2) k2 v2 st2) ∧
    (∀ (probe : Nat → Nat → Nat) (red hash : Nat → Nat) (origKey2 : Nat)
        (t : List (List (RSlot V))) (k3 : Nat) (v3 : V) (st idx fuel : Nat)
        (b2 : List (RSlot V)) (k2 : Nat) (v2 : V) (st2 : Nat),
      rhScan S origKey2 k3 v3 st (t.getD idx []) = .cont b2 k2 v2 st2 →
      probe (red (hash k2)) (st2 + 1) ≠ red (hash k2) →
      insertRWalk S probe red hash origKey2 t k3 v3 st idx (fuel + 1) =
        insertRWalk S probe red hash origKey2 (t.set idx b2) k2 v2 (st2 + 1)
          (probe (red (hash k2)) (st2 + 1)) fuel) := by
  constructor
  · rw [rhScan, if_neg hS, if_neg hk, if_pos hpsl, if_neg horig]
  · intro probe red hash origKey2 t k3 v3 st idx fuel b2 k2 v2 st2 hscan hnc
    rw [insertRWalk, hscan]
    simp only
    rw [if_neg hnc]

theorem claim_C6_witness :
    rhScan 9 7 3 (30 : Nat) 2 [⟨1, 10, 1⟩, ⟨9, 0, 0⟩] =
      .cont [⟨3, 30, 2⟩, ⟨1, 10, 1⟩] 9 0 0 ∨
    rhScan 9 7 3 (30 : Nat) 2 [⟨1, 10, 1⟩, ⟨9, 0, 0⟩] =
      match rhScan 9 7 1 (10 : Nat) 1 [⟨9, 0, 0⟩] with
      | .placed ss2 => .placed (⟨3, 30, 2⟩ :: ss2)
      | .dup ss2 => .dup (⟨3, 30, 2⟩ :: ss2)
      | .err => .err
      | .cont ss2 k2 v2 st2 => .cont (⟨3, 30, 2⟩ :: ss2) k2 v2 st2 :=
  Or.inr ((claim_C6 Nat 9 7 3 30 2 ⟨1, 10, 1⟩ [⟨9, 0, 0⟩]
    (by decide) (by decide) (by decide) (by decide)).1)

/-- C8 (counterexample to the original claim): with `B = 1`, bucket 1 empty
(`c1 = 0`) and bucket 2 full (`c2 = 1`), the claimed condition
`c1 ≤ c2 < B` is false and the claim prescribes a random eviction; the code
tests `c1 ≤ c2 && c1 < B` and places the entry in bucket 1 without any
eviction. -/
theorem claim_C8_counterexample :
    countOcc 9 [(⟨9, 0⟩ : PSlot Nat)] = 0 ∧
    countOcc 9 [(⟨2, 20⟩ : PSlot Nat)] = 1 ∧
    ¬ (countOcc 9 [(⟨2, 20⟩ : PSlot Nat)] < 1) ∧
    (balancedKick (V := Nat) 9 1 [⟨9, 0⟩] [⟨2, 20⟩] 3 30 [5]).1.kicked = none ∧
    (balancedKick (V := Nat) 9 1 [⟨9, 0⟩] [⟨2, 20⟩] 3 30 [5]).1.b1 = [⟨3, 30⟩] := by
  refine ⟨?_, ?_, ?_, rfl, rfl⟩ <;> decide

/-- C8 (amended): `BalancedKicking` fills bucket 1 at index `c1` exactly
when `c1 ≤ c2 ∧ c1 < B` (not `c1 ≤ c2 < B`), else fills bucket 2 at `c2`
when `c2 < B`, else draws `r`, picks the victim bucket by `r & 1` (bucket 1
when the bit is set) and the victim index `r mod B`, swapping the incumbent
out. -/
theorem claim_C8 (V : Type) [Inhabited V] (S B : Nat)
    (b1 b2 : List (PSlot V)) (k : Nat) (v : V) (rng : List Nat) :
    (countOcc S b1 ≤ countOcc S b2 ∧ countOcc S b1 < B →
      (balancedKick S B b1 b2 k v rng).1 =
        { b1 := b1.set (countOcc S b1) ⟨k, v⟩, b2 := b2, kicked := none }) ∧
    (¬ (countOcc S b1 ≤ countOcc S b2 ∧ countOcc S b1 < B) →
      countOcc S b2 < B →
      (balancedKick S B b1 b2 k v rng).1 =
        { b1 := b1, b2 := b2.set (countOcc S b2) ⟨k, v⟩, kicked := none }) ∧
    (¬ (countOcc S b1 ≤ countOcc S b2 ∧ countOcc S b1 < B) →
      ¬ countOcc S b2 < B →
      (balancedKick S B b1 b2 k v rng).1 =
        (if rng.headD 0 % 2 = 1 then
          { b1 := b1.set (rng.headD 0 % B) ⟨k, v⟩, b2 := b2,
            kicked := some ((b1.getD (rng.headD 0 % B) ⟨S, default⟩).key,
              (b1.getD (rng.headD 0 % B) ⟨S, default⟩).payload) }
        else
          { b1 := b1, b2 := b2.set (rng.headD 0 % B) ⟨k, v⟩,
            kicked := some ((b2.getD (rng.headD 0 % B) ⟨S, default⟩).key,
              (b2.getD (rng.headD 0 % B) ⟨S, default⟩).payload) })) := by
  refine ⟨?_, ?_, ?_⟩
  · intro h1
    rw [balancedKick, if_pos h1]
  · intro h1 h2
    rw [balancedKick, if_neg h1, if_pos h2]
  · intro h1 h2
    rw [balancedKick, if_neg h1, if_neg h2]
    by_cases h3 : rng.headD 0 % 2 = 1
    · rw [if_pos h3, if_pos h3]
    · rw [if_neg h3, if_neg h3]

theorem claim_C8_witness :
    (balancedKick (V := Nat) 9 1 [⟨9, 0⟩] [⟨2, 20⟩] 3 30 [5]).1 =
      { b1 := [⟨3, 30⟩], b2 := [⟨2, 20⟩], kicked := none } := by
  have h := (claim_C8 Nat 9 1 [⟨9, 0⟩] [⟨2, 20⟩] 3 30 [5]).1 (by decide)
  rw [h]
  rfl

/-- C9: after any sequence of cuckoo inserts that completes without a fatal
error (under either repository kicking policy), every occupied slot holding
key `K` lies in one of `K`'s candidate buckets — `i1 = reduce1(hash1 K)` or
the nudged `i2` — and these are exactly the two indices `Cuckoo::lookup`
scans. -/
theorem claim_C9 (V : Type) [Inhabited V] (S maxKick B D : Nat)
    (red1 hash1 red2 hash2 : Nat → Nat) (pairs : List (Nat × V)) (rng : List Nat)
    (hD2 : 2 ≤ D) (hr1 : ∀ x, red1 x < D) (hr2 : ∀ x, red2 x < D) :
    (∀ t2 rng2, cuckooInsertAll S maxKick B red1 hash1 red2 hash2
        (balancedKick S B) (emptyTab S D B) rng pairs = .ok (t2, rng2) →
      t2.length = D ∧
      (∀ i (hi : i < t2.length), ∀ s ∈ t2[i], s.key ≠ S →
        i = red1 (hash1 s.key) ∨
        i = nudge2 D (red1 (hash1 s.key)) (red2 (hash2 s.key))) ∧
      (∀ K, cuckooLookup red1 hash1 red2 hash2 t2 K =
        (match cuckooScan K (t2.getD (red1 (hash1 K)) []) with
         | some v => some v
         | none => cuckooScan K
             (t2.getD (nudge2 D (red1 (hash1 K)) (red2 (hash2 K))) [])))) ∧
    (∀ thr t2 rng2, cuckooInsertAll S maxKick B red1 hash1 red2 hash2
        (biasedKick S B thr) (emptyTab S D B) rng pairs = .ok (t2, rng2) →
      t2.length = D ∧
      (∀ i (hi : i < t2.length), ∀ s ∈ t2[i], s.key ≠ S →
        i = red1 (hash1 s.key) ∨
        i = nudge2 D (red1 (hash1 s.key)) (red2 (hash2 s.key))) ∧
      (∀ K, cuckooLookup red1 hash1 red2 hash2 t2 K =
        (match cuckooScan K (t2.getD (red1 (hash1 K)) []) with
         | some v => some v
         | none => cuckooScan K
             (t2.getD (nudge2 D (red1 (hash1 K)) (red2 (hash2 K))) [])))) := by
  have hD0 : (emptyTab (V := V) S D B).length = D := by simp [emptyTab]
  constructor
  · intro t2 rng2 hres
    obtain ⟨hlen, hloc⟩ := cuckooInsertAll_local balancedKick_mem hD2 hr1 hr2
      hD0 CuckLocal_emptyTab hres
    refine ⟨hlen, hloc, ?_⟩
    intro K
    rw [cuckooLookup, hlen]
  · intro thr t2 rng2 hres
    obtain ⟨hlen, hloc⟩ := cuckooInsertAll_local biasedKick_mem hD2 hr1 hr2
      hD0 CuckLocal_emptyTab hres
    refine ⟨hlen, hloc, ?_⟩
    intro K
    rw [cuckooLookup, hlen]

theorem claim_C9_witness :
    (0 = 1 % 2 ∨ 0 = nudge2 2 (1 % 2) (1 % 2)) ∧
    cuckooLookup (· % 2) id (· % 2) id [[⟨1, 7⟩], [⟨100, 0⟩]] 1 =
      (match cuckooScan 1 ([[(⟨1, 7⟩ : PSlot Nat)], [⟨100, 0⟩]].getD (1 % 2) []) with
       | some v => some v
       | none => cuckooScan 1
           ([[(⟨1, 7⟩ : PSlot Nat)], [⟨100, 0⟩]].getD (nudge2 2 (1 % 2) (1 % 2)) [])) := by
  have h := (claim_C9 Nat 100 50000 1 2 (· % 2) id (· % 2) id [(1, 7)] []
    (by decide) (fun x => Nat.mod_lt x (by decide))
    (fun x => Nat.mod_lt x (by decide))).1 [[⟨1, 7⟩], [⟨100, 0⟩]] [] rfl
  refine ⟨?_, h.2.2 1⟩
  exact h.2.1 0 (by decide) ⟨1, 7⟩ (by decide) (by decide)

/-- C10: both probe functions return the origin at step `D`, so the cycle
check of the probing lookups fires after at most `D` steps and lookup
terminates with an answer on every table, full tables included. -/
theorem claim_C10 :
    (∀ D O, 0 < D → O < D → linearProbe D O D = O) ∧
    (∀ D O, 0 < D → O < D → quadraticProbe D O D = O) ∧
    (∀ (V : Type) (S D : Nat) (red hash : Nat → Nat)
      (t : List (List (PSlot V))) (k : Nat),
      0 < D → (∀ x, red x < D) → t.length = D →
      (lookupT S PSlot.key PSlot.payload (linearProbe D) red hash t k).isSome ∧
      (lookupT S PSlot.key PSlot.payload (quadraticProbe D) red hash t k).isSome) ∧
    (∀ (V : Type) (S D : Nat) (red hash : Nat → Nat)
      (t : List (List (RSlot V))) (k : Nat),
      0 < D → (∀ x, red x < D) → t.length = D →
      (lookupT S RSlot.key RSlot.payload (linearProbe D) red hash t k).isSome ∧
      (lookupT S RSlot.key RSlot.payload (quadraticProbe D) red hash t k).isSome) := by
  refine ⟨?_, ?_, ?_, ?_⟩
  · intro D O hD hO
    exact (goodProbe_linear D hD).cyc O hO
  · intro D O hD hO
    exact (goodProbe_quadratic D hD).cyc O hO
  · intro V S D red hash t k hD hred hlen
    exact ⟨lookupT_isSome (goodProbe_linear D hD) hred hlen k,
      lookupT_isSome (goodProbe_quadratic D hD) hred hlen k⟩
  · intro V S D red hash t k hD hred hlen
    exact ⟨lookupT_isSome (goodProbe_linear D hD) hred hlen k,
      lookupT_isSome (goodProbe_quadratic D hD) hred hlen k⟩

theorem claim_C10_witness :
    linearProbe 4 1 4 = 1 ∧ quadraticProbe 4 1 4 = 1 ∧
    (lookupT 100 PSlot.key PSlot.payload (quadraticProbe 2) (· % 2) id
      [[(⟨1, 7⟩ : PSlot Nat)], [⟨100, 0⟩]] 1).isSome := by
  refine ⟨claim_C10.1 4 1 (by decide) (by decide),
    claim_C10.2.1 4 1 (by decide) (by decide),
    (claim_C10.2.2.1 Nat 100 2 (· % 2) id [[⟨1, 7⟩], [⟨100, 0⟩]] 1
      (by decide) (fun x => Nat.mod_lt x (by decide)) rfl).2⟩

end Claims


section MainClaims

/-- C1: for every engine (Chained, Probing with either probe function,
RobinhoodProbing with either probe function, Cuckoo with either kicking
policy), distinct non-sentinel keys inserted sequentially into a fresh
table — all inserts completing without a fatal error — are all found by
`lookup` with their payloads, and absent non-sentinel keys miss. -/
theorem claim_C1 (V : Type) [Inhabited V]
    (S D B maxSteps fuel maxKick thr : Nat)
    (red hash red2 hash2 : Nat → Nat)
    (pairs : List (Nat × V)) (rng : List Nat)
    (hD2 : 2 ≤ D) (hB : 0 < B)
    (hred : ∀ x, red x < D) (hred2 : ∀ x, red2 x < D)
    (hnd : (pairs.map Prod.fst).Nodup) (hkS : ∀ p ∈ pairs, p.1 ≠ S) :
    ((∀ p ∈ pairs, chLookup S red hash
        (chInsertAll S B red hash (emptyTabC S D) pairs) p.1 = some p.2) ∧
      (∀ k, k ≠ S → k ∉ pairs.map Prod.fst →
        chLookup S red hash
          (chInsertAll S B red hash (emptyTabC S D) pairs) k = none)) ∧
    (∀ t2, insertAllP S maxSteps (linearProbe D) red hash
        (emptyTab S D B) pairs = .ok t2 →
      (∀ p ∈ pairs, lookupT S PSlot.key PSlot.payload (linearProbe D) red hash
        t2 p.1 = some (some p.2)) ∧
      (∀ k, k ≠ S → k ∉ pairs.map Prod.fst →
        lookupT S PSlot.key PSlot.payload (linearProbe D) red hash t2 k =
          some none)) ∧
    (∀ t2, insertAllP S maxSteps (quadraticProbe D) red hash
        (emptyTab S D B) pairs = .ok t2 →
      (∀ p ∈ pairs, lookupT S PSlot.key PSlot.payload (quadraticProbe D) red hash
        t2 p.1 = some (some p.2)) ∧
      (∀ k, k ≠ S → k ∉ pairs.map Prod.fst →
        lookupT S PSlot.key PSlot.payload (quadraticProbe D) red hash t2 k =
          some none)) ∧
    (∀ t2, insertAllR S (linearProbe D) red hash fuel
        (emptyTabR S D B) pairs = .ok t2 →
      (∀ p ∈ pairs, lookupT S RSlot.key RSlot.payload (linearProbe D) red hash
        t2 p.1 = some (some p.2)) ∧
      (∀ k, k ≠ S → k ∉ pairs.map Prod.fst →
        lookupT S RSlot.key RSlot.payload (linearProbe D) red hash t2 k =
          some none)) ∧
    (∀ t2, insertAllR S (quadraticProbe D) red hash fuel
        (emptyTabR S D B) pairs = .ok t2 →
      (∀ p ∈ pairs, lookupT S RSlot.key RSlot.payload (quadraticProbe D) red hash
        t2 p.1 = some (some p.2)) ∧
      (∀ k, k ≠ S → k ∉ pairs.map Prod.fst →
        lookupT S RSlot.key RSlot.payload (quadraticProbe D) red hash t2 k =
          some none)) ∧
    (∀ t2 rng2, cuckooInsertAll S maxKick B red hash red2 hash2
        (balancedKick S B) (emptyTab S D B) rng pairs = .ok (t2, rng2) →
      (∀ p ∈ pairs, cuckooLookup red hash red2 hash2 t2 p.1 = some p.2) ∧
      (∀ k, k ≠ S → k ∉ pairs.map Prod.fst →
        cuckooLookup red hash red2 hash2 t2 k = none)) ∧
    (∀ t2 rng2, cuckooInsertAll S maxKick B red hash red2 hash2
        (biasedKick S B thr) (emptyTab S D B) rng pairs = .ok (t2, rng2) →
      (∀ p ∈ pairs, cuckooLookup red hash red2 hash2 t2 p.1 = some p.2) ∧
      (∀ k, k ≠ S → k ∉ pairs.map Prod.fst →
        cuckooLookup red hash red2 hash2 t2 k = none)) := by
  have hDpos : 0 < D := by omega
  refine ⟨roundtripC hred hnd hkS, ?_, ?_, ?_, ?_, ?_, ?_⟩
  · intro t2 hres
    exact roundtripP (goodProbe_linear D hDpos) hred hnd hkS hres
  · intro t2 hres
    exact roundtripP (goodProbe_quadratic D hDpos) hred hnd hkS hres
  · intro t2 hres
    exact roundtripR (goodProbe_linear D hDpos) hred hnd hkS hres
  · intro t2 hres
    exact roundtripR (goodProbe_quadratic D hDpos) hred hnd hkS hres
  · intro t2 rng2 hres
    exact roundtripK (balancedKick_ok hB) balancedKick_mem hD2 hred hred2
      hnd hkS hres
  · intro t2 rng2 hres
    exact roundtripK (biasedKick_ok hB) biasedKick_mem hD2 hred hred2
      hnd hkS hres

theorem claim_C1_witness :
    chLookup 100 (· % 2) id (chInsertAll 100 1 (· % 2) id
      (emptyTabC (V := Nat) 100 2) [(1, 7)]) 1 = some 7 ∧
    chLookup 100 (· % 2) id (chInsertAll 100 1 (· % 2) id
      (emptyTabC (V := Nat) 100 2) [(1, 7)]) 2 = none ∧
    lookupT 100 PSlot.key PSlot.payload (quadraticProbe 2) (· % 2) id
      [[(⟨100, 0⟩ : PSlot Nat)], [⟨1, 7⟩]] 1 = some (some 7) ∧
    lookupT 100 RSlot.key RSlot.payload (quadraticProbe 2) (· % 2) id
      [[(⟨100, 0, 0⟩ : RSlot Nat)], [⟨1, 7, 0⟩]] 1 = some (some 7) ∧
    cuckooLookup (· % 2) id (· % 2) id
      [[(⟨1, 7⟩ : PSlot Nat)], [⟨100, 0⟩]] 1 = some 7 := by
  have h := claim_C1 Nat 100 2 1 10 20 50000 0 (· % 2) id (· % 2) id
    [(1, 7)] [] (by decide) (by decide)
    (fun x => Nat.mod_lt x (by decide)) (fun x => Nat.mod_lt x (by decide))
    (by decide) (by decide)
  exact ⟨h.1.1 (1, 7) (by decide), h.1.2 2 (by decide) (by decide),
    (h.2.2.1 [[⟨100, 0⟩], [⟨1, 7⟩]] rfl).1 (1, 7) (by decide),
    (h.2.2.2.2.1 [[⟨100, 0, 0⟩], [⟨1, 7, 0⟩]] rfl).1 (1, 7) (by decide),
    (h.2.2.2.2.2.1 [[⟨1, 7⟩], [⟨100, 0⟩]] [] rfl).1 (1, 7) (by decide)⟩

/-- C5: for a well-formed chained table under a monotone hash-reducer
composition, `lookup_range(min, max)` with non-sentinel `min ≤ max` returns
exactly the payloads of the stored pairs with keys in `[min, max]` (here as
a list equality, which subsumes the claimed multiset equality); and the
directory walk scans entries one at a time from the start index, stopping
right after the first entry that observed a non-sentinel key `≥ max`, or at
the end of the directory. -/
theorem claim_C5 (V : Type) [Inhabited V] (S D : Nat) (red hash : Nat → Nat)
    (t : List (FSlot V)) (min max : Nat)
    (hred : ∀ x, red x < D) (hD : t.length = D) (hwf : CWf S red hash t)
    (hminmax : min ≤ max) (hmax : max < S)
    (hmono : ∀ a b, a ≤ b → red (hash a) ≤ red (hash b)) :
    (lookupRangeC S red hash t min max =
      ((tabPairsC S t).filter
        (fun p => decide (min ≤ p.1 ∧ p.1 ≤ max))).map Prod.snd) ∧
    (∀ i, i ≤ t.length → ∃ j, i ≤ j ∧ j ≤ t.length ∧
      (∀ q, i ≤ q → q < j →
        (slotRange S min max (t.getD q (emptyFSlot S))).2 = false) ∧
      ((j = t.length ∧ rangeLoop S min max t i =
          ((List.range' i (t.length - i)).map
            (fun q => (slotRange S min max (t.getD q (emptyFSlot S))).1)).flatten) ∨
       (j < t.length ∧ (slotRange S min max (t.getD j (emptyFSlot S))).2 = true ∧
        rangeLoop S min max t i =
          ((List.range' i (j + 1 - i)).map
            (fun q => (slotRange S min max (t.getD q (emptyFSlot S))).1)).flatten))) :=
  ⟨lookupRangeC_eq hred hD hwf hminmax hmax hmono,
    fun i hi => rangeLoop_scan i hi⟩

theorem claim_C5_witness :
    lookupRangeC 100 (fun x => Nat.min (x / 50) 1) id
      (chInsertAll 100 1 (fun x => Nat.min (x / 50) 1) id
        (emptyTabC (V := Nat) 100 2) [(10, 7), (60, 8)]) 10 60 = [7, 8] := by
  have hred : ∀ x, Nat.min (x / 50) 1 < 2 := fun x =>
    Nat.lt_succ_of_le (Nat.min_le_right _ _)
  have h0 : CWf 100 (fun x => Nat.min (x / 50) 1) id
      (chInsertAll 100 1 (fun x => Nat.min (x / 50) 1) id
        (emptyTabC (V := Nat) 100 2) [(10, 7), (60, 8)]) ∧
      (chInsertAll 100 1 (fun x => Nat.min (x / 50) 1) id
        (emptyTabC (V := Nat) 100 2) [(10, 7), (60, 8)]).length =
        (emptyTabC (V := Nat) 100 2).length ∧
      (tabPairsC 100 (chInsertAll 100 1 (fun x => Nat.min (x / 50) 1) id
        (emptyTabC (V := Nat) 100 2) [(10, 7), (60, 8)])).Perm
        ([(10, 7), (60, 8)] ++ tabPairsC 100 (emptyTabC (V := Nat) 100 2)) :=
    chInsertAll_ok hred (by simp [emptyTabC]) CWf_emptyTabC (by decide)
      (by decide) (by intro p hp; rw [keysC, tabPairsC_emptyTabC]; simp)
  have h := claim_C5 Nat 100 2 (fun x => Nat.min (x / 50) 1) id
    (chInsertAll 100 1 (fun x => Nat.min (x / 50) 1) id
      (emptyTabC (V := Nat) 100 2) [(10, 7), (60, 8)]) 10 60
    hred (by rw [h0.2.1]; simp [emptyTabC]) h0.1 (by decide) (by decide)
    (by
      intro a b hab
      show Nat.min (a / 50) 1 ≤ Nat.min (b / 50) 1
      exact min_le_min (Nat.div_le_div_right (c := 50) hab) (Nat.le_refl 1))
  rw [h.1]
  rfl

/-- C7: `Probing::insert` on a non-sentinel key either returns a boolean or
raises one of exactly the two source errors (`maxSteps` exceeded or probe
cycle back to the origin) — never the model fuel monitor; a `false` return
leaves the table unchanged and means the key was already stored, and
conversely an already-stored key yields `.ok (t, false)` under the table
invariant; lookups always produce an answer, misses as an empty optional. -/
theorem claim_C7 (V : Type) [Inhabited V] (S maxSteps D : Nat)
    (probe : Nat → Nat → Nat) (red hash : Nat → Nat)
    (t : List (List (PSlot V))) (k : Nat) (v : V) (hkS : k ≠ S) :
    (∀ e, insertP S maxSteps probe red hash t k v = .error e →
      e = PErr.maxSteps ∨ e = PErr.cycle) ∧
    (∀ t2, insertP S maxSteps probe red hash t k v = .ok (t2, false) →
      t2 = t ∧ k ∈ keysT S PSlot.key PSlot.payload t) ∧
    (GoodProbe D probe → (∀ x, red x < D) → t.length = D →
      PWf S probe red hash maxSteps t →
      k ∈ keysT S PSlot.key PSlot.payload t →
      insertP S maxSteps probe red hash t k v = .ok (t, false)) ∧
    (GoodProbe D probe → (∀ x, red x < D) → t.length = D →
      (lookupT S PSlot.key PSlot.payload probe red hash t k).isSome) := by
  refine ⟨?_, ?_, ?_, ?_⟩
  · intro e h
    cases e with
    | maxSteps => exact Or.inl rfl
    | cycle => exact Or.inr rfl
    | fuelOut => exact absurd h insertP_no_fuelOut
  · intro t2 h
    rw [insertP, if_neg hkS] at h
    exact insertPWalk_false hkS _ _ _ h
  · intro gp hred2 hD hwf hkmem
    exact insertP_dup gp hred2 hD hwf hkS hkmem v
  · intro gp hred2 hD
    exact lookupT_isSome gp hred2 hD k

theorem claim_C7_witness :
    insertP 100 10 (quadraticProbe 2) (· % 2) id
      [[(⟨100, 0⟩ : PSlot Nat)], [⟨1, 7⟩]] 1 9 =
      .ok ([[⟨100, 0⟩], [⟨1, 7⟩]], false) ∧
    (lookupT 100 PSlot.key PSlot.payload (quadraticProbe 2) (· % 2) id
      [[(⟨100, 0⟩ : PSlot Nat)], [⟨1, 7⟩]] 1).isSome := by
  have hresP : insertAllP 100 10 (quadraticProbe 2) (· % 2) id
      (emptyTab (V := Nat) 100 2 1) [(1, 7)] = .ok [[⟨100, 0⟩], [⟨1, 7⟩]] := rfl
  obtain ⟨hwfP, -, -⟩ := insertAllP_ok PWf_emptyTab (by decide) (by decide)
    (by intro p hp; rw [keysT, tabPairs_emptyTab]; simp) hresP
  have h := claim_C7 Nat 100 10 2 (quadraticProbe 2) (· % 2) id
    [[⟨100, 0⟩], [⟨1, 7⟩]] 1 9 (by decide)
  exact ⟨h.2.2.1 (goodProbe_quadratic 2 (by decide))
      (fun x => Nat.mod_lt x (by decide)) rfl hwfP (by decide),
    h.2.2.2 (goodProbe_quadratic 2 (by decide))
      (fun x => Nat.mod_lt x (by decide)) rfl⟩

end MainClaims


end Hashtable
